import Mathlib

/-!
Node tensor Laplacian kernels (2D) of AMReX.

A shallow embedding of `Src/LinearSolvers/MLMG/AMReX_MLNodeTensorLap_2D_K.H`,
and of the id packing and the id counter of `Src/Particle/AMReX_Particle.H`.

* `Real` is modelled by the rationals: every statement below is about exact
  arithmetic, and every definition can be evaluated.
* An `Array4<T>` view is a total function on integer node coordinates.  A
  `const` view is an immutable argument; a mutable view is the state that a
  kernel threads through its loop.
* A `Vector<T>` is a list; `push_back` appends at the end.
* Node indices are C++ `int`s. The kernels are called on nodes of allocated
  arrays, where `i-1`, `i+1` and `ic*2` cannot overflow; indices are modelled
  by unbounded integers.
* A `uint64_t` word is a natural number, with the results of shifts reduced
  modulo `2^64`; `Long` and `int` values are integers. A call of
  `amrex::Abort` ends the program: the function returns `none`.
* `Box`, `Loop`, `LoopConcurrent` and `coarsen` are not part of the translated
  sources; they are modelled as documented at their definitions.
-/

namespace amrex

/-! ## Data model -/

/-- The floating point type of the kernels, in exact arithmetic. -/
abbrev Real := ℚ

/-- Triple of integer indices (`amrex::Dim3`). -/
structure Dim3 where
  x : Int
  y : Int
  z : Int
deriving DecidableEq, Repr

/-- View of a three-index array (`amrex::Array4<T>`), without bounds. -/
abbrev Array4 (α : Type) := Int → Int → Int → α

/-- The assignment `a(i,j,k) = v` on a mutable view. -/
def Array4.set {α : Type} (a : Array4 α) (i j k : Int) (v : α) : Array4 α :=
  fun i' j' k' => if i' = i ∧ j' = j ∧ k' = k then v else a i' j' k'

/-- Fixed size array `amrex::GpuArray<T,N>`; `s[n]` is `s n`. -/
abbrev GpuArray (α : Type) (n : Nat) := Fin n → α

/-- Number of space dimensions of the 2D kernels. -/
abbrev AMREX_SPACEDIM : Nat := 2

/-- Modelled from the spec: the index range (`amrex::Box`) is absent from the
sources; the spec describes it as an inclusive lower/upper bound box of node
coordinates. A two-dimensional box has `lo.z = hi.z = 0`. -/
structure Box where
  lo : Dim3
  hi : Dim3
deriving DecidableEq, Repr

/-- Lower corner of a box (`amrex::lbound`). -/
def lbound (b : Box) : Dim3 := b.lo

/-- Upper corner of a box (`amrex::ubound`). -/
def ubound (b : Box) : Dim3 := b.hi

/-- The integers `lo, lo+1, ..., hi` in increasing order: the values taken by
the loop variable of `for (int i = lo; i <= hi; ++i)`. -/
def intRange (lo hi : Int) : List Int :=
  (List.range (hi + 1 - lo).toNat).map (fun (n : Nat) => lo + (n : Int))

/-- The nodes of a box in the order of the triple loop
`for k { for j { for i { ... } } }` (`i` fastest, then `j`, then `k`). -/
def Box.nodes (b : Box) : List (Int × Int × Int) :=
  (intRange (lbound b).z (ubound b).z).flatMap (fun k =>
    (intRange (lbound b).y (ubound b).y).flatMap (fun j =>
      (intRange (lbound b).x (ubound b).x).map (fun i => (i, j, k))))

/-- Membership of a node in a box. -/
def Box.contains (b : Box) (i j k : Int) : Prop :=
  b.lo.x ≤ i ∧ i ≤ b.hi.x ∧ b.lo.y ≤ j ∧ j ≤ b.hi.y ∧ b.lo.z ≤ k ∧ k ≤ b.hi.z

instance (b : Box) (i j k : Int) : Decidable (b.contains i j k) := by
  unfold Box.contains; infer_instance

/-- Modelled from the spec: `amrex::Loop` is absent from the sources; the spec
describes it as yielding every coordinate of the inclusive box in strict
lexicographic order. The loop body transforms the state `σ` (the mutable views
it captured). -/
def Loop {σ : Type} (b : Box) (f : Int → Int → Int → σ → σ) (st : σ) : σ :=
  b.nodes.foldl (fun st p => f p.1 p.2.1 p.2.2 st) st

/-- Modelled from the spec: `amrex::LoopConcurrent` is absent from the sources;
on the host it runs the body over the same nodes as `Loop`, the body being
declared free of loop-carried dependences. -/
def LoopConcurrent {σ : Type} (b : Box) (f : Int → Int → Int → σ → σ) (st : σ) : σ :=
  Loop b f st

/-- Modelled from the spec: `amrex::coarsen` is absent from the sources; the
spec describes the coarse index as the floor division of the fine index by the
refinement ratio. -/
def coarsen (i ratio : Int) : Int := Int.fdiv i ratio

/-! ## Operator apply -/

/-- Body of the loop of `mlndtslap_adotx` at node `(i,j,k)`: the lambda
captures `x`, `s` and the three products `h00`, `h01`, `h11`, and assigns
`y(i,j,k)`. -/
def mlndtslap_adotx_body (x : Array4 Real) (s : GpuArray Real 3) (h00 h01 h11 : Real)
    (i j k : Int) (y : Array4 Real) : Array4 Real :=
  y.set i j k
    (  x (i-1) (j-1) 0 * ((1/6)*h00*s 0 + 0.5*h01*s 1 + (1/6)*h11*s 2)
     + x (i-1) j     0 * ((2/3)*h00*s 0 - (1/3)*h11*s 2)
     + x (i-1) (j+1) 0 * ((1/6)*h00*s 0 - 0.5*h01*s 1 + (1/6)*h11*s 2)
     + x i     (j-1) 0 * ((-1/3)*h00*s 0 + (2/3)*h11*s 2)
     + x i     j     0 * ((-4/3)*h00*s 0 + (-4/3)*h11*s 2)
     + x i     (j+1) 0 * ((-1/3)*h00*s 0 + (2/3)*h11*s 2)
     + x (i+1) (j-1) 0 * ((1/6)*h00*s 0 - 0.5*h01*s 1 + (1/6)*h11*s 2)
     + x (i+1) j     0 * ((2/3)*h00*s 0 - (1/3)*h11*s 2)
     + x (i+1) (j+1) 0 * ((1/6)*h00*s 0 + 0.5*h01*s 1 + (1/6)*h11*s 2))

/-- The kernel `mlndtslap_adotx`: returns the output view `y` after the loop. -/
def mlndtslap_adotx (b : Box) (y : Array4 Real) (x : Array4 Real)
    (s : GpuArray Real 3) (dxinv : GpuArray Real AMREX_SPACEDIM) : Array4 Real :=
  let h00 := dxinv 0 * dxinv 0
  let h01 := dxinv 0 * dxinv 1
  let h11 := dxinv 1 * dxinv 1
  LoopConcurrent b (mlndtslap_adotx_body x s h00 h01 h11) y

/-! ## Smoother -/

/-- Body of the loop of `mlndtslap_gauss_seidel` at node `(i,j,k)`: the lambda
captures `rhs`, `msk`, `s` and the products `h00`, `h01`, `h11`, and updates
`sol` in place. -/
def mlndtslap_gauss_seidel_body (rhs : Array4 Real) (msk : Array4 Int)
    (s : GpuArray Real 3) (h00 h01 h11 : Real)
    (i j k : Int) (sol : Array4 Real) : Array4 Real :=
  if msk i j k ≠ 0 then
    sol.set i j k 0
  else
    let s0 : Real := ((-4/3)*h00*s 0 + (-4/3)*h11*s 2)
    let Ax : Real :=
        sol (i-1) (j-1) 0 * ((1/6)*h00*s 0 + 0.5*h01*s 1 + (1/6)*h11*s 2)
      + sol (i-1) j     0 * ((2/3)*h00*s 0 - (1/3)*h11*s 2)
      + sol (i-1) (j+1) 0 * ((1/6)*h00*s 0 - 0.5*h01*s 1 + (1/6)*h11*s 2)
      + sol i     (j-1) 0 * ((-1/3)*h00*s 0 + (2/3)*h11*s 2)
      + sol i     j     0 * s0
      + sol i     (j+1) 0 * ((-1/3)*h00*s 0 + (2/3)*h11*s 2)
      + sol (i+1) (j-1) 0 * ((1/6)*h00*s 0 - 0.5*h01*s 1 + (1/6)*h11*s 2)
      + sol (i+1) j     0 * ((2/3)*h00*s 0 - (1/3)*h11*s 2)
      + sol (i+1) (j+1) 0 * ((1/6)*h00*s 0 + 0.5*h01*s 1 + (1/6)*h11*s 2)
    sol.set i j k (sol i j k + (rhs i j k - Ax) / s0)

/-- The kernel `mlndtslap_gauss_seidel`: returns `sol` after the sweep. -/
def mlndtslap_gauss_seidel (b : Box) (sol : Array4 Real) (rhs : Array4 Real)
    (msk : Array4 Int) (s : GpuArray Real 3)
    (dxinv : GpuArray Real AMREX_SPACEDIM) : Array4 Real :=
  let h00 := dxinv 0 * dxinv 0
  let h01 := dxinv 0 * dxinv 1
  let h11 := dxinv 1 * dxinv 1
  Loop b (mlndtslap_gauss_seidel_body rhs msk s h00 h01 h11) sol

/-! ## Prolongation -/

/-- Value at the midpoint of the coarse line from `(ic,jc)` to `(ic+1,jc)`. -/
def ts_interp_line_x (crse : Array4 Real) (ic jc : Int) : Real :=
  (crse ic jc 0 + crse (ic+1) jc 0) * 0.5

/-- Value at the midpoint of the coarse line from `(ic,jc)` to `(ic,jc+1)`. -/
def ts_interp_line_y (crse : Array4 Real) (ic jc : Int) : Real :=
  (crse ic jc 0 + crse ic (jc+1) 0) * 0.5

/-- Value at the centre of the coarse face with lower corner `(ic,jc)`. -/
def ts_interp_face_xy (crse : Array4 Real) (ic jc : Int) : Real :=
  (ts_interp_line_y crse ic jc +
   ts_interp_line_y crse (ic+1) jc +
   ts_interp_line_x crse ic jc +
   ts_interp_line_x crse ic (jc+1)) * 0.25

/-- The kernel `mlndtslap_interpadd` at the fine node `(i,j)`; the third index
is unnamed and unused in the source. Returns `fine` after the call. -/
def mlndtslap_interpadd (i j _k : Int) (fine : Array4 Real) (crse : Array4 Real)
    (msk : Array4 Int) : Array4 Real :=
  if msk i j 0 = 0 then
    let ic := coarsen i 2
    let jc := coarsen j 2
    let i_is_odd : Bool := decide (ic*2 ≠ i)
    let j_is_odd : Bool := decide (jc*2 ≠ j)
    if i_is_odd && j_is_odd then
      fine.set i j 0 (fine i j 0 + ts_interp_face_xy crse ic jc)
    else if i_is_odd then
      fine.set i j 0 (fine i j 0 + ts_interp_line_x crse ic jc)
    else if j_is_odd then
      fine.set i j 0 (fine i j 0 + ts_interp_line_y crse ic jc)
    else
      fine.set i j 0 (fine i j 0 + crse ic jc 0)
  else
    fine

/-! ## Specification-side definitions -/

/-- The weight table of the nine-point stencil in the words of the
specification: `h00 = dxinv0^2`, `h01 = dxinv0*dxinv1`, `h11 = dxinv1^2`, the
centre weight, the two axis weights and the two diagonal weights. Offsets are
taken in `{-1,0,1}`. -/
def stencilWeight (s : GpuArray Real 3) (dxinv : GpuArray Real AMREX_SPACEDIM)
    (di dj : Int) : Real :=
  let h00 := dxinv 0 ^ 2
  let h01 := dxinv 0 * dxinv 1
  let h11 := dxinv 1 ^ 2
  if di = 0 ∧ dj = 0 then -4/3*h00*s 0 - 4/3*h11*s 2
  else if dj = 0 then 2/3*h00*s 0 - 1/3*h11*s 2
  else if di = 0 then -1/3*h00*s 0 + 2/3*h11*s 2
  else if di = dj then 1/6*h00*s 0 + 1/2*h01*s 1 + 1/6*h11*s 2
  else 1/6*h00*s 0 - 1/2*h01*s 1 + 1/6*h11*s 2

/-- The three offsets `-1, 0, 1` of the stencil along one axis. -/
def stencilOffsets : List Int := [-1, 0, 1]

/-- The nine-point weighted sum of the specification at node `(i,j)` of the
plane `k = 0`. -/
def stencilSum (s : GpuArray Real 3) (dxinv : GpuArray Real AMREX_SPACEDIM)
    (x : Array4 Real) (i j : Int) : Real :=
  (stencilOffsets.map (fun di =>
    (stencilOffsets.map (fun dj =>
      stencilWeight s dxinv di dj * x (i+di) (j+dj) 0)).sum)).sum

/-- The state of `sol` when the sweep of `mlndtslap_gauss_seidel` over the box
reaches the node `(i,j,k)`: the loop body has run over the nodes of the box
that precede `(i,j,k)` in the order of the loop, and over no other node. -/
def gauss_seidel_before (b : Box) (sol : Array4 Real) (rhs : Array4 Real)
    (msk : Array4 Int) (s : GpuArray Real 3)
    (dxinv : GpuArray Real AMREX_SPACEDIM) (i j k : Int) : Array4 Real :=
  let h00 := dxinv 0 * dxinv 0
  let h01 := dxinv 0 * dxinv 1
  let h11 := dxinv 1 * dxinv 1
  (b.nodes.takeWhile (fun q => decide (q ≠ (i, j, k)))).foldl
    (fun st p => mlndtslap_gauss_seidel_body rhs msk s h00 h01 h11 p.1 p.2.1 p.2.2 st) sol

/-- The diagonal coefficient in the words of the specification:
`diag = -4/3*h00*s0 - 4/3*h11*s2`. -/
def stencilDiag (s : GpuArray Real 3) (dxinv : GpuArray Real AMREX_SPACEDIM) : Real :=
  -4/3*(dxinv 0 ^ 2)*s 0 - 4/3*(dxinv 1 ^ 2)*s 2

/-- The weighted sum of the eight neighbour values only, centre term excluded,
with the weight table of the specification. -/
def neighbourSum (s : GpuArray Real 3) (dxinv : GpuArray Real AMREX_SPACEDIM)
    (x : Array4 Real) (i j : Int) : Real :=
  (stencilOffsets.map (fun di =>
    (stencilOffsets.map (fun dj =>
      if di = 0 ∧ dj = 0 then 0
      else stencilWeight s dxinv di dj * x (i+di) (j+dj) 0)).sum)).sum

/-- Mask that marks every node active. -/
def activeMask : Array4 Int := fun _ _ _ => 0

/-- The bilinear interpolant of the specification at the fine node `(i,j)`:
with `ic = floor(i/2)`, `jc = floor(j/2)` and the fractional position
`(tx,ty) = ((i-2*ic)/2, (j-2*jc)/2)`, the sum over `a, b` in `{0,1}` of
`(a*tx + (1-a)*(1-tx)) * (b*ty + (1-b)*(1-ty)) * crse(ic+a,jc+b)`. -/
def bilinearInterp (crse : Array4 Real) (i j : Int) : Real :=
  let ic : Int := ⌊(i : Real) / 2⌋
  let jc : Int := ⌊(j : Real) / 2⌋
  let tx : Real := ((i : Real) - 2 * (ic : Real)) / 2
  let ty : Real := ((j : Real) - 2 * (jc : Real)) / 2
  (([0, 1] : List Int).map (fun (a : Int) =>
    (([0, 1] : List Int).map (fun (b : Int) =>
      ((a : Real) * tx + (1 - (a : Real)) * (1 - tx))
        * ((b : Real) * ty + (1 - (b : Real)) * (1 - ty))
        * crse (ic + a) (jc + b) 0)).sum)).sum

/-- Pointwise sum of two fields. -/
def addField (c1 c2 : Array4 Real) : Array4 Real := fun i j k => c1 i j k + c2 i j k

/-! ## Test data -/

/-- Field that is `1` at the node `(i,j,k)` and `0` elsewhere. -/
def impulse (i j k : Int) : Array4 Real :=
  fun i' j' k' => if i' = i ∧ j' = j ∧ k' = k then 1 else 0

/-- Field with the same value at every node. -/
def constField (c : Real) : Array4 Real := fun _ _ _ => c

/-- Scenario A: the coefficients `s = (1, 0, 1)`. -/
def sA : GpuArray Real 3 := ![1, 0, 1]

/-- Scenario A: the inverse spacings `dxinv = (1, 1)`. -/
def dxinvA : GpuArray Real AMREX_SPACEDIM := ![1, 1]

/-- Scenario A: the 4x4 node grid `0..3 x 0..3` in the plane `k = 0`. -/
def boxA : Box := ⟨⟨0, 0, 0⟩, ⟨3, 3, 0⟩⟩

/-- A one-node box at the origin of the plane `k = 0`. -/
def originBox : Box := ⟨⟨0, 0, 0⟩, ⟨0, 0, 0⟩⟩

/-- Field `x(i,j,k) = i + 2 j`, which takes a different value at every node
of a stencil. -/
def rampField : Array4 Real := fun i j _ => (i : Real) + 2 * (j : Real)

/-- The weight by which `mlndtslap_adotx` multiplies the input at the offset
`(di,dj)`: what the kernel writes at the origin for the input that is `1` at
`(di,dj,0)` and `0` at every other node. -/
def adotx_weight (s : GpuArray Real 3) (dxinv : GpuArray Real AMREX_SPACEDIM)
    (di dj : Int) : Real :=
  mlndtslap_adotx originBox (constField 0) (impulse di dj 0) s dxinv 0 0 0

/-- Scenario A: mask of the 4x4 node grid whose 2x2 interior is active and
whose every other node is covered. -/
def maskA : Array4 Int :=
  fun i j _ => if 1 ≤ i ∧ i ≤ 2 ∧ 1 ≤ j ∧ j ≤ 2 then 0 else 1

/-! ## Normalize -/

/-- Body of the loop of `mlndtslap_normalize` at node `(i,j,k)`: the lambda
captures `msk`, `s` and the products `h00`, `h11`, and divides `phi(i,j,k)` in
place. -/
def mlndtslap_normalize_body (msk : Array4 Int) (s : GpuArray Real 3) (h00 h11 : Real)
    (i j k : Int) (phi : Array4 Real) : Array4 Real :=
  if msk i j k = 0 then
    let s0 : Real := ((-4/3)*h00*s 0 + (-4/3)*h11*s 2)
    phi.set i j k (phi i j k / s0)
  else
    phi

/-- The kernel `mlndtslap_normalize`: returns `phi` after the loop. -/
def mlndtslap_normalize (b : Box) (phi : Array4 Real) (msk : Array4 Int)
    (s : GpuArray Real 3) (dxinv : GpuArray Real AMREX_SPACEDIM) : Array4 Real :=
  let h00 := dxinv 0 * dxinv 0
  let h11 := dxinv 1 * dxinv 1
  Loop b (mlndtslap_normalize_body msk s h00 h11) phi

/-! ## Sparse assembler -/

/-- The four output vectors of `mlndtslap_fill_ijmatrix` (`Vector<Int>& ncols`,
`rows`, `cols` and `Vector<Real>& mat`); `push_back` appends at the end. -/
structure IJMatrix where
  ncols : List Int
  rows : List Int
  cols : List Int
  mat : List Real
deriving DecidableEq

/-- The block the source repeats for each of the eight neighbours, for the
neighbour id `id` and the weight `w`:
`if (id >= 0) { cols.push_back(id); mat.push_back(w); ++nc; }`.
The state is the pair of the vectors and the counter `nc`. -/
def fill_ijmatrix_neighbour (id : Int) (w : Real) (a : IJMatrix × Int) : IJMatrix × Int :=
  if id ≥ 0 then
    ({ a.1 with cols := a.1.cols ++ [id], mat := a.1.mat ++ [w] }, a.2 + 1)
  else
    a

/-- Body of the triple loop of `mlndtslap_fill_ijmatrix` at node `(i,j,k)`. -/
def mlndtslap_fill_ijmatrix_body (nid : Array4 Int) (owner : Array4 Int)
    (s : GpuArray Real 3) (h00 h01 h11 : Real) (i j k : Int) (v : IJMatrix) : IJMatrix :=
  if nid i j k ≥ 0 ∧ owner i j k ≠ 0 then
    let v : IJMatrix := { v with rows := v.rows ++ [nid i j k] }
    let v : IJMatrix := { v with cols := v.cols ++ [nid i j k] }
    let v : IJMatrix := { v with mat := v.mat ++ [(-4/3)*h00*s 0 + (-4/3)*h11*s 2] }
    let nc : Int := 1
    let a := fill_ijmatrix_neighbour (nid (i-1) (j-1) k)
      ((1/6)*h00*s 0 + 0.5*h01*s 1 + (1/6)*h11*s 2) (v, nc)
    let a := fill_ijmatrix_neighbour (nid (i-1) j k)
      ((2/3)*h00*s 0 - (1/3)*h11*s 2) a
    let a := fill_ijmatrix_neighbour (nid (i-1) (j+1) k)
      ((1/6)*h00*s 0 - 0.5*h01*s 1 + (1/6)*h11*s 2) a
    let a := fill_ijmatrix_neighbour (nid i (j-1) k)
      ((-1/3)*h00*s 0 + (2/3)*h11*s 2) a
    let a := fill_ijmatrix_neighbour (nid i (j+1) k)
      ((-1/3)*h00*s 0 + (2/3)*h11*s 2) a
    let a := fill_ijmatrix_neighbour (nid (i+1) (j-1) k)
      ((1/6)*h00*s 0 - 0.5*h01*s 1 + (1/6)*h11*s 2) a
    let a := fill_ijmatrix_neighbour (nid (i+1) j k)
      ((2/3)*h00*s 0 - (1/3)*h11*s 2) a
    let a := fill_ijmatrix_neighbour (nid (i+1) (j+1) k)
      ((1/6)*h00*s 0 + 0.5*h01*s 1 + (1/6)*h11*s 2) a
    { a.1 with ncols := a.1.ncols ++ [a.2] }
  else
    v

/-- The function `mlndtslap_fill_ijmatrix`: the triple loop over the nodes of
`ndbx`, `k` outermost and `i` innermost; returns the four vectors after the
call. The argument `msk` is not read by the source. -/
def mlndtslap_fill_ijmatrix (ndbx : Box) (nid : Array4 Int) (owner : Array4 Int)
    (ncols rows cols : List Int) (mat : List Real)
    (_msk : Array4 Int) (s : GpuArray Real 3)
    (dxinv : GpuArray Real AMREX_SPACEDIM) : IJMatrix :=
  let h00 := dxinv 0 * dxinv 0
  let h01 := dxinv 0 * dxinv 1
  let h11 := dxinv 1 * dxinv 1
  let lo := lbound ndbx
  let hi := ubound ndbx
  (intRange lo.z hi.z).foldl (fun v k =>
    (intRange lo.y hi.y).foldl (fun v j =>
      (intRange lo.x hi.x).foldl (fun v i =>
        mlndtslap_fill_ijmatrix_body nid owner s h00 h01 h11 i j k v) v) v)
    ⟨ncols, rows, cols, mat⟩

/-- Componentwise concatenation of two quadruples of vectors. -/
def IJMatrix.append (a b : IJMatrix) : IJMatrix :=
  ⟨a.ncols ++ b.ncols, a.rows ++ b.rows, a.cols ++ b.cols, a.mat ++ b.mat⟩

/-- The quadruple of empty vectors. -/
def IJMatrix.empty : IJMatrix := ⟨[], [], [], []⟩

/-- What one iteration of the loop of `mlndtslap_fill_ijmatrix` appends at the
node `(i,j,k)`: the result of the loop body on empty vectors. -/
def fill_ijmatrix_row (nid owner : Array4 Int) (s : GpuArray Real 3)
    (dxinv : GpuArray Real AMREX_SPACEDIM) (i j k : Int) : IJMatrix :=
  mlndtslap_fill_ijmatrix_body nid owner s
    (dxinv 0 * dxinv 0) (dxinv 0 * dxinv 1) (dxinv 1 * dxinv 1) i j k IJMatrix.empty

/-- The nodes of the box that emit a row, in the order of the loop: those with
non-negative node id and nonzero owner flag. -/
def emittedNodes (ndbx : Box) (nid owner : Array4 Int) : List (Int × Int × Int) :=
  ndbx.nodes.filter (fun p => decide (nid p.1 p.2.1 p.2.2 ≥ 0 ∧ owner p.1 p.2.1 p.2.2 ≠ 0))

/-- The offsets of the eight stencil neighbours of a node. -/
def neighbourOffsets : List (Int × Int) :=
  [(-1, -1), (-1, 0), (-1, 1), (0, -1), (0, 1), (1, -1), (1, 0), (1, 1)]

/-- The number of the eight stencil neighbours of `(i,j,k)` whose node id is
non-negative. -/
def validNeighbourCount (nid : Array4 Int) (i j k : Int) : Nat :=
  (neighbourOffsets.filter (fun d => decide (nid (i + d.1) (j + d.2) k ≥ 0))).length

/-- Split a list into consecutive segments of the given lengths, that is, at
the prefix sums of the lengths. -/
def splitBy {α : Type} : List Nat → List α → List (List α)
  | [], _ => []
  | n :: ns, l => l.take n :: splitBy ns (l.drop n)

/-- The eight neighbours of `(i,j,k)` in the order in which the source tests
them, each with its node id and the weight the source pushes for it. -/
def rowNeighbours (nid : Array4 Int) (s : GpuArray Real 3) (h00 h01 h11 : Real)
    (i j k : Int) : List (Int × Real) :=
  [ (nid (i-1) (j-1) k, (1/6)*h00*s 0 + 0.5*h01*s 1 + (1/6)*h11*s 2),
    (nid (i-1) j k,     (2/3)*h00*s 0 - (1/3)*h11*s 2),
    (nid (i-1) (j+1) k, (1/6)*h00*s 0 - 0.5*h01*s 1 + (1/6)*h11*s 2),
    (nid i (j-1) k,     (-1/3)*h00*s 0 + (2/3)*h11*s 2),
    (nid i (j+1) k,     (-1/3)*h00*s 0 + (2/3)*h11*s 2),
    (nid (i+1) (j-1) k, (1/6)*h00*s 0 - 0.5*h01*s 1 + (1/6)*h11*s 2),
    (nid (i+1) j k,     (2/3)*h00*s 0 - (1/3)*h11*s 2),
    (nid (i+1) (j+1) k, (1/6)*h00*s 0 + 0.5*h01*s 1 + (1/6)*h11*s 2) ]

/-- The (column, value) pairs of the row of `(i,j,k)`: the diagonal entry
followed by the neighbours with non-negative id. -/
def rowEntries (nid : Array4 Int) (s : GpuArray Real 3) (h00 h01 h11 : Real)
    (i j k : Int) : List (Int × Real) :=
  (nid i j k, (-4/3)*h00*s 0 + (-4/3)*h11*s 2)
    :: (rowNeighbours nid s h00 h01 h11 i j k).filter (fun e => decide (e.1 ≥ 0))
/-- The (column, value) pairs of the row of the node `p`, with the products
`h00`, `h01`, `h11` of `mlndtslap_fill_ijmatrix`. -/
def rowEntriesAt (nid : Array4 Int) (s : GpuArray Real 3)
    (dxinv : GpuArray Real AMREX_SPACEDIM) (p : Int × Int × Int) : List (Int × Real) :=
  rowEntries nid s (dxinv 0 * dxinv 0) (dxinv 0 * dxinv 1) (dxinv 1 * dxinv 1) p.1 p.2.1 p.2.2

/-- Scenario C: the 2x2 node grid `0..1 x 0..1` in the plane `k = 0`. -/
def boxC : Box := ⟨⟨0, 0, 0⟩, ⟨1, 1, 0⟩⟩

/-- Scenario C: the nodes `(0,0)`, `(1,0)`, `(0,1)` of the plane `k = 0` have
the ids `0`, `1`, `2`; every other node has the id `-1`. -/
def nidC : Array4 Int :=
  fun i j k =>
    if k = 0 ∧ i = 0 ∧ j = 0 then 0
    else if k = 0 ∧ i = 1 ∧ j = 0 then 1
    else if k = 0 ∧ i = 0 ∧ j = 1 then 2
    else -1

/-- Owner flag set at every node. -/
def ownerAll : Array4 Int := fun _ _ _ => 1

/-- Node ids `3 (i+1) + (j+1)`: the node `(0,0)` and its eight neighbours have
the distinct ids `0..8`. -/
def nidGrid : Array4 Int := fun i j _ => 3 * (i + 1) + (j + 1)

/-- Node id `0` at every node. -/
def nidZero : Array4 Int := fun _ _ _ => 0

/-- The two-node box `0..1 x 0..0` in the plane `k = 0`. -/
def boxTwo : Box := ⟨⟨0, 0, 0⟩, ⟨1, 0, 0⟩⟩

/-- The order of the triple loop on nodes: `p` is visited before `q` when its
`k` is smaller, or `k` is equal and `j` is smaller, or `k` and `j` are equal
and `i` is smaller. -/
def nodeBefore (p q : Int × Int × Int) : Prop :=
  p.2.2 < q.2.2 ∨ (p.2.2 = q.2.2 ∧ (p.2.1 < q.2.1 ∨ (p.2.1 = q.2.1 ∧ p.1 < q.1)))

instance (p q : Int × Int × Int) : Decidable (nodeBefore p q) := by
  unfold nodeBefore; infer_instance

/-- The node ids of the eight stencil neighbours of `(i,j,k)`, in the order of
`neighbourOffsets`. -/
def neighbourIds (nid : Array4 Int) (i j k : Int) : List Int :=
  neighbourOffsets.map (fun d => nid (i + d.1) (j + d.2) k)

/-- The residual `rhs - Apply(sol)` at a node, where `Apply` is
`mlndtslap_adotx` over the box. -/
def residual (b : Box) (sol rhs : Array4 Real) (s : GpuArray Real 3)
    (dxinv : GpuArray Real AMREX_SPACEDIM) (i j k : Int) : Real :=
  rhs i j k - mlndtslap_adotx b (constField 0) sol s dxinv i j k

/-- The maximum over the active (mask `0`) nodes of the box of the absolute
value of the residual; `0` when the box has no active node. -/
def residualNorm (b : Box) (sol rhs : Array4 Real) (msk : Array4 Int)
    (s : GpuArray Real 3) (dxinv : GpuArray Real AMREX_SPACEDIM) : Real :=
  ((b.nodes.filter (fun p => decide (msk p.1 p.2.1 p.2.2 = 0))).map
    (fun p => |residual b sol rhs s dxinv p.1 p.2.1 p.2.2|)).foldr max 0

/-- Field `i + 2 j` on the 2x2 interior of the grid of scenario A and `0` at
every other node. -/
def interiorField : Array4 Real :=
  fun i j _ => if 1 ≤ i ∧ i ≤ 2 ∧ 1 ≤ j ∧ j ≤ 2 then (i : Real) + 2 * (j : Real) else 0

/-! ## Particle ids -/

/-- The conversion of a signed integer to `uint64_t`: reduction modulo `2^64`. -/
def toUInt64 (x : Int) : Nat := (x % 2 ^ 64).toNat

/-- Largest id the packing can hold, `2^39-1`. -/
def GhostParticleID : Int := 549755813887

/-- The id `GhostParticleID-1`. -/
def VirtualParticleID : Int := GhostParticleID - 1

/-- The largest id `NextID` hands out, `GhostParticleID-2`. -/
def LastParticleID : Int := GhostParticleID - 2

/-- The assignment `ParticleIDWrapper::operator= (const Long id)` on the word
`m_idata` (a `uint64_t`, here a natural number below `2^64`); returns the word
after the assignment. The two `AMREX_ASSERT`s are debug checks and do not
change the word. Shifts of `uint64_t` values are reduced modulo `2^64`. -/
def ParticleIDWrapper_assign (m_idata : Nat) (id : Int) : Nat :=
  let m_idata := m_idata &&& 0x00FFFFFF
  let sign : Nat := if id ≥ 0 then 1 else 0
  let val : Nat := if sign ≠ 0 then toUInt64 id else toUInt64 (-id)
  let m_idata := m_idata ||| ((sign <<< 63) % 2 ^ 64)
  let m_idata := m_idata ||| ((val <<< 24) % 2 ^ 64)
  m_idata

/-- The conversion `ParticleIDWrapper::operator Long ()` of the word. -/
def ParticleIDWrapper_toLong (m_idata : Nat) : Int :=
  let sign : Nat := m_idata >>> 63
  let val : Nat := (m_idata >>> 24) &&& 0x7FFFFFFFFF
  let lval : Int := (val : Int)
  if sign ≠ 0 then lval else -lval

/-- The conversion `ConstParticleIDWrapper::operator Long ()` of the word. -/
def ConstParticleIDWrapper_toLong (m_idata : Nat) : Int :=
  let sign : Nat := m_idata >>> 63
  let val : Nat := (m_idata >>> 24) &&& 0x7FFFFFFFFF
  let lval : Int := (val : Int)
  if sign ≠ 0 then lval else -lval

/-- The assignment `ParticleCPUWrapper::operator= (const int cpu)` on the word;
returns the word after the assignment. The mask `~ 0x00FFFFFF` is computed on
`int` and converted to `uint64_t`, as is `cpu`. -/
def ParticleCPUWrapper_assign (m_idata : Nat) (cpu : Int) : Nat :=
  let m_idata := m_idata &&& toUInt64 (~~~ (0x00FFFFFF : Int))
  let m_idata := m_idata ||| toUInt64 cpu
  m_idata

/-- The conversion `ParticleCPUWrapper::operator int ()` of the word. -/
def ParticleCPUWrapper_toInt (m_idata : Nat) : Int :=
  ((m_idata &&& 0x00FFFFFF : Nat) : Int)

/-- The function `Particle::NextID ()` on the counter `the_next_id`: the
returned id and the counter after the call, or `none` when the call aborts. -/
def NextID (the_next_id : Int) : Option (Int × Int) :=
  let next := the_next_id
  let the_next_id := the_next_id + 1
  if next > LastParticleID then none else some (next, the_next_id)

/-- The function `Particle::UnprotectedNextID ()`, in the same form. -/
def UnprotectedNextID (the_next_id : Int) : Option (Int × Int) :=
  let next := the_next_id
  let the_next_id := the_next_id + 1
  if next > LastParticleID then none else some (next, the_next_id)

/-- The initial value of the counter `the_next_id`. -/
def the_next_id_init : Int := 1

/-- The ids returned by `n` successive calls of `NextID` from a counter
value, and the counter after them; `none` when one of the calls aborts. -/
def NextID_calls : Nat → Int → Option (List Int × Int)
  | 0, c => some ([], c)
  | n + 1, c =>
    match NextID c with
    | none => none
    | some (id, c1) =>
      match NextID_calls n c1 with
      | none => none
      | some (ids, c2) => some (id :: ids, c2)

/-- The value of the eight-neighbour sum that a true Gauss-Seidel sweep uses
at the node `(i,j)` of the plane `k = 0`, in the words of the specification:
the four neighbours `(i-1,j-1)`, `(i,j-1)`, `(i+1,j-1)`, `(i-1,j)` that precede
the node in the order of the sweep enter with the value `new` produced by
this sweep when they are nodes of the box, every other neighbour enters with
its value `old` before the sweep. -/
def gsNeighbourSum (b : Box) (old new : Array4 Real) (s : GpuArray Real 3)
    (dxinv : GpuArray Real AMREX_SPACEDIM) (i j : Int) : Real :=
    stencilWeight s dxinv (-1) (-1)
      * (if b.contains (i-1) (j-1) 0 then new (i-1) (j-1) 0 else old (i-1) (j-1) 0)
  + stencilWeight s dxinv 0 (-1)
      * (if b.contains i (j-1) 0 then new i (j-1) 0 else old i (j-1) 0)
  + stencilWeight s dxinv 1 (-1)
      * (if b.contains (i+1) (j-1) 0 then new (i+1) (j-1) 0 else old (i+1) (j-1) 0)
  + stencilWeight s dxinv (-1) 0
      * (if b.contains (i-1) j 0 then new (i-1) j 0 else old (i-1) j 0)
  + stencilWeight s dxinv 1 0 * old (i+1) j 0
  + stencilWeight s dxinv (-1) 1 * old (i-1) (j+1) 0
  + stencilWeight s dxinv 0 1 * old i (j+1) 0
  + stencilWeight s dxinv 1 1 * old (i+1) (j+1) 0

/-- The Jacobi update at the node `(i,j)` of the plane `k = 0`: it uses the
values before the sweep at all eight neighbours. -/
def jacobiUpdate (sol rhs : Array4 Real) (s : GpuArray Real 3)
    (dxinv : GpuArray Real AMREX_SPACEDIM) (i j : Int) : Real :=
  (rhs i j 0 - neighbourSum s dxinv sol i j) / stencilDiag s dxinv

/-- The product of a row of the assembled matrix with a vector `X` indexed by
node ids: the sum of `value * X[column]` over the (column, value) pairs of
the row. -/
def rowDot (row : IJMatrix) (X : Int → Real) : Real :=
  ((row.cols.zip row.mat).map (fun cv => cv.2 * X cv.1)).sum

/-- The value stored in a row for the column `c`: the value of the first
(column, value) pair of the row whose column is `c`, if there is one. -/
def rowValue (row : IJMatrix) (c : Int) : Option Real :=
  ((row.cols.zip row.mat).find? (fun cv => decide (cv.1 = c))).map Prod.snd
/-- Scenario C: a field that is `2`, `3`, `5` at the nodes with the ids `0`,
`1`, `2` and `0` at every other node. -/
def xC : Array4 Real :=
  fun i j k =>
    if k = 0 ∧ i = 0 ∧ j = 0 then 2
    else if k = 0 ∧ i = 1 ∧ j = 0 then 3
    else if k = 0 ∧ i = 0 ∧ j = 1 then 5
    else 0

/-- Scenario C: the vector of the values of `xC`, indexed by node id. -/
def vecC : Int → Real :=
  fun c => if c = 0 then 2 else if c = 1 then 3 else if c = 2 then 5 else 0

/-! ## Lemmas on the loop -/

theorem mem_intRange (lo hi x : Int) : x ∈ intRange lo hi ↔ lo ≤ x ∧ x ≤ hi := by
  unfold intRange
  simp only [List.mem_map, List.mem_range]
  constructor
  · rintro ⟨n, hn, rfl⟩
    omega
  · rintro ⟨h1, h2⟩
    exact ⟨(x - lo).toNat, by omega, by omega⟩

theorem Box.mem_nodes (b : Box) (i j k : Int) :
    (i, j, k) ∈ b.nodes ↔ b.contains i j k := by
  unfold Box.nodes Box.contains lbound ubound
  simp only [List.mem_flatMap, List.mem_map, mem_intRange, Prod.mk.injEq]
  constructor
  · rintro ⟨k', hk, j', hj, i', hi, rfl, rfl, rfl⟩
    omega
  · intro h
    exact ⟨k, by omega, j, by omega, i, by omega, rfl, rfl, rfl⟩

/-- A loop whose body at a node only writes that node leaves every node it
does not visit untouched. -/
theorem foldl_frame {α : Type} (g : Int × Int × Int → Array4 α → Array4 α)
    (hg : ∀ p st i j k, (i, j, k) ≠ p → g p st i j k = st i j k)
    (l : List (Int × Int × Int)) (st : Array4 α) (i j k : Int)
    (h : (i, j, k) ∉ l) :
    l.foldl (fun st p => g p st) st i j k = st i j k := by
  induction l generalizing st with
  | nil => rfl
  | cons q l ih =>
    simp only [List.mem_cons, not_or] at h
    rw [List.foldl_cons, ih _ h.2, hg q st i j k h.1]

/-- A loop whose body at a node only writes that node, and writes there a
value that does not depend on the state, holds that value at every visited
node. -/
theorem foldl_const {α : Type} (g : Int × Int × Int → Array4 α → Array4 α)
    (hg : ∀ p st i j k, (i, j, k) ≠ p → g p st i j k = st i j k)
    (i j k : Int) (v : α) (hv : ∀ st, g (i, j, k) st i j k = v)
    (l : List (Int × Int × Int)) (st : Array4 α) (h : (i, j, k) ∈ l) :
    l.foldl (fun st p => g p st) st i j k = v := by
  induction l generalizing st with
  | nil => simp at h
  | cons q l ih =>
    rw [List.foldl_cons]
    by_cases hl : (i, j, k) ∈ l
    · exact ih _ hl
    · have hq : q = (i, j, k) := by
        rcases List.mem_cons.mp h with h | h
        · exact h.symm
        · exact absurd h hl
      rw [foldl_frame g hg l _ i j k hl, hq, hv]

theorem Array4.set_same {α : Type} (a : Array4 α) (i j k : Int) (v : α) :
    a.set i j k v i j k = v := by
  simp [Array4.set]

theorem Array4.set_other {α : Type} (a : Array4 α) (i j k : Int) (v : α)
    (i' j' k' : Int) (h : (i', j', k') ≠ (i, j, k)) :
    a.set i j k v i' j' k' = a i' j' k' := by
  unfold Array4.set
  rw [if_neg]
  rintro ⟨rfl, rfl, rfl⟩
  exact h rfl

theorem mlndtslap_adotx_body_other (x : Array4 Real) (s : GpuArray Real 3)
    (h00 h01 h11 : Real) (p : Int × Int × Int) (y : Array4 Real) (i j k : Int)
    (h : (i, j, k) ≠ p) :
    mlndtslap_adotx_body x s h00 h01 h11 p.1 p.2.1 p.2.2 y i j k = y i j k := by
  unfold mlndtslap_adotx_body
  exact Array4.set_other _ _ _ _ _ _ _ _ h

/-- The nine-point sum of the specification, written out term by term. -/
theorem stencilSum_eq (s : GpuArray Real 3) (dxinv : GpuArray Real AMREX_SPACEDIM)
    (x : Array4 Real) (i j : Int) :
    stencilSum s dxinv x i j =
        stencilWeight s dxinv (-1) (-1) * x (i-1) (j-1) 0
      + stencilWeight s dxinv (-1) 0 * x (i-1) j 0
      + stencilWeight s dxinv (-1) 1 * x (i-1) (j+1) 0
      + stencilWeight s dxinv 0 (-1) * x i (j-1) 0
      + stencilWeight s dxinv 0 0 * x i j 0
      + stencilWeight s dxinv 0 1 * x i (j+1) 0
      + stencilWeight s dxinv 1 (-1) * x (i+1) (j-1) 0
      + stencilWeight s dxinv 1 0 * x (i+1) j 0
      + stencilWeight s dxinv 1 1 * x (i+1) (j+1) 0 := by
  have e1 : i + -1 = i - 1 := by ring
  have e2 : j + -1 = j - 1 := by ring
  simp only [stencilSum, stencilOffsets, List.map_cons, List.map_nil, List.sum_cons,
    List.sum_nil, e1, e2, add_zero]
  ring

/-- The weight table of the specification, entry by entry. -/
theorem stencilWeight_values (s : GpuArray Real 3) (dxinv : GpuArray Real AMREX_SPACEDIM) :
    stencilWeight s dxinv 0 0 = -4/3*(dxinv 0 * dxinv 0)*s 0 - 4/3*(dxinv 1 * dxinv 1)*s 2
    ∧ stencilWeight s dxinv 1 0 = 2/3*(dxinv 0 * dxinv 0)*s 0 - 1/3*(dxinv 1 * dxinv 1)*s 2
    ∧ stencilWeight s dxinv (-1) 0 = 2/3*(dxinv 0 * dxinv 0)*s 0 - 1/3*(dxinv 1 * dxinv 1)*s 2
    ∧ stencilWeight s dxinv 0 1 = -1/3*(dxinv 0 * dxinv 0)*s 0 + 2/3*(dxinv 1 * dxinv 1)*s 2
    ∧ stencilWeight s dxinv 0 (-1) = -1/3*(dxinv 0 * dxinv 0)*s 0 + 2/3*(dxinv 1 * dxinv 1)*s 2
    ∧ stencilWeight s dxinv 1 1 = 1/6*(dxinv 0 * dxinv 0)*s 0 + 1/2*(dxinv 0 * dxinv 1)*s 1
        + 1/6*(dxinv 1 * dxinv 1)*s 2
    ∧ stencilWeight s dxinv (-1) (-1) = 1/6*(dxinv 0 * dxinv 0)*s 0 + 1/2*(dxinv 0 * dxinv 1)*s 1
        + 1/6*(dxinv 1 * dxinv 1)*s 2
    ∧ stencilWeight s dxinv 1 (-1) = 1/6*(dxinv 0 * dxinv 0)*s 0 - 1/2*(dxinv 0 * dxinv 1)*s 1
        + 1/6*(dxinv 1 * dxinv 1)*s 2
    ∧ stencilWeight s dxinv (-1) 1 = 1/6*(dxinv 0 * dxinv 0)*s 0 - 1/2*(dxinv 0 * dxinv 1)*s 1
        + 1/6*(dxinv 1 * dxinv 1)*s 2 := by
  refine ⟨?_, ?_, ?_, ?_, ?_, ?_, ?_, ?_, ?_⟩ <;>
    (simp only [stencilWeight]; norm_num; try ring)

/-- Inside the box the output of `mlndtslap_adotx` is what the loop body
writes at that node (whatever the output held before). -/
theorem mlndtslap_adotx_inside (b : Box) (y y0 x : Array4 Real) (s : GpuArray Real 3)
    (dxinv : GpuArray Real AMREX_SPACEDIM) (i j k : Int) (h : b.contains i j k) :
    mlndtslap_adotx b y x s dxinv i j k
      = mlndtslap_adotx_body x s (dxinv 0 * dxinv 0) (dxinv 0 * dxinv 1) (dxinv 1 * dxinv 1)
          i j k y0 i j k := by
  unfold mlndtslap_adotx LoopConcurrent Loop
  refine foldl_const
    (fun p st => mlndtslap_adotx_body x s _ _ _ p.1 p.2.1 p.2.2 st)
    (fun p st i j k hp => mlndtslap_adotx_body_other x s _ _ _ p st i j k hp)
    i j k _ ?_ b.nodes y ((Box.mem_nodes b i j k).mpr h)
  intro st
  simp only [mlndtslap_adotx_body, Array4.set_same]

/-- Outside the box the output of `mlndtslap_adotx` is the prior output. -/
theorem mlndtslap_adotx_outside (b : Box) (y x : Array4 Real) (s : GpuArray Real 3)
    (dxinv : GpuArray Real AMREX_SPACEDIM) (i j k : Int) (h : ¬ b.contains i j k) :
    mlndtslap_adotx b y x s dxinv i j k = y i j k := by
  unfold mlndtslap_adotx LoopConcurrent Loop
  exact foldl_frame
    (fun p st => mlndtslap_adotx_body x s _ _ _ p.1 p.2.1 p.2.2 st)
    (fun p st i j k hp => mlndtslap_adotx_body_other x s _ _ _ p st i j k hp)
    b.nodes y i j k (fun hm => h ((Box.mem_nodes b i j k).mp hm))

/-- The value `adotx_weight` of the code is the entry of the weight table of
the specification, at each of the nine offsets. -/
theorem adotx_weight_eq (s : GpuArray Real 3) (dxinv : GpuArray Real AMREX_SPACEDIM)
    (di dj : Int) (hi : di = -1 ∨ di = 0 ∨ di = 1) (hj : dj = -1 ∨ dj = 0 ∨ dj = 1) :
    adotx_weight s dxinv di dj = stencilWeight s dxinv di dj := by
  unfold adotx_weight
  rw [mlndtslap_adotx_inside originBox _ (constField 0) _ s dxinv 0 0 0 (by decide)]
  simp only [mlndtslap_adotx_body, Array4.set_same]
  rcases hi with rfl | rfl | rfl <;> rcases hj with rfl | rfl | rfl <;>
    (simp only [impulse, stencilWeight]; norm_num; try ring)

theorem intRange_nodup (lo hi : Int) : (intRange lo hi).Nodup := by
  unfold intRange
  refine (List.nodup_range _).map ?_
  intro a b hab
  simp only at hab
  omega

theorem Box.nodes_nodup (b : Box) : b.nodes.Nodup := by
  unfold Box.nodes
  refine List.nodup_flatMap.2 ⟨fun k _ => List.nodup_flatMap.2 ⟨fun j _ => ?_, ?_⟩, ?_⟩
  · refine (intRange_nodup _ _).map ?_
    intro a c hac
    simp only [Prod.mk.injEq] at hac
    exact hac.1
  · refine (intRange_nodup _ _).imp ?_
    intro j1 j2 hne p h1 h2
    simp only [List.mem_map] at h1 h2
    obtain ⟨i1, _, rfl⟩ := h1
    obtain ⟨i2, _, h⟩ := h2
    simp only [Prod.mk.injEq] at h
    exact hne h.2.1.symm
  · refine (intRange_nodup _ _).imp ?_
    intro k1 k2 hne p h1 h2
    simp only [List.mem_flatMap, List.mem_map] at h1 h2
    obtain ⟨j1, _, i1, _, rfl⟩ := h1
    obtain ⟨j2, _, i2, _, h⟩ := h2
    simp only [Prod.mk.injEq] at h
    exact hne h.2.2.symm

/-- In a loop over distinct nodes whose body at a node only writes that node,
the final value at a visited node is the one its body wrote, computed from
the state left by the nodes visited before it. -/
theorem foldl_at {α : Type} (g : Int × Int × Int → Array4 α → Array4 α)
    (hg : ∀ p st i j k, (i, j, k) ≠ p → g p st i j k = st i j k)
    (i j k : Int) (l : List (Int × Int × Int)) (hl : l.Nodup) (st : Array4 α)
    (h : (i, j, k) ∈ l) :
    l.foldl (fun st p => g p st) st i j k
      = g (i, j, k)
          ((l.takeWhile (fun q => decide (q ≠ (i, j, k)))).foldl (fun st p => g p st) st)
          i j k := by
  induction l generalizing st with
  | nil => simp at h
  | cons q l ih =>
    rw [List.nodup_cons] at hl
    by_cases hq : q = (i, j, k)
    · subst hq
      rw [List.foldl_cons, foldl_frame g hg l _ i j k hl.1]
      simp
    · have hm : (i, j, k) ∈ l := by
        rcases List.mem_cons.mp h with h | h
        · exact absurd h.symm hq
        · exact h
      rw [List.foldl_cons, ih hl.2 _ hm, List.takeWhile_cons_of_pos (by simpa using hq),
        List.foldl_cons]

theorem mlndtslap_gauss_seidel_body_other (rhs : Array4 Real) (msk : Array4 Int)
    (s : GpuArray Real 3) (h00 h01 h11 : Real) (p : Int × Int × Int)
    (sol : Array4 Real) (i j k : Int) (h : (i, j, k) ≠ p) :
    mlndtslap_gauss_seidel_body rhs msk s h00 h01 h11 p.1 p.2.1 p.2.2 sol i j k
      = sol i j k := by
  unfold mlndtslap_gauss_seidel_body
  split
  · exact Array4.set_other _ _ _ _ _ _ _ _ h
  · exact Array4.set_other _ _ _ _ _ _ _ _ h

/-- Outside the box `mlndtslap_gauss_seidel` leaves `sol` as it was. -/
theorem mlndtslap_gauss_seidel_outside (b : Box) (sol rhs : Array4 Real) (msk : Array4 Int)
    (s : GpuArray Real 3) (dxinv : GpuArray Real AMREX_SPACEDIM) (i j k : Int)
    (h : ¬ b.contains i j k) :
    mlndtslap_gauss_seidel b sol rhs msk s dxinv i j k = sol i j k := by
  unfold mlndtslap_gauss_seidel Loop
  exact foldl_frame
    (fun p st => mlndtslap_gauss_seidel_body rhs msk s _ _ _ p.1 p.2.1 p.2.2 st)
    (fun p st i j k hp => mlndtslap_gauss_seidel_body_other rhs msk s _ _ _ p st i j k hp)
    b.nodes sol i j k (fun hm => h ((Box.mem_nodes b i j k).mp hm))

/-- Inside the box the value `mlndtslap_gauss_seidel` leaves at a node is the
one the loop body wrote there when the sweep reached the node. -/
theorem mlndtslap_gauss_seidel_inside (b : Box) (sol rhs : Array4 Real) (msk : Array4 Int)
    (s : GpuArray Real 3) (dxinv : GpuArray Real AMREX_SPACEDIM) (i j k : Int)
    (h : b.contains i j k) :
    mlndtslap_gauss_seidel b sol rhs msk s dxinv i j k
      = mlndtslap_gauss_seidel_body rhs msk s
          (dxinv 0 * dxinv 0) (dxinv 0 * dxinv 1) (dxinv 1 * dxinv 1) i j k
          (gauss_seidel_before b sol rhs msk s dxinv i j k) i j k := by
  unfold mlndtslap_gauss_seidel gauss_seidel_before Loop
  exact foldl_at
    (fun p st => mlndtslap_gauss_seidel_body rhs msk s _ _ _ p.1 p.2.1 p.2.2 st)
    (fun p st i j k hp => mlndtslap_gauss_seidel_body_other rhs msk s _ _ _ p st i j k hp)
    i j k b.nodes b.nodes_nodup sol ((Box.mem_nodes b i j k).mpr h)

theorem originBox_nodes : originBox.nodes = [(0, 0, 0)] := by decide

/-! ## Operator apply: theorems -/

/-- C1: at every node `(i,j,k)` of the box, `mlndtslap_adotx` sets `y(i,j,k)`
to the sum over `di, dj` in `{-1,0,1}` of `w(di,dj) * x(i+di,j+dj,0)` with the
weight table of the specification (`h00 = dxinv0^2`, `h01 = dxinv0*dxinv1`,
`h11 = dxinv1^2`). -/
theorem mlndtslap_adotx_stencil (b : Box) (y x : Array4 Real) (s : GpuArray Real 3)
    (dxinv : GpuArray Real AMREX_SPACEDIM) (i j k : Int) (h : b.contains i j k) :
    mlndtslap_adotx b y x s dxinv i j k = stencilSum s dxinv x i j := by
  obtain ⟨w00, w10, wm0, w01, w0m, w11, wmm, w1m, wm1⟩ := stencilWeight_values s dxinv
  rw [mlndtslap_adotx_inside b y y x s dxinv i j k h, stencilSum_eq,
    w00, w10, wm0, w01, w0m, w11, wmm, w1m, wm1]
  simp only [mlndtslap_adotx_body, Array4.set_same]
  norm_num
  ring

/-- Witness of C1 on the grid of scenario A, at the node `(1,2,0)`. -/
theorem mlndtslap_adotx_stencil_witness :
    boxA.contains 1 2 0 ∧
    mlndtslap_adotx boxA (constField 7) rampField sA dxinvA 1 2 0
      = stencilSum sA dxinvA rampField 1 2 :=
  ⟨by decide, mlndtslap_adotx_stencil boxA (constField 7) rampField sA dxinvA 1 2 0 (by decide)⟩

/-- C2: for every choice of coefficients and spacings the nine weights of
`mlndtslap_adotx` sum to zero, and applying the kernel to a field that equals
`c` everywhere writes `0` at every node of the box. -/
theorem mlndtslap_adotx_constant (b : Box) (y : Array4 Real) (s : GpuArray Real 3)
    (dxinv : GpuArray Real AMREX_SPACEDIM) (c : Real) :
    (stencilOffsets.map (fun di =>
        (stencilOffsets.map (fun dj => adotx_weight s dxinv di dj)).sum)).sum = 0
    ∧ ∀ i j k, b.contains i j k →
        mlndtslap_adotx b y (constField c) s dxinv i j k = 0 := by
  constructor
  · simp only [stencilOffsets, List.map_cons, List.map_nil, List.sum_cons, List.sum_nil]
    obtain ⟨w00, w10, wm0, w01, w0m, w11, wmm, w1m, wm1⟩ := stencilWeight_values s dxinv
    rw [adotx_weight_eq s dxinv (-1) (-1) (by decide) (by decide),
      adotx_weight_eq s dxinv (-1) 0 (by decide) (by decide),
      adotx_weight_eq s dxinv (-1) 1 (by decide) (by decide),
      adotx_weight_eq s dxinv 0 (-1) (by decide) (by decide),
      adotx_weight_eq s dxinv 0 0 (by decide) (by decide),
      adotx_weight_eq s dxinv 0 1 (by decide) (by decide),
      adotx_weight_eq s dxinv 1 (-1) (by decide) (by decide),
      adotx_weight_eq s dxinv 1 0 (by decide) (by decide),
      adotx_weight_eq s dxinv 1 1 (by decide) (by decide),
      w00, w10, wm0, w01, w0m, w11, wmm, w1m, wm1]
    ring
  · intro i j k h
    rw [mlndtslap_adotx_inside b y y _ s dxinv i j k h]
    simp only [mlndtslap_adotx_body, Array4.set_same, constField]
    norm_num
    ring

/-- Witness of C2: scenario A, the field uniformly equal to `5`. -/
theorem mlndtslap_adotx_constant_witness :
    boxA.contains 2 1 0 ∧
    mlndtslap_adotx boxA (constField 1) (constField 5) sA dxinvA 2 1 0 = 0 :=
  ⟨by decide,
   (mlndtslap_adotx_constant boxA (constField 1) sA dxinvA 5).2 2 1 0 (by decide)⟩

/-- C3, as stated, fails: with `dxinv = (1,1)` and `s = (1,0,1)` the weight of
the axis neighbour `(i+1,j)` is `1/3`, not `2/3`, and the weight of the
diagonal neighbour `(i+1,j+1)` is `1/3`, not `1/6`. -/
theorem mlndtslap_adotx_scenarioA_weights_counterexample :
    adotx_weight sA dxinvA 1 0 = 1/3 ∧ adotx_weight sA dxinvA 1 0 ≠ 2/3
    ∧ adotx_weight sA dxinvA 1 1 = 1/3 ∧ adotx_weight sA dxinvA 1 1 ≠ 1/6 := by
  have h10 : adotx_weight sA dxinvA 1 0 = 1/3 := by
    rw [adotx_weight_eq sA dxinvA 1 0 (by decide) (by decide)]
    simp only [stencilWeight, sA, dxinvA]
    norm_num
  have h11 : adotx_weight sA dxinvA 1 1 = 1/3 := by
    rw [adotx_weight_eq sA dxinvA 1 1 (by decide) (by decide)]
    simp only [stencilWeight, sA, dxinvA]
    norm_num
  refine ⟨h10, ?_, h11, ?_⟩
  · rw [h10]; norm_num
  · rw [h11]; norm_num

/-- C3, amended: with `dxinv = (1,1)` and `s = (1,0,1)` the centre weight of
`mlndtslap_adotx` is `-8/3` and each of the eight neighbours, axis and
diagonal alike, has weight `1/3`; so at every node of the box the kernel
writes `-8/3 x(i,j) + 1/3 (sum of the eight neighbours)`. -/
theorem mlndtslap_adotx_scenarioA_weights :
    adotx_weight sA dxinvA 0 0 = -8/3
    ∧ adotx_weight sA dxinvA 1 0 = 1/3 ∧ adotx_weight sA dxinvA (-1) 0 = 1/3
    ∧ adotx_weight sA dxinvA 0 1 = 1/3 ∧ adotx_weight sA dxinvA 0 (-1) = 1/3
    ∧ adotx_weight sA dxinvA 1 1 = 1/3 ∧ adotx_weight sA dxinvA (-1) (-1) = 1/3
    ∧ adotx_weight sA dxinvA 1 (-1) = 1/3 ∧ adotx_weight sA dxinvA (-1) 1 = 1/3
    ∧ ∀ (b : Box) (y x : Array4 Real) (i j k : Int), b.contains i j k →
        mlndtslap_adotx b y x sA dxinvA i j k
          = -8/3 * x i j 0
            + 1/3 * (x (i+1) j 0 + x (i-1) j 0 + x i (j+1) 0 + x i (j-1) 0)
            + 1/3 * (x (i+1) (j+1) 0 + x (i-1) (j-1) 0 + x (i+1) (j-1) 0
                      + x (i-1) (j+1) 0) := by
  refine ⟨?_, ?_, ?_, ?_, ?_, ?_, ?_, ?_, ?_, ?_⟩
  · rw [adotx_weight_eq sA dxinvA 0 0 (by decide) (by decide)]
    simp only [stencilWeight, sA, dxinvA]; norm_num
  · rw [adotx_weight_eq sA dxinvA 1 0 (by decide) (by decide)]
    simp only [stencilWeight, sA, dxinvA]; norm_num
  · rw [adotx_weight_eq sA dxinvA (-1) 0 (by decide) (by decide)]
    simp only [stencilWeight, sA, dxinvA]; norm_num
  · rw [adotx_weight_eq sA dxinvA 0 1 (by decide) (by decide)]
    simp only [stencilWeight, sA, dxinvA]; norm_num
  · rw [adotx_weight_eq sA dxinvA 0 (-1) (by decide) (by decide)]
    simp only [stencilWeight, sA, dxinvA]; norm_num
  · rw [adotx_weight_eq sA dxinvA 1 1 (by decide) (by decide)]
    simp only [stencilWeight, sA, dxinvA]; norm_num
  · rw [adotx_weight_eq sA dxinvA (-1) (-1) (by decide) (by decide)]
    simp only [stencilWeight, sA, dxinvA]; norm_num
  · rw [adotx_weight_eq sA dxinvA 1 (-1) (by decide) (by decide)]
    simp only [stencilWeight, sA, dxinvA]; norm_num
  · rw [adotx_weight_eq sA dxinvA (-1) 1 (by decide) (by decide)]
    simp only [stencilWeight, sA, dxinvA]; norm_num
  · intro b y x i j k h
    rw [mlndtslap_adotx_inside b y y x sA dxinvA i j k h]
    simp only [mlndtslap_adotx_body, Array4.set_same, sA, dxinvA]
    norm_num
    ring

/-- Witness of the amended C3 on the grid of scenario A, at the node `(1,1,0)`. -/
theorem mlndtslap_adotx_scenarioA_weights_witness :
    boxA.contains 1 1 0 ∧
    mlndtslap_adotx boxA (constField 0) rampField sA dxinvA 1 1 0
      = -8/3 * rampField 1 1 0
        + 1/3 * (rampField (1+1) 1 0 + rampField (1-1) 1 0 + rampField 1 (1+1) 0
                  + rampField 1 (1-1) 0)
        + 1/3 * (rampField (1+1) (1+1) 0 + rampField (1-1) (1-1) 0
                  + rampField (1+1) (1-1) 0 + rampField (1-1) (1+1) 0) :=
  ⟨by decide,
   mlndtslap_adotx_scenarioA_weights.2.2.2.2.2.2.2.2.2 boxA (constField 0) rampField 1 1 0
     (by decide)⟩

/-- C4: `mlndtslap_adotx` overwrites and does not accumulate. For two prior
contents `y1`, `y2` of the output the results agree at every node of the box
(and equal the stencil sum of the input `x`), and every node outside the box
keeps its prior value. The input `x` is a `const` view: the kernel cannot
write to it and every read of the loop sees the caller's `x`. -/
theorem mlndtslap_adotx_overwrites (b : Box) (x y1 y2 : Array4 Real)
    (s : GpuArray Real 3) (dxinv : GpuArray Real AMREX_SPACEDIM) :
    (∀ i j k, b.contains i j k →
        mlndtslap_adotx b y1 x s dxinv i j k = mlndtslap_adotx b y2 x s dxinv i j k
        ∧ mlndtslap_adotx b y1 x s dxinv i j k = stencilSum s dxinv x i j)
    ∧ (∀ i j k, ¬ b.contains i j k →
        mlndtslap_adotx b y1 x s dxinv i j k = y1 i j k) := by
  constructor
  · intro i j k h
    constructor
    · rw [mlndtslap_adotx_inside b y1 y1 x s dxinv i j k h,
        mlndtslap_adotx_inside b y2 y1 x s dxinv i j k h]
    · obtain ⟨w00, w10, wm0, w01, w0m, w11, wmm, w1m, wm1⟩ := stencilWeight_values s dxinv
      rw [mlndtslap_adotx_inside b y1 y1 x s dxinv i j k h, stencilSum_eq,
        w00, w10, wm0, w01, w0m, w11, wmm, w1m, wm1]
      simp only [mlndtslap_adotx_body, Array4.set_same]
      norm_num
      ring
  · intro i j k h
    exact mlndtslap_adotx_outside b y1 x s dxinv i j k h

/-- Witness of C4 on the grid of scenario A: the node `(1,1,0)` inside and the
node `(4,1,0)` outside the box. -/
theorem mlndtslap_adotx_overwrites_witness :
    (boxA.contains 1 1 0 ∧
      mlndtslap_adotx boxA (constField 7) rampField sA dxinvA 1 1 0
        = mlndtslap_adotx boxA (impulse 1 1 0) rampField sA dxinvA 1 1 0)
    ∧ (¬ boxA.contains 4 1 0 ∧
      mlndtslap_adotx boxA (constField 7) rampField sA dxinvA 4 1 0 = constField 7 4 1 0) :=
  ⟨⟨by decide,
    ((mlndtslap_adotx_overwrites boxA rampField (constField 7) (impulse 1 1 0) sA dxinvA).1
      1 1 0 (by decide)).1⟩,
   ⟨by decide,
    (mlndtslap_adotx_overwrites boxA rampField (constField 7) (impulse 1 1 0) sA dxinvA).2
      4 1 0 (by decide)⟩⟩

/-! ## Smoother: theorems -/

/-- The eight-neighbour sum of the specification, written out term by term. -/
theorem neighbourSum_eq (s : GpuArray Real 3) (dxinv : GpuArray Real AMREX_SPACEDIM)
    (x : Array4 Real) (i j : Int) :
    neighbourSum s dxinv x i j =
        stencilWeight s dxinv (-1) (-1) * x (i-1) (j-1) 0
      + stencilWeight s dxinv (-1) 0 * x (i-1) j 0
      + stencilWeight s dxinv (-1) 1 * x (i-1) (j+1) 0
      + stencilWeight s dxinv 0 (-1) * x i (j-1) 0
      + stencilWeight s dxinv 0 1 * x i (j+1) 0
      + stencilWeight s dxinv 1 (-1) * x (i+1) (j-1) 0
      + stencilWeight s dxinv 1 0 * x (i+1) j 0
      + stencilWeight s dxinv 1 1 * x (i+1) (j+1) 0 := by
  have e1 : i + -1 = i - 1 := by ring
  have e2 : j + -1 = j - 1 := by ring
  simp only [neighbourSum, stencilOffsets, List.map_cons, List.map_nil, List.sum_cons,
    List.sum_nil, e1, e2, add_zero]
  norm_num
  ring

/-- The value the loop body of `mlndtslap_gauss_seidel` writes at an active
node, in terms of the nine-point sum of the specification. -/
theorem mlndtslap_gauss_seidel_body_active (rhs : Array4 Real) (msk : Array4 Int)
    (s : GpuArray Real 3) (dxinv : GpuArray Real AMREX_SPACEDIM) (i j k : Int)
    (st : Array4 Real) (hm : msk i j k = 0) :
    mlndtslap_gauss_seidel_body rhs msk s
        (dxinv 0 * dxinv 0) (dxinv 0 * dxinv 1) (dxinv 1 * dxinv 1) i j k st i j k
      = st i j k + (rhs i j k - stencilSum s dxinv st i j) / stencilDiag s dxinv := by
  obtain ⟨w00, w10, wm0, w01, w0m, w11, wmm, w1m, wm1⟩ := stencilWeight_values s dxinv
  unfold mlndtslap_gauss_seidel_body
  rw [if_neg (by simp [hm])]
  simp only [Array4.set_same]
  rw [stencilSum_eq, w00, w10, wm0, w01, w0m, w11, wmm, w1m, wm1]
  unfold stencilDiag
  congr 2
  · norm_num
    ring
  · ring

/-- C5, as stated, fails: on the one-node box at the origin with `sol = 1`
everywhere, `rhs = 0`, no covered node, `dxinv = (1,1)` and `s = (1,0,1)`, the
sweep leaves `1` at the node, while `v + (rhs - Ax)/diag` with `Ax` the sum
over the eight neighbours only is `2`. -/
theorem mlndtslap_gauss_seidel_update_counterexample :
    mlndtslap_gauss_seidel originBox (constField 1) (constField 0) activeMask sA dxinvA 0 0 0
      = 1
    ∧ constField 1 0 0 0
        + (constField 0 0 0 0 - neighbourSum sA dxinvA (constField 1) 0 0)
            / stencilDiag sA dxinvA = 2
    ∧ mlndtslap_gauss_seidel originBox (constField 1) (constField 0) activeMask sA dxinvA 0 0 0
      ≠ constField 1 0 0 0
        + (constField 0 0 0 0 - neighbourSum sA dxinvA (constField 1) 0 0)
            / stencilDiag sA dxinvA := by
  have h1 : mlndtslap_gauss_seidel originBox (constField 1) (constField 0) activeMask
      sA dxinvA 0 0 0 = 1 := by
    simp only [mlndtslap_gauss_seidel, Loop, originBox_nodes, List.foldl_cons, List.foldl_nil,
      mlndtslap_gauss_seidel_body, activeMask, constField, sA, dxinvA, Array4.set_same]
    norm_num
    exact Array4.set_same _ _ _ _ _
  have h2 : constField 1 0 0 0
        + (constField 0 0 0 0 - neighbourSum sA dxinvA (constField 1) 0 0)
            / stencilDiag sA dxinvA = 2 := by
    rw [neighbourSum_eq]
    simp only [stencilWeight, stencilDiag, constField, sA, dxinvA]
    norm_num
  refine ⟨h1, h2, ?_⟩
  rw [h1, h2]
  norm_num

/-- C5, amended: at every active node of the box, `mlndtslap_gauss_seidel`
computes `Ax` as the weighted sum of all nine values of the stencil, the
centre term included, with the weights of `mlndtslap_adotx`, taken in the
state of `sol` when the sweep reaches the node, and replaces the node value
`v` by `v + (rhs - Ax)/diag`. In the plane `k = 0` and with `diag` nonzero
this is `(rhs - N)/diag`, where `N` is the sum over the eight neighbours. -/
theorem mlndtslap_gauss_seidel_update (b : Box) (sol rhs : Array4 Real) (msk : Array4 Int)
    (s : GpuArray Real 3) (dxinv : GpuArray Real AMREX_SPACEDIM) (i j k : Int)
    (h : b.contains i j k) (hm : msk i j k = 0) :
    mlndtslap_gauss_seidel b sol rhs msk s dxinv i j k
      = gauss_seidel_before b sol rhs msk s dxinv i j k i j k
        + (rhs i j k - stencilSum s dxinv (gauss_seidel_before b sol rhs msk s dxinv i j k) i j)
            / stencilDiag s dxinv
    ∧ (k = 0 → stencilDiag s dxinv ≠ 0 →
        mlndtslap_gauss_seidel b sol rhs msk s dxinv i j k
          = (rhs i j k
              - neighbourSum s dxinv (gauss_seidel_before b sol rhs msk s dxinv i j k) i j)
            / stencilDiag s dxinv) := by
  have key := mlndtslap_gauss_seidel_inside b sol rhs msk s dxinv i j k h
  rw [mlndtslap_gauss_seidel_body_active rhs msk s dxinv i j k _ hm] at key
  refine ⟨key, ?_⟩
  intro hk hd
  subst hk
  rw [key, stencilSum_eq, neighbourSum_eq]
  have hw : stencilWeight s dxinv 0 0 = stencilDiag s dxinv := by
    simp [stencilWeight, stencilDiag]
  rw [hw]
  field_simp
  ring

/-- Witness of the amended C5: scenario A, the active node `(1,1,0)`. -/
theorem mlndtslap_gauss_seidel_update_witness :
    boxA.contains 1 1 0 ∧ maskA 1 1 0 = 0 ∧ stencilDiag sA dxinvA ≠ 0 ∧
    mlndtslap_gauss_seidel boxA rampField (constField 1) maskA sA dxinvA 1 1 0
      = (constField 1 1 1 0
          - neighbourSum sA dxinvA
              (gauss_seidel_before boxA rampField (constField 1) maskA sA dxinvA 1 1 0) 1 1)
        / stencilDiag sA dxinvA :=
  have hd : stencilDiag sA dxinvA ≠ 0 := by
    simp only [stencilDiag, sA, dxinvA]
    norm_num
  ⟨by decide, by decide, hd,
   (mlndtslap_gauss_seidel_update boxA rampField (constField 1) maskA sA dxinvA 1 1 0
      (by decide) (by decide)).2 rfl hd⟩

/-- C6: after `mlndtslap_gauss_seidel` over a box, every node of the box whose
mask is nonzero holds exactly `0`, whatever its prior value, the right-hand
side and the coefficients; nodes outside the box keep their prior values. -/
theorem mlndtslap_gauss_seidel_masked (b : Box) (sol rhs : Array4 Real) (msk : Array4 Int)
    (s : GpuArray Real 3) (dxinv : GpuArray Real AMREX_SPACEDIM) :
    (∀ i j k, b.contains i j k → msk i j k ≠ 0 →
        mlndtslap_gauss_seidel b sol rhs msk s dxinv i j k = 0)
    ∧ (∀ i j k, ¬ b.contains i j k →
        mlndtslap_gauss_seidel b sol rhs msk s dxinv i j k = sol i j k) := by
  constructor
  · intro i j k h hm
    rw [mlndtslap_gauss_seidel_inside b sol rhs msk s dxinv i j k h]
    unfold mlndtslap_gauss_seidel_body
    rw [if_pos hm, Array4.set_same]
  · intro i j k h
    exact mlndtslap_gauss_seidel_outside b sol rhs msk s dxinv i j k h

/-- Witness of C6: scenario A, the covered node `(0,1,0)` of the box and the
node `(4,1,0)` outside the box. -/
theorem mlndtslap_gauss_seidel_masked_witness :
    (boxA.contains 0 1 0 ∧ maskA 0 1 0 ≠ 0 ∧
      mlndtslap_gauss_seidel boxA rampField (constField 1) maskA sA dxinvA 0 1 0 = 0)
    ∧ (¬ boxA.contains 4 1 0 ∧
      mlndtslap_gauss_seidel boxA rampField (constField 1) maskA sA dxinvA 4 1 0
        = rampField 4 1 0) :=
  ⟨⟨by decide, by decide,
    (mlndtslap_gauss_seidel_masked boxA rampField (constField 1) maskA sA dxinvA).1
      0 1 0 (by decide) (by decide)⟩,
   ⟨by decide,
    (mlndtslap_gauss_seidel_masked boxA rampField (constField 1) maskA sA dxinvA).2
      4 1 0 (by decide)⟩⟩

/-! ## Prolongation: theorems -/

theorem coarsen_two (i : Int) : coarsen i 2 = i / 2 := by
  unfold coarsen
  exact Int.fdiv_eq_ediv i (by decide)

theorem floor_half (i : Int) : ⌊(i : Real) / 2⌋ = i / 2 := by
  have h := Rat.floor_intCast_div_natCast i 2
  simpa using h

/-- The value `mlndtslap_interpadd` leaves at an unmasked fine node, by the
parity of its two indices. -/
theorem mlndtslap_interpadd_value (i j k : Int) (fine crse : Array4 Real)
    (msk : Array4 Int) (hm : msk i j 0 = 0) :
    mlndtslap_interpadd i j k fine crse msk i j 0
      = fine i j 0 +
        (if i % 2 = 1 then
          (if j % 2 = 1 then ts_interp_face_xy crse (i / 2) (j / 2)
           else ts_interp_line_x crse (i / 2) (j / 2))
         else
          (if j % 2 = 1 then ts_interp_line_y crse (i / 2) (j / 2)
           else crse (i / 2) (j / 2) 0)) := by
  have hi : (i / 2 * 2 ≠ i) ↔ i % 2 = 1 := by omega
  have hj : (j / 2 * 2 ≠ j) ↔ j % 2 = 1 := by omega
  unfold mlndtslap_interpadd
  rw [if_pos hm]
  simp only [coarsen_two, hi, hj]
  by_cases h1 : i % 2 = 1 <;> by_cases h2 : j % 2 = 1 <;>
    simp [h1, h2, Array4.set_same]

/-- A masked fine node is skipped: `mlndtslap_interpadd` returns `fine`. -/
theorem mlndtslap_interpadd_masked (i j k : Int) (fine crse : Array4 Real)
    (msk : Array4 Int) (hm : msk i j 0 ≠ 0) :
    mlndtslap_interpadd i j k fine crse msk = fine := by
  unfold mlndtslap_interpadd
  rw [if_neg hm]

/-- C7: with `ic = floor(i/2)` and `jc = floor(j/2)`, at an unmasked fine node
`mlndtslap_interpadd` adds `crse(ic,jc)` when `i` and `j` are even, the mean
of `crse(ic,jc)` and `crse(ic+1,jc)` when only `i` is odd, the mean of
`crse(ic,jc)` and `crse(ic,jc+1)` when only `j` is odd, and a quarter of the
sum of the four line midpoints when both are odd; at a masked fine node it
leaves `fine` unchanged. -/
theorem mlndtslap_interpadd_cases (i j k : Int) (fine crse : Array4 Real)
    (msk : Array4 Int) :
    (msk i j 0 = 0 → Even i → Even j →
      mlndtslap_interpadd i j k fine crse msk i j 0
        = fine i j 0 + crse ⌊(i : Real) / 2⌋ ⌊(j : Real) / 2⌋ 0)
    ∧ (msk i j 0 = 0 → Odd i → Even j →
      mlndtslap_interpadd i j k fine crse msk i j 0
        = fine i j 0
          + (crse ⌊(i : Real) / 2⌋ ⌊(j : Real) / 2⌋ 0
              + crse (⌊(i : Real) / 2⌋ + 1) ⌊(j : Real) / 2⌋ 0) / 2)
    ∧ (msk i j 0 = 0 → Even i → Odd j →
      mlndtslap_interpadd i j k fine crse msk i j 0
        = fine i j 0
          + (crse ⌊(i : Real) / 2⌋ ⌊(j : Real) / 2⌋ 0
              + crse ⌊(i : Real) / 2⌋ (⌊(j : Real) / 2⌋ + 1) 0) / 2)
    ∧ (msk i j 0 = 0 → Odd i → Odd j →
      mlndtslap_interpadd i j k fine crse msk i j 0
        = fine i j 0
          + 1/4 *
            ( (crse ⌊(i : Real) / 2⌋ ⌊(j : Real) / 2⌋ 0
                + crse ⌊(i : Real) / 2⌋ (⌊(j : Real) / 2⌋ + 1) 0) / 2
            + (crse (⌊(i : Real) / 2⌋ + 1) ⌊(j : Real) / 2⌋ 0
                + crse (⌊(i : Real) / 2⌋ + 1) (⌊(j : Real) / 2⌋ + 1) 0) / 2
            + (crse ⌊(i : Real) / 2⌋ ⌊(j : Real) / 2⌋ 0
                + crse (⌊(i : Real) / 2⌋ + 1) ⌊(j : Real) / 2⌋ 0) / 2
            + (crse ⌊(i : Real) / 2⌋ (⌊(j : Real) / 2⌋ + 1) 0
                + crse (⌊(i : Real) / 2⌋ + 1) (⌊(j : Real) / 2⌋ + 1) 0) / 2))
    ∧ (msk i j 0 ≠ 0 → mlndtslap_interpadd i j k fine crse msk = fine) := by
  simp only [floor_half, Int.even_iff, Int.odd_iff]
  refine ⟨?_, ?_, ?_, ?_, ?_⟩
  · intro hm h1 h2
    rw [mlndtslap_interpadd_value i j k fine crse msk hm]
    simp [h1, h2]
  · intro hm h1 h2
    rw [mlndtslap_interpadd_value i j k fine crse msk hm]
    simp only [h1, h2, ts_interp_line_x]
    norm_num
    ring
  · intro hm h1 h2
    rw [mlndtslap_interpadd_value i j k fine crse msk hm]
    simp only [h1, h2, ts_interp_line_y]
    norm_num
    ring
  · intro hm h1 h2
    rw [mlndtslap_interpadd_value i j k fine crse msk hm]
    simp only [h1, h2, ts_interp_face_xy, ts_interp_line_x, ts_interp_line_y]
    norm_num
    ring
  · exact mlndtslap_interpadd_masked i j k fine crse msk

/-- Witness of C7: the fine nodes `(2,4)`, `(3,4)`, `(2,5)` and `(-3,-1)`, one
of each parity class, with no covered node, and the covered node `(0,0)` of
scenario A. -/
theorem mlndtslap_interpadd_cases_witness :
    (activeMask 2 4 0 = 0 ∧ Even (2 : Int) ∧ Even (4 : Int) ∧
      mlndtslap_interpadd 2 4 0 (constField 7) rampField activeMask 2 4 0
        = constField 7 2 4 0 + rampField ⌊((2 : Int) : Real) / 2⌋ ⌊((4 : Int) : Real) / 2⌋ 0)
    ∧ (activeMask 3 4 0 = 0 ∧ Odd (3 : Int) ∧ Even (4 : Int) ∧
      mlndtslap_interpadd 3 4 0 (constField 7) rampField activeMask 3 4 0
        = constField 7 3 4 0
          + (rampField ⌊((3 : Int) : Real) / 2⌋ ⌊((4 : Int) : Real) / 2⌋ 0
              + rampField (⌊((3 : Int) : Real) / 2⌋ + 1) ⌊((4 : Int) : Real) / 2⌋ 0) / 2)
    ∧ (activeMask 2 5 0 = 0 ∧ Even (2 : Int) ∧ Odd (5 : Int) ∧
      mlndtslap_interpadd 2 5 0 (constField 7) rampField activeMask 2 5 0
        = constField 7 2 5 0
          + (rampField ⌊((2 : Int) : Real) / 2⌋ ⌊((5 : Int) : Real) / 2⌋ 0
              + rampField ⌊((2 : Int) : Real) / 2⌋ (⌊((5 : Int) : Real) / 2⌋ + 1) 0) / 2)
    ∧ (activeMask (-3) (-1) 0 = 0 ∧ Odd (-3 : Int) ∧ Odd (-1 : Int) ∧
      mlndtslap_interpadd (-3) (-1) 0 (constField 7) rampField activeMask (-3) (-1) 0
        = constField 7 (-3) (-1) 0
          + 1/4 *
            ( (rampField ⌊((-3 : Int) : Real) / 2⌋ ⌊((-1 : Int) : Real) / 2⌋ 0
                + rampField ⌊((-3 : Int) : Real) / 2⌋ (⌊((-1 : Int) : Real) / 2⌋ + 1) 0) / 2
            + (rampField (⌊((-3 : Int) : Real) / 2⌋ + 1) ⌊((-1 : Int) : Real) / 2⌋ 0
                + rampField (⌊((-3 : Int) : Real) / 2⌋ + 1) (⌊((-1 : Int) : Real) / 2⌋ + 1) 0) / 2
            + (rampField ⌊((-3 : Int) : Real) / 2⌋ ⌊((-1 : Int) : Real) / 2⌋ 0
                + rampField (⌊((-3 : Int) : Real) / 2⌋ + 1) ⌊((-1 : Int) : Real) / 2⌋ 0) / 2
            + (rampField ⌊((-3 : Int) : Real) / 2⌋ (⌊((-1 : Int) : Real) / 2⌋ + 1) 0
                + rampField (⌊((-3 : Int) : Real) / 2⌋ + 1) (⌊((-1 : Int) : Real) / 2⌋ + 1) 0) / 2))
    ∧ (maskA 0 0 0 ≠ 0 ∧
      mlndtslap_interpadd 0 0 0 (constField 7) rampField maskA = constField 7) :=
  ⟨⟨by decide, by decide, by decide,
     (mlndtslap_interpadd_cases 2 4 0 (constField 7) rampField activeMask).1
       (by decide) (by decide) (by decide)⟩,
   ⟨by decide, by decide, by decide,
     (mlndtslap_interpadd_cases 3 4 0 (constField 7) rampField activeMask).2.1
       (by decide) (by decide) (by decide)⟩,
   ⟨by decide, by decide, by decide,
     (mlndtslap_interpadd_cases 2 5 0 (constField 7) rampField activeMask).2.2.1
       (by decide) (by decide) (by decide)⟩,
   ⟨by decide, by decide, by decide,
     (mlndtslap_interpadd_cases (-3) (-1) 0 (constField 7) rampField activeMask).2.2.2.1
       (by decide) (by decide) (by decide)⟩,
   ⟨by decide,
     (mlndtslap_interpadd_cases 0 0 0 (constField 7) rampField maskA).2.2.2.2 (by decide)⟩⟩

/-- C8: if the coarse field equals `c` everywhere, `mlndtslap_interpadd` adds
exactly `c` at every unmasked fine node, of any parity; a fine field that
started at `0` equals `c` there afterwards. -/
theorem mlndtslap_interpadd_constant (c : Real) (i j k : Int) (fine : Array4 Real)
    (msk : Array4 Int) (hm : msk i j 0 = 0) :
    mlndtslap_interpadd i j k fine (constField c) msk i j 0 = fine i j 0 + c
    ∧ mlndtslap_interpadd i j k (constField 0) (constField c) msk i j 0 = c := by
  have key : ∀ f : Array4 Real,
      mlndtslap_interpadd i j k f (constField c) msk i j 0 = f i j 0 + c := by
    intro f
    rw [mlndtslap_interpadd_value i j k f (constField c) msk hm]
    simp only [ts_interp_face_xy, ts_interp_line_x, ts_interp_line_y, constField]
    split_ifs <;> norm_num <;> ring
  refine ⟨key fine, ?_⟩
  rw [key]
  simp [constField]

/-- Witness of C8: the coarse field uniformly `3`, the fine node `(3,5)` with
both indices odd. -/
theorem mlndtslap_interpadd_constant_witness :
    activeMask 3 5 0 = 0 ∧
    mlndtslap_interpadd 3 5 0 rampField (constField 3) activeMask 3 5 0 = rampField 3 5 0 + 3
    ∧ mlndtslap_interpadd 3 5 0 (constField 0) (constField 3) activeMask 3 5 0 = 3 :=
  ⟨by decide, mlndtslap_interpadd_constant 3 3 5 0 rampField activeMask (by decide)⟩

/-- The fractional position of a fine index inside its coarse cell is `1/2`
for an odd index and `0` for an even one. -/
theorem frac_half (i : Int) :
    ((i : Real) - 2 * ((i / 2 : Int) : Real)) / 2 = if i % 2 = 1 then 1/2 else 0 := by
  have h : (i : Real) = 2 * ((i / 2 : Int) : Real) + ((i % 2 : Int) : Real) := by
    exact_mod_cast (Int.ediv_add_emod i 2).symm
  by_cases h1 : i % 2 = 1
  · rw [if_pos h1, h, h1]
    norm_num
  · have h0 : i % 2 = 0 := by omega
    rw [if_neg h1, h, h0]
    norm_num

/-- The bilinear interpolant of the specification, by the parity of the two
fine indices. -/
theorem bilinearInterp_eq (crse : Array4 Real) (i j : Int) :
    bilinearInterp crse i j
      = if i % 2 = 1 then
          (if j % 2 = 1 then
            (crse (i / 2) (j / 2) 0 + crse (i / 2 + 1) (j / 2) 0
              + crse (i / 2) (j / 2 + 1) 0 + crse (i / 2 + 1) (j / 2 + 1) 0) / 4
           else (crse (i / 2) (j / 2) 0 + crse (i / 2 + 1) (j / 2) 0) / 2)
        else
          (if j % 2 = 1 then (crse (i / 2) (j / 2) 0 + crse (i / 2) (j / 2 + 1) 0) / 2
           else crse (i / 2) (j / 2) 0) := by
  unfold bilinearInterp
  simp only [floor_half, frac_half, List.map_cons, List.map_nil, List.sum_cons, List.sum_nil,
    add_zero]
  by_cases h1 : i % 2 = 1 <;> by_cases h2 : j % 2 = 1 <;>
    (simp only [h1, h2, if_true, if_false]; norm_num; try ring)

/-- C9: at every unmasked fine node the amount `mlndtslap_interpadd` adds is
the bilinear interpolant of the four coarse corners `(ic,jc)`, `(ic+1,jc)`,
`(ic,jc+1)`, `(ic+1,jc+1)` at the fractional position of the node; when both
indices are odd this is the plain mean of the four corners. -/
theorem mlndtslap_interpadd_bilinear (i j k : Int) (fine crse : Array4 Real)
    (msk : Array4 Int) (hm : msk i j 0 = 0) :
    mlndtslap_interpadd i j k fine crse msk i j 0 - fine i j 0 = bilinearInterp crse i j
    ∧ (Odd i → Odd j →
        mlndtslap_interpadd i j k fine crse msk i j 0 - fine i j 0
          = (crse ⌊(i : Real) / 2⌋ ⌊(j : Real) / 2⌋ 0
              + crse (⌊(i : Real) / 2⌋ + 1) ⌊(j : Real) / 2⌋ 0
              + crse ⌊(i : Real) / 2⌋ (⌊(j : Real) / 2⌋ + 1) 0
              + crse (⌊(i : Real) / 2⌋ + 1) (⌊(j : Real) / 2⌋ + 1) 0) / 4) := by
  have key : mlndtslap_interpadd i j k fine crse msk i j 0 - fine i j 0
      = bilinearInterp crse i j := by
    rw [mlndtslap_interpadd_value i j k fine crse msk hm, bilinearInterp_eq]
    simp only [ts_interp_face_xy, ts_interp_line_x, ts_interp_line_y]
    split_ifs <;> norm_num <;> ring
  refine ⟨key, ?_⟩
  intro h1 h2
  rw [Int.odd_iff] at h1 h2
  rw [key, bilinearInterp_eq, if_pos h1, if_pos h2]
  simp only [floor_half]

/-- Witness of C9: the fine node `(-3,5)`, both indices odd, no covered node. -/
theorem mlndtslap_interpadd_bilinear_witness :
    activeMask (-3) 5 0 = 0 ∧ Odd (-3 : Int) ∧ Odd (5 : Int) ∧
    mlndtslap_interpadd (-3) 5 0 (constField 7) rampField activeMask (-3) 5 0
        - constField 7 (-3) 5 0
      = bilinearInterp rampField (-3) 5
    ∧ mlndtslap_interpadd (-3) 5 0 (constField 7) rampField activeMask (-3) 5 0
        - constField 7 (-3) 5 0
      = (rampField ⌊((-3 : Int) : Real) / 2⌋ ⌊((5 : Int) : Real) / 2⌋ 0
          + rampField (⌊((-3 : Int) : Real) / 2⌋ + 1) ⌊((5 : Int) : Real) / 2⌋ 0
          + rampField ⌊((-3 : Int) : Real) / 2⌋ (⌊((5 : Int) : Real) / 2⌋ + 1) 0
          + rampField (⌊((-3 : Int) : Real) / 2⌋ + 1) (⌊((5 : Int) : Real) / 2⌋ + 1) 0) / 4 :=
  ⟨by decide, by decide, by decide,
   (mlndtslap_interpadd_bilinear (-3) 5 0 (constField 7) rampField activeMask (by decide)).1,
   (mlndtslap_interpadd_bilinear (-3) 5 0 (constField 7) rampField activeMask (by decide)).2
     (by decide) (by decide)⟩

/-- Every node other than `(i,j,0)` keeps its value in `mlndtslap_interpadd`. -/
theorem mlndtslap_interpadd_other (i j k : Int) (fine crse : Array4 Real)
    (msk : Array4 Int) (a b d : Int) (hne : (a, b, d) ≠ (i, j, 0)) :
    mlndtslap_interpadd i j k fine crse msk a b d = fine a b d := by
  by_cases hm : msk i j 0 = 0
  · unfold mlndtslap_interpadd
    rw [if_pos hm]
    split_ifs <;> exact Array4.set_other _ _ _ _ _ _ _ _ hne
  · rw [mlndtslap_interpadd_masked i j k fine crse msk hm]

/-- The value `mlndtslap_interpadd` leaves at the fine node: the prior value
plus the bilinear interpolant of the coarse field at an unmasked node, the
prior value at a masked node. -/
theorem mlndtslap_interpadd_increment (i j k : Int) (fine crse : Array4 Real)
    (msk : Array4 Int) :
    mlndtslap_interpadd i j k fine crse msk i j 0
      = fine i j 0 + (if msk i j 0 = 0 then bilinearInterp crse i j else 0) := by
  by_cases hm : msk i j 0 = 0
  · rw [if_pos hm, mlndtslap_interpadd_value i j k fine crse msk hm, bilinearInterp_eq]
    simp only [ts_interp_face_xy, ts_interp_line_x, ts_interp_line_y]
    split_ifs <;> norm_num <;> ring
  · rw [if_neg hm, mlndtslap_interpadd_masked i j k fine crse msk hm, add_zero]

/-- The bilinear interpolant is additive in the coarse field. -/
theorem bilinearInterp_add (c1 c2 : Array4 Real) (i j : Int) :
    bilinearInterp (addField c1 c2) i j = bilinearInterp c1 i j + bilinearInterp c2 i j := by
  simp only [bilinearInterp_eq, addField]
  split_ifs <;> ring

theorem bilinearInterp_rampField : bilinearInterp rampField (-3) 5 = 7 / 2 := by
  rw [bilinearInterp_eq]
  simp only [rampField]
  norm_num

/-- C10: `mlndtslap_interpadd` accumulates. The call adds to `fine(i,j)` the
bilinear interpolant of the coarse field when the node is not masked, and
nothing when it is masked, and leaves every other node as it is; so after the
application with `c1` and then with `c2` the node holds its prior value plus
both contributions. This is the same fine field as one application with the
pointwise sum of `c1` and `c2`, the two applications commute, and the amount
added at the node does not depend on the prior value of `fine`. -/
theorem mlndtslap_interpadd_additive (i j k : Int) (fine fine2 c1 c2 : Array4 Real)
    (msk : Array4 Int) :
    mlndtslap_interpadd i j k (mlndtslap_interpadd i j k fine c1 msk) c2 msk
      = mlndtslap_interpadd i j k fine (addField c1 c2) msk
    ∧ mlndtslap_interpadd i j k (mlndtslap_interpadd i j k fine c1 msk) c2 msk
      = mlndtslap_interpadd i j k (mlndtslap_interpadd i j k fine c2 msk) c1 msk
    ∧ mlndtslap_interpadd i j k fine c1 msk i j 0 - fine i j 0
      = mlndtslap_interpadd i j k fine2 c1 msk i j 0 - fine2 i j 0
    ∧ mlndtslap_interpadd i j k fine c1 msk i j 0
      = fine i j 0 + (if msk i j 0 = 0 then bilinearInterp c1 i j else 0)
    ∧ mlndtslap_interpadd i j k (mlndtslap_interpadd i j k fine c1 msk) c2 msk i j 0
      = fine i j 0
        + (if msk i j 0 = 0 then bilinearInterp c1 i j + bilinearInterp c2 i j else 0)
    ∧ (∀ a b d : Int, (a, b, d) ≠ (i, j, 0) →
        mlndtslap_interpadd i j k (mlndtslap_interpadd i j k fine c1 msk) c2 msk a b d
          = fine a b d) := by
  have hinc := mlndtslap_interpadd_increment i j k
  have hoth := mlndtslap_interpadd_other i j k
  refine ⟨?_, ?_, ?_, hinc fine c1 msk, ?_, ?_⟩
  · funext a b d
    by_cases hp : (a, b, d) = (i, j, 0)
    · simp only [Prod.mk.injEq] at hp
      obtain ⟨rfl, rfl, rfl⟩ := hp
      rw [hinc, hinc, hinc, bilinearInterp_add]
      split_ifs <;> ring
    · rw [hoth _ _ msk a b d hp, hoth _ _ msk a b d hp, hoth _ _ msk a b d hp]
  · funext a b d
    by_cases hp : (a, b, d) = (i, j, 0)
    · simp only [Prod.mk.injEq] at hp
      obtain ⟨rfl, rfl, rfl⟩ := hp
      rw [hinc, hinc, hinc, hinc]
      ring
    · rw [hoth _ _ msk a b d hp, hoth _ _ msk a b d hp, hoth _ _ msk a b d hp,
        hoth _ _ msk a b d hp]
  · rw [hinc, hinc]
    ring
  · rw [hinc, hinc]
    split_ifs <;> ring
  · intro a b d hp
    rw [hoth _ _ msk a b d hp, hoth _ _ msk a b d hp]

/-- Witness of C10: the fine node `(-3,5)`, both indices odd and not masked,
holds `7` before the calls; the coarse field `rampField` contributes `7/2`
and the constant coarse field `1` contributes `1`, so the node holds `23/2`
after the two calls, and `7 + 7/2` after the first; the node `(0,0,0)` keeps
its value. -/
theorem mlndtslap_interpadd_additive_witness :
    mlndtslap_interpadd (-3) 5 0 (constField 7) rampField activeMask (-3) 5 0 = 7 + 7 / 2
    ∧ mlndtslap_interpadd (-3) 5 0
        (mlndtslap_interpadd (-3) 5 0 (constField 7) rampField activeMask)
        (constField 1) activeMask (-3) 5 0 = 23 / 2
    ∧ mlndtslap_interpadd (-3) 5 0 (constField 7) (addField rampField (constField 1))
        activeMask (-3) 5 0 = 23 / 2
    ∧ ((0, 0, 0) : Int × Int × Int) ≠ (-3, 5, 0)
    ∧ mlndtslap_interpadd (-3) 5 0
        (mlndtslap_interpadd (-3) 5 0 (constField 7) rampField activeMask)
        (constField 1) activeMask 0 0 0 = constField 7 0 0 0 := by
  have h := mlndtslap_interpadd_additive (-3) 5 0 (constField 7) (constField 7) rampField
    (constField 1) activeMask
  have hb1 : bilinearInterp (constField 1) (-3) 5 = 1 := by
    rw [bilinearInterp_eq]
    simp only [constField]
    norm_num
  have hm : activeMask (-3) 5 0 = 0 := rfl
  have e2 := h.2.2.2.2.1
  rw [if_pos hm, bilinearInterp_rampField, hb1] at e2
  have e1 := h.2.2.2.1
  rw [if_pos hm, bilinearInterp_rampField] at e1
  refine ⟨e1, ?_, ?_, by decide, h.2.2.2.2.2 0 0 0 (by decide)⟩
  · rw [e2]; simp only [constField]; norm_num
  · rw [← h.1, e2]; simp only [constField]; norm_num

/-! ## Normalize: theorems -/

/-- In a loop over distinct nodes whose body at a node only writes that node,
a visited node still holds its initial value when the loop reaches it. -/
theorem foldl_before {α : Type} (g : Int × Int × Int → Array4 α → Array4 α)
    (hg : ∀ p st i j k, (i, j, k) ≠ p → g p st i j k = st i j k)
    (i j k : Int) (l : List (Int × Int × Int)) (st : Array4 α) :
    (l.takeWhile (fun q => decide (q ≠ (i, j, k)))).foldl (fun st p => g p st) st i j k
      = st i j k := by
  refine foldl_frame g hg _ st i j k ?_
  intro hmem
  have := List.mem_takeWhile_imp hmem
  simp at this

theorem mlndtslap_normalize_body_other (msk : Array4 Int) (s : GpuArray Real 3)
    (h00 h11 : Real) (p : Int × Int × Int) (phi : Array4 Real) (i j k : Int)
    (h : (i, j, k) ≠ p) :
    mlndtslap_normalize_body msk s h00 h11 p.1 p.2.1 p.2.2 phi i j k = phi i j k := by
  unfold mlndtslap_normalize_body
  split
  · exact Array4.set_other _ _ _ _ _ _ _ _ h
  · rfl

theorem mlndtslap_normalize_body_same (msk : Array4 Int) (s : GpuArray Real 3)
    (h00 h11 : Real) (i j k : Int) (phi : Array4 Real) :
    mlndtslap_normalize_body msk s h00 h11 i j k phi i j k
      = if msk i j k = 0 then phi i j k / ((-4/3)*h00*s 0 + (-4/3)*h11*s 2)
        else phi i j k := by
  unfold mlndtslap_normalize_body
  split
  · rw [Array4.set_same]
  · rfl

/-- The diagonal coefficient computed by the kernels is `stencilDiag`. -/
theorem stencilDiag_eq (s : GpuArray Real 3) (dxinv : GpuArray Real AMREX_SPACEDIM) :
    (-4/3)*(dxinv 0 * dxinv 0)*s 0 + (-4/3)*(dxinv 1 * dxinv 1)*s 2 = stencilDiag s dxinv := by
  unfold stencilDiag
  ring

/-- Inside the box the value `mlndtslap_normalize` leaves at a node is the one
the loop body writes there from the initial `phi`. -/
theorem mlndtslap_normalize_inside (b : Box) (phi : Array4 Real) (msk : Array4 Int)
    (s : GpuArray Real 3) (dxinv : GpuArray Real AMREX_SPACEDIM) (i j k : Int)
    (h : b.contains i j k) :
    mlndtslap_normalize b phi msk s dxinv i j k
      = if msk i j k = 0 then phi i j k / stencilDiag s dxinv else phi i j k := by
  unfold mlndtslap_normalize Loop
  rw [foldl_at
    (fun p st => mlndtslap_normalize_body msk s _ _ p.1 p.2.1 p.2.2 st)
    (fun p st i j k hp => mlndtslap_normalize_body_other msk s _ _ p st i j k hp)
    i j k b.nodes b.nodes_nodup phi ((Box.mem_nodes b i j k).mpr h)]
  have hb := foldl_before
    (fun p st => mlndtslap_normalize_body msk s (dxinv 0 * dxinv 0) (dxinv 1 * dxinv 1)
      p.1 p.2.1 p.2.2 st)
    (fun p st i j k hp => mlndtslap_normalize_body_other msk s _ _ p st i j k hp)
    i j k b.nodes phi
  rw [mlndtslap_normalize_body_same, hb, stencilDiag_eq]

/-- Outside the box `mlndtslap_normalize` leaves `phi` as it was. -/
theorem mlndtslap_normalize_outside (b : Box) (phi : Array4 Real) (msk : Array4 Int)
    (s : GpuArray Real 3) (dxinv : GpuArray Real AMREX_SPACEDIM) (i j k : Int)
    (h : ¬ b.contains i j k) :
    mlndtslap_normalize b phi msk s dxinv i j k = phi i j k := by
  unfold mlndtslap_normalize Loop
  exact foldl_frame
    (fun p st => mlndtslap_normalize_body msk s _ _ p.1 p.2.1 p.2.2 st)
    (fun p st i j k hp => mlndtslap_normalize_body_other msk s _ _ p st i j k hp)
    b.nodes phi i j k (fun hm => h ((Box.mem_nodes b i j k).mp hm))

/-- C11: with `diag = -4/3*h00*s0 - 4/3*h11*s2` nonzero, `mlndtslap_normalize`
replaces `phi(i,j,k)` by `phi(i,j,k)/diag` at every node of the box whose mask
is `0`, and leaves `phi` unchanged at every node of the box whose mask is
nonzero and at every node outside the box. -/
theorem mlndtslap_normalize_divides (b : Box) (phi : Array4 Real) (msk : Array4 Int)
    (s : GpuArray Real 3) (dxinv : GpuArray Real AMREX_SPACEDIM)
    (hd : stencilDiag s dxinv ≠ 0) :
    (∀ i j k, b.contains i j k → msk i j k = 0 →
        mlndtslap_normalize b phi msk s dxinv i j k = phi i j k / stencilDiag s dxinv
        ∧ mlndtslap_normalize b phi msk s dxinv i j k * stencilDiag s dxinv = phi i j k)
    ∧ (∀ i j k, b.contains i j k → msk i j k ≠ 0 →
        mlndtslap_normalize b phi msk s dxinv i j k = phi i j k)
    ∧ (∀ i j k, ¬ b.contains i j k →
        mlndtslap_normalize b phi msk s dxinv i j k = phi i j k) := by
  refine ⟨?_, ?_, ?_⟩
  · intro i j k h hm
    rw [mlndtslap_normalize_inside b phi msk s dxinv i j k h, if_pos hm]
    exact ⟨rfl, div_mul_cancel₀ _ hd⟩
  · intro i j k h hm
    rw [mlndtslap_normalize_inside b phi msk s dxinv i j k h, if_neg hm]
  · intro i j k h
    exact mlndtslap_normalize_outside b phi msk s dxinv i j k h

theorem stencilDiag_scenarioA : stencilDiag sA dxinvA = -8/3 := by
  simp only [stencilDiag, sA, dxinvA]
  norm_num

/-- Witness of C11: scenario A, the active node `(1,2,0)`, the covered node
`(0,2,0)` and the node `(4,2,0)` outside the box. -/
theorem mlndtslap_normalize_divides_witness :
    stencilDiag sA dxinvA ≠ 0
    ∧ (boxA.contains 1 2 0 ∧ maskA 1 2 0 = 0 ∧
        mlndtslap_normalize boxA rampField maskA sA dxinvA 1 2 0
          = rampField 1 2 0 / stencilDiag sA dxinvA)
    ∧ (boxA.contains 0 2 0 ∧ maskA 0 2 0 ≠ 0 ∧
        mlndtslap_normalize boxA rampField maskA sA dxinvA 0 2 0 = rampField 0 2 0)
    ∧ (¬ boxA.contains 4 2 0 ∧
        mlndtslap_normalize boxA rampField maskA sA dxinvA 4 2 0 = rampField 4 2 0) :=
  have hd : stencilDiag sA dxinvA ≠ 0 := by rw [stencilDiag_scenarioA]; norm_num
  ⟨hd,
   ⟨by decide, by decide,
    ((mlndtslap_normalize_divides boxA rampField maskA sA dxinvA hd).1 1 2 0
      (by decide) (by decide)).1⟩,
   ⟨by decide, by decide,
    (mlndtslap_normalize_divides boxA rampField maskA sA dxinvA hd).2.1 0 2 0
      (by decide) (by decide)⟩,
   ⟨by decide,
    (mlndtslap_normalize_divides boxA rampField maskA sA dxinvA hd).2.2 4 2 0 (by decide)⟩⟩

/-! ## Sparse assembler: theorems -/

theorem fill_ijmatrix_neighbour_eq (id : Int) (w : Real) (a : IJMatrix × Int) :
    fill_ijmatrix_neighbour id w a
      = (⟨a.1.ncols, a.1.rows, a.1.cols ++ (if id ≥ 0 then [id] else []),
          a.1.mat ++ (if id ≥ 0 then [w] else [])⟩,
         a.2 + (if id ≥ 0 then 1 else 0)) := by
  unfold fill_ijmatrix_neighbour
  split <;> simp

theorem filter_cons_ite {α : Type} (p : α → Bool) (a : α) (l : List α) :
    (a :: l).filter p = (if p a then [a] else []) ++ l.filter p := by
  rw [List.filter_cons]
  split <;> simp

theorem map_ite_singleton {α β : Type} (f : α → β) (c : Prop) [Decidable c] (a : α) :
    List.map f (if c then [a] else []) = if c then [f a] else [] := by
  split <;> rfl

theorem length_ite_singleton {α : Type} (c : Prop) [Decidable c] (a : α) :
    (if c then [a] else []).length = if c then 1 else 0 := by
  split <;> rfl

/-- The loop body of `mlndtslap_fill_ijmatrix` at an emitting node appends one
row id, the entries of `rowEntries`, and their number. -/
theorem mlndtslap_fill_ijmatrix_body_emit (nid owner : Array4 Int) (s : GpuArray Real 3)
    (h00 h01 h11 : Real) (i j k : Int) (v : IJMatrix)
    (h : nid i j k ≥ 0 ∧ owner i j k ≠ 0) :
    mlndtslap_fill_ijmatrix_body nid owner s h00 h01 h11 i j k v
      = v.append ⟨[((rowEntries nid s h00 h01 h11 i j k).length : Int)], [nid i j k],
          (rowEntries nid s h00 h01 h11 i j k).map Prod.fst,
          (rowEntries nid s h00 h01 h11 i j k).map Prod.snd⟩ := by
  unfold mlndtslap_fill_ijmatrix_body
  rw [if_pos h]
  simp only [fill_ijmatrix_neighbour_eq, rowEntries, rowNeighbours, filter_cons_ite,
    List.filter_nil, IJMatrix.append, IJMatrix.mk.injEq]
  refine ⟨?_, ?_, ?_, ?_⟩
  · simp only [decide_eq_true_eq, List.length_cons, List.length_append, length_ite_singleton,
      List.length_nil, List.append_cancel_left_eq, List.cons.injEq, and_true]
    push_cast
    ring
  · trivial
  · simp only [decide_eq_true_eq, List.map_cons, List.map_append, map_ite_singleton,
      List.map_nil, List.append_nil, List.append_assoc, List.singleton_append,
      List.cons_append, List.nil_append]
  · simp only [decide_eq_true_eq, List.map_cons, List.map_append, map_ite_singleton,
      List.map_nil, List.append_nil, List.append_assoc, List.singleton_append,
      List.cons_append, List.nil_append]
/-- The loop body of `mlndtslap_fill_ijmatrix` at a node that does not emit
leaves the vectors as they are. -/
theorem mlndtslap_fill_ijmatrix_body_skip (nid owner : Array4 Int) (s : GpuArray Real 3)
    (h00 h01 h11 : Real) (i j k : Int) (v : IJMatrix)
    (h : ¬ (nid i j k ≥ 0 ∧ owner i j k ≠ 0)) :
    mlndtslap_fill_ijmatrix_body nid owner s h00 h01 h11 i j k v = v := by
  unfold mlndtslap_fill_ijmatrix_body
  rw [if_neg h]

theorem foldl_flatMap_eq {α β γ : Type} (f : α → List β) (g : γ → β → γ) (l : List α)
    (init : γ) :
    (l.flatMap f).foldl g init = l.foldl (fun acc a => (f a).foldl g acc) init := by
  induction l generalizing init with
  | nil => rfl
  | cons a l ih => rw [List.flatMap_cons, List.foldl_append, ih, List.foldl_cons]

/-- The triple loop of `mlndtslap_fill_ijmatrix` is the loop over the nodes of
the box in the order of `Box.nodes`. -/
theorem mlndtslap_fill_ijmatrix_eq_foldl (ndbx : Box) (nid owner : Array4 Int)
    (ncols rows cols : List Int) (mat : List Real) (msk : Array4 Int)
    (s : GpuArray Real 3) (dxinv : GpuArray Real AMREX_SPACEDIM) :
    mlndtslap_fill_ijmatrix ndbx nid owner ncols rows cols mat msk s dxinv
      = ndbx.nodes.foldl (fun v p =>
          mlndtslap_fill_ijmatrix_body nid owner s
            (dxinv 0 * dxinv 0) (dxinv 0 * dxinv 1) (dxinv 1 * dxinv 1) p.1 p.2.1 p.2.2 v)
          ⟨ncols, rows, cols, mat⟩ := by
  unfold mlndtslap_fill_ijmatrix Box.nodes
  simp only [foldl_flatMap_eq, List.foldl_map]

theorem IJMatrix.append_assoc (a b c : IJMatrix) :
    (a.append b).append c = a.append (b.append c) := by
  simp [IJMatrix.append, List.append_assoc]

theorem IJMatrix.append_empty (a : IJMatrix) : a.append IJMatrix.empty = a := by
  simp [IJMatrix.append, IJMatrix.empty]

theorem IJMatrix.empty_append (a : IJMatrix) : IJMatrix.empty.append a = a := by
  simp [IJMatrix.append, IJMatrix.empty]

/-- The loop body appends to the vectors what it produces on empty vectors. -/
theorem mlndtslap_fill_ijmatrix_body_append (nid owner : Array4 Int) (s : GpuArray Real 3)
    (dxinv : GpuArray Real AMREX_SPACEDIM) (i j k : Int) (v : IJMatrix) :
    mlndtslap_fill_ijmatrix_body nid owner s
        (dxinv 0 * dxinv 0) (dxinv 0 * dxinv 1) (dxinv 1 * dxinv 1) i j k v
      = v.append (fill_ijmatrix_row nid owner s dxinv i j k) := by
  unfold fill_ijmatrix_row
  by_cases h : nid i j k ≥ 0 ∧ owner i j k ≠ 0
  · rw [mlndtslap_fill_ijmatrix_body_emit nid owner s _ _ _ i j k v h,
      mlndtslap_fill_ijmatrix_body_emit nid owner s _ _ _ i j k IJMatrix.empty h,
      IJMatrix.empty_append]
  · rw [mlndtslap_fill_ijmatrix_body_skip nid owner s _ _ _ i j k v h,
      mlndtslap_fill_ijmatrix_body_skip nid owner s _ _ _ i j k IJMatrix.empty h,
      IJMatrix.append_empty]

/-- A loop of the body of `mlndtslap_fill_ijmatrix` over a list of nodes
appends, for each emitting node of the list in order, its row. -/
theorem fill_ijmatrix_foldl (nid owner : Array4 Int) (s : GpuArray Real 3)
    (dxinv : GpuArray Real AMREX_SPACEDIM) (l : List (Int × Int × Int)) (v : IJMatrix) :
    l.foldl (fun v p =>
        mlndtslap_fill_ijmatrix_body nid owner s
          (dxinv 0 * dxinv 0) (dxinv 0 * dxinv 1) (dxinv 1 * dxinv 1) p.1 p.2.1 p.2.2 v) v
      = v.append
          ⟨(l.filter (fun p => decide (nid p.1 p.2.1 p.2.2 ≥ 0 ∧ owner p.1 p.2.1 p.2.2 ≠ 0))).map
              (fun p => ((rowEntriesAt nid s dxinv p).length : Int)),
           (l.filter (fun p => decide (nid p.1 p.2.1 p.2.2 ≥ 0 ∧ owner p.1 p.2.1 p.2.2 ≠ 0))).map
              (fun p => nid p.1 p.2.1 p.2.2),
           (l.filter (fun p => decide (nid p.1 p.2.1 p.2.2 ≥ 0 ∧ owner p.1 p.2.1 p.2.2 ≠ 0))).flatMap
              (fun p => (rowEntriesAt nid s dxinv p).map Prod.fst),
           (l.filter (fun p => decide (nid p.1 p.2.1 p.2.2 ≥ 0 ∧ owner p.1 p.2.1 p.2.2 ≠ 0))).flatMap
              (fun p => (rowEntriesAt nid s dxinv p).map Prod.snd)⟩ := by
  induction l generalizing v with
  | nil => simp [IJMatrix.append]
  | cons q l ih =>
    rw [List.foldl_cons, ih]
    by_cases h : nid q.1 q.2.1 q.2.2 ≥ 0 ∧ owner q.1 q.2.1 q.2.2 ≠ 0
    · rw [List.filter_cons_of_pos (by simpa using h),
        mlndtslap_fill_ijmatrix_body_emit nid owner s _ _ _ _ _ _ v h]
      simp [IJMatrix.append, List.append_assoc, rowEntriesAt]
    · rw [List.filter_cons_of_neg (by simpa using h),
        mlndtslap_fill_ijmatrix_body_skip nid owner s _ _ _ _ _ _ v h]

/-- The four vectors after `mlndtslap_fill_ijmatrix`: the prior contents
followed, for each emitting node of the box in the order of the loop, by the
length of its row, its id, the columns of its row and the values of its row. -/
theorem mlndtslap_fill_ijmatrix_eq (ndbx : Box) (nid owner : Array4 Int)
    (ncols rows cols : List Int) (mat : List Real) (msk : Array4 Int)
    (s : GpuArray Real 3) (dxinv : GpuArray Real AMREX_SPACEDIM) :
    mlndtslap_fill_ijmatrix ndbx nid owner ncols rows cols mat msk s dxinv
      = ⟨ncols ++ (emittedNodes ndbx nid owner).map
            (fun p => ((rowEntriesAt nid s dxinv p).length : Int)),
         rows ++ (emittedNodes ndbx nid owner).map (fun p => nid p.1 p.2.1 p.2.2),
         cols ++ (emittedNodes ndbx nid owner).flatMap
            (fun p => (rowEntriesAt nid s dxinv p).map Prod.fst),
         mat ++ (emittedNodes ndbx nid owner).flatMap
            (fun p => (rowEntriesAt nid s dxinv p).map Prod.snd)⟩ := by
  rw [mlndtslap_fill_ijmatrix_eq_foldl, fill_ijmatrix_foldl]
  rfl

/-- The row the loop body produces at an emitting node, on empty vectors. -/
theorem fill_ijmatrix_row_emit (nid owner : Array4 Int) (s : GpuArray Real 3)
    (dxinv : GpuArray Real AMREX_SPACEDIM) (i j k : Int)
    (h : nid i j k ≥ 0 ∧ owner i j k ≠ 0) :
    fill_ijmatrix_row nid owner s dxinv i j k
      = ⟨[((rowEntriesAt nid s dxinv (i, j, k)).length : Int)], [nid i j k],
          (rowEntriesAt nid s dxinv (i, j, k)).map Prod.fst,
          (rowEntriesAt nid s dxinv (i, j, k)).map Prod.snd⟩ := by
  unfold fill_ijmatrix_row
  rw [mlndtslap_fill_ijmatrix_body_emit nid owner s _ _ _ i j k _ h, IJMatrix.empty_append]
  rfl

theorem mem_emittedNodes (ndbx : Box) (nid owner : Array4 Int) (i j k : Int) :
    (i, j, k) ∈ emittedNodes ndbx nid owner
      ↔ ndbx.contains i j k ∧ nid i j k ≥ 0 ∧ owner i j k ≠ 0 := by
  unfold emittedNodes
  rw [List.mem_filter, Box.mem_nodes]
  simp

theorem emittedNodes_nodup (ndbx : Box) (nid owner : Array4 Int) :
    (emittedNodes ndbx nid owner).Nodup :=
  (Box.nodes_nodup ndbx).filter _

/-- The number of entries of a row is one more than the number of neighbours
with non-negative id. -/
theorem rowEntriesAt_length (nid : Array4 Int) (s : GpuArray Real 3)
    (dxinv : GpuArray Real AMREX_SPACEDIM) (p : Int × Int × Int) :
    (rowEntriesAt nid s dxinv p).length = 1 + validNeighbourCount nid p.1 p.2.1 p.2.2 := by
  obtain ⟨i, j, k⟩ := p
  have e1 : i + -1 = i - 1 := by ring
  have e2 : j + -1 = j - 1 := by ring
  simp only [rowEntriesAt, rowEntries, rowNeighbours, validNeighbourCount, neighbourOffsets,
    filter_cons_ite, List.filter_nil, List.length_cons, List.length_append,
    length_ite_singleton, List.length_nil, decide_eq_true_eq, e1, e2, add_zero]
  ring

theorem validNeighbourCount_le (nid : Array4 Int) (i j k : Int) :
    validNeighbourCount nid i j k ≤ 8 := by
  unfold validNeighbourCount
  exact le_trans (List.length_filter_le _ _) (by simp [neighbourOffsets])

theorem splitBy_flatMap {α β : Type} (f : α → List β) (l : List α) :
    splitBy (l.map (fun a => (f a).length)) (l.flatMap f) = l.map f := by
  induction l with
  | nil => rfl
  | cons a l ih =>
    simp only [List.map_cons, List.flatMap_cons, splitBy, List.take_left', List.drop_left', ih]

theorem intRange_pairwise (lo hi : Int) : (intRange lo hi).Pairwise (· < ·) := by
  unfold intRange
  rw [List.pairwise_map]
  refine (List.pairwise_lt_range _).imp ?_
  intro a b hab
  omega

/-- The nodes of a box are listed in the order of the triple loop. -/
theorem Box.nodes_pairwise (b : Box) : b.nodes.Pairwise nodeBefore := by
  unfold Box.nodes
  refine List.pairwise_flatMap.2 ⟨fun k _ => List.pairwise_flatMap.2 ⟨fun j _ => ?_, ?_⟩, ?_⟩
  · rw [List.pairwise_map]
    refine (intRange_pairwise _ _).imp ?_
    intro a c hac
    exact Or.inr ⟨rfl, Or.inr ⟨rfl, hac⟩⟩
  · refine (intRange_pairwise _ _).imp ?_
    intro j1 j2 hlt p h1 q h2
    simp only [List.mem_map] at h1 h2
    obtain ⟨i1, _, rfl⟩ := h1
    obtain ⟨i2, _, rfl⟩ := h2
    exact Or.inr ⟨rfl, Or.inl hlt⟩
  · refine (intRange_pairwise _ _).imp ?_
    intro k1 k2 hlt p h1 q h2
    simp only [List.mem_flatMap, List.mem_map] at h1 h2
    obtain ⟨j1, _, i1, _, rfl⟩ := h1
    obtain ⟨j2, _, i2, _, rfl⟩ := h2
    exact Or.inl hlt

/-- The columns of a row: the id of the node, then the non-negative ids among
its eight neighbours in the order of `neighbourOffsets`. -/
theorem rowEntriesAt_cols (nid : Array4 Int) (s : GpuArray Real 3)
    (dxinv : GpuArray Real AMREX_SPACEDIM) (p : Int × Int × Int) :
    (rowEntriesAt nid s dxinv p).map Prod.fst
      = nid p.1 p.2.1 p.2.2
        :: (neighbourIds nid p.1 p.2.1 p.2.2).filter (fun c => decide (c ≥ 0)) := by
  obtain ⟨i, j, k⟩ := p
  have e1 : i + -1 = i - 1 := by ring
  have e2 : j + -1 = j - 1 := by ring
  simp only [rowEntriesAt, rowEntries, rowNeighbours, neighbourIds, neighbourOffsets,
    filter_cons_ite, List.filter_nil, List.map_cons, List.map_append, map_ite_singleton,
    List.map_nil, decide_eq_true_eq, e1, e2, add_zero]

theorem rowEntriesAt_head (nid : Array4 Int) (s : GpuArray Real 3)
    (dxinv : GpuArray Real AMREX_SPACEDIM) (p : Int × Int × Int) :
    (rowEntriesAt nid s dxinv p).head? = some (nid p.1 p.2.1 p.2.2, stencilDiag s dxinv) := by
  simp only [rowEntriesAt, rowEntries, List.head?_cons, stencilDiag_eq]

/-- The rows of the output, on empty vectors, as segments of `cols` and `mat`. -/
theorem fill_ijmatrix_split (ndbx : Box) (nid owner : Array4 Int) (msk : Array4 Int)
    (s : GpuArray Real 3) (dxinv : GpuArray Real AMREX_SPACEDIM) :
    splitBy ((mlndtslap_fill_ijmatrix ndbx nid owner [] [] [] [] msk s dxinv).ncols.map Int.toNat)
        (mlndtslap_fill_ijmatrix ndbx nid owner [] [] [] [] msk s dxinv).cols
      = (emittedNodes ndbx nid owner).map (fun p => (rowEntriesAt nid s dxinv p).map Prod.fst)
    ∧ splitBy
        ((mlndtslap_fill_ijmatrix ndbx nid owner [] [] [] [] msk s dxinv).ncols.map Int.toNat)
        (mlndtslap_fill_ijmatrix ndbx nid owner [] [] [] [] msk s dxinv).mat
      = (emittedNodes ndbx nid owner).map
          (fun p => (rowEntriesAt nid s dxinv p).map Prod.snd) := by
  rw [mlndtslap_fill_ijmatrix_eq]
  simp only [List.nil_append, List.map_map]
  constructor
  · have h := splitBy_flatMap (fun p => (rowEntriesAt nid s dxinv p).map Prod.fst)
      (emittedNodes ndbx nid owner)
    simpa [Function.comp_def] using h
  · have h := splitBy_flatMap (fun p => (rowEntriesAt nid s dxinv p).map Prod.snd)
      (emittedNodes ndbx nid owner)
    simpa [Function.comp_def] using h

/-- The row of an emitting node of the box, as the loop body produces it. -/
theorem fill_ijmatrix_row_of_mem (ndbx : Box) (nid owner : Array4 Int) (s : GpuArray Real 3)
    (dxinv : GpuArray Real AMREX_SPACEDIM) (p : Int × Int × Int)
    (h : p ∈ emittedNodes ndbx nid owner) :
    fill_ijmatrix_row nid owner s dxinv p.1 p.2.1 p.2.2
      = ⟨[((rowEntriesAt nid s dxinv p).length : Int)], [nid p.1 p.2.1 p.2.2],
          (rowEntriesAt nid s dxinv p).map Prod.fst,
          (rowEntriesAt nid s dxinv p).map Prod.snd⟩ := by
  obtain ⟨i, j, k⟩ := p
  exact fill_ijmatrix_row_emit nid owner s dxinv i j k
    ((mem_emittedNodes ndbx nid owner i j k).mp h).2

/-- C12: starting from empty vectors, `mlndtslap_fill_ijmatrix` emits exactly
one row per node of `ndbx` with `nid >= 0` and nonzero owner, and no row for
any other node: `rows` is the list of the ids of exactly those nodes, each
node once, in the order of the loop (`i` fastest, then `j`, then `k`), and
`ncols` has the same length as `rows`. -/
theorem mlndtslap_fill_ijmatrix_rows (ndbx : Box) (nid owner : Array4 Int)
    (msk : Array4 Int) (s : GpuArray Real 3) (dxinv : GpuArray Real AMREX_SPACEDIM) :
    (mlndtslap_fill_ijmatrix ndbx nid owner [] [] [] [] msk s dxinv).rows
      = (emittedNodes ndbx nid owner).map (fun p => nid p.1 p.2.1 p.2.2)
    ∧ (mlndtslap_fill_ijmatrix ndbx nid owner [] [] [] [] msk s dxinv).ncols.length
      = (mlndtslap_fill_ijmatrix ndbx nid owner [] [] [] [] msk s dxinv).rows.length
    ∧ (∀ i j k, (i, j, k) ∈ emittedNodes ndbx nid owner
        ↔ ndbx.contains i j k ∧ nid i j k ≥ 0 ∧ owner i j k ≠ 0)
    ∧ (emittedNodes ndbx nid owner).Nodup
    ∧ (emittedNodes ndbx nid owner).Pairwise nodeBefore := by
  rw [mlndtslap_fill_ijmatrix_eq]
  refine ⟨by simp, by simp, mem_emittedNodes ndbx nid owner, emittedNodes_nodup ndbx nid owner, ?_⟩
  exact (Box.nodes_pairwise ndbx).filter _

/-- C13: after `mlndtslap_fill_ijmatrix` on empty vectors the entry of `ncols`
for an emitted row is `1` plus the number of the eight stencil neighbours of
its node with non-negative id, hence between `1` and `9`; it is the number of
columns and the number of values the loop body appends for that row; and
splitting `cols` and `mat` at the prefix sums of `ncols` yields exactly the
rows the loop body appends, in order. -/
theorem mlndtslap_fill_ijmatrix_ncols (ndbx : Box) (nid owner : Array4 Int)
    (msk : Array4 Int) (s : GpuArray Real 3) (dxinv : GpuArray Real AMREX_SPACEDIM) :
    (mlndtslap_fill_ijmatrix ndbx nid owner [] [] [] [] msk s dxinv).ncols
      = (emittedNodes ndbx nid owner).map
          (fun p => ((1 + validNeighbourCount nid p.1 p.2.1 p.2.2 : Nat) : Int))
    ∧ (∀ n ∈ (mlndtslap_fill_ijmatrix ndbx nid owner [] [] [] [] msk s dxinv).ncols,
        1 ≤ n ∧ n ≤ 9)
    ∧ (∀ p ∈ emittedNodes ndbx nid owner,
        (fill_ijmatrix_row nid owner s dxinv p.1 p.2.1 p.2.2).ncols
          = [((1 + validNeighbourCount nid p.1 p.2.1 p.2.2 : Nat) : Int)]
        ∧ (fill_ijmatrix_row nid owner s dxinv p.1 p.2.1 p.2.2).cols.length
          = 1 + validNeighbourCount nid p.1 p.2.1 p.2.2
        ∧ (fill_ijmatrix_row nid owner s dxinv p.1 p.2.1 p.2.2).mat.length
          = 1 + validNeighbourCount nid p.1 p.2.1 p.2.2)
    ∧ splitBy
        ((mlndtslap_fill_ijmatrix ndbx nid owner [] [] [] [] msk s dxinv).ncols.map Int.toNat)
        (mlndtslap_fill_ijmatrix ndbx nid owner [] [] [] [] msk s dxinv).cols
      = (emittedNodes ndbx nid owner).map
          (fun p => (fill_ijmatrix_row nid owner s dxinv p.1 p.2.1 p.2.2).cols)
    ∧ splitBy
        ((mlndtslap_fill_ijmatrix ndbx nid owner [] [] [] [] msk s dxinv).ncols.map Int.toNat)
        (mlndtslap_fill_ijmatrix ndbx nid owner [] [] [] [] msk s dxinv).mat
      = (emittedNodes ndbx nid owner).map
          (fun p => (fill_ijmatrix_row nid owner s dxinv p.1 p.2.1 p.2.2).mat) := by
  have hn : (mlndtslap_fill_ijmatrix ndbx nid owner [] [] [] [] msk s dxinv).ncols
      = (emittedNodes ndbx nid owner).map
          (fun p => ((1 + validNeighbourCount nid p.1 p.2.1 p.2.2 : Nat) : Int)) := by
    rw [mlndtslap_fill_ijmatrix_eq]
    simp only [List.nil_append, rowEntriesAt_length]
  obtain ⟨hc, hm⟩ := fill_ijmatrix_split ndbx nid owner msk s dxinv
  refine ⟨hn, ?_, ?_, ?_, ?_⟩
  · intro n hmem
    rw [hn, List.mem_map] at hmem
    obtain ⟨p, _, rfl⟩ := hmem
    have := validNeighbourCount_le nid p.1 p.2.1 p.2.2
    constructor <;> omega
  · intro p hp
    rw [fill_ijmatrix_row_of_mem ndbx nid owner s dxinv p hp]
    simp only [List.length_map, rowEntriesAt_length, and_self]
  · rw [hc]
    refine List.map_congr_left ?_
    intro p hp
    rw [fill_ijmatrix_row_of_mem ndbx nid owner s dxinv p hp]
  · rw [hm]
    refine List.map_congr_left ?_
    intro p hp
    rw [fill_ijmatrix_row_of_mem ndbx nid owner s dxinv p hp]

/-- Witness of C13: scenario C, where `ncols = [3, 3, 3]`; the entry `3` and
the emitting node `(1,0,0)`, which has two neighbours with non-negative id. -/
theorem mlndtslap_fill_ijmatrix_ncols_witness :
    (3 : Int) ∈ (mlndtslap_fill_ijmatrix boxC nidC ownerAll [] [] [] [] activeMask sA dxinvA).ncols
    ∧ ((1 : Int) ≤ 3 ∧ (3 : Int) ≤ 9)
    ∧ ((1, 0, 0) : Int × Int × Int) ∈ emittedNodes boxC nidC ownerAll
    ∧ (fill_ijmatrix_row nidC ownerAll sA dxinvA 1 0 0).cols.length
        = 1 + validNeighbourCount nidC 1 0 0 :=
  ⟨by decide,
   (mlndtslap_fill_ijmatrix_ncols boxC nidC ownerAll activeMask sA dxinvA).2.1 3 (by decide),
   by decide,
   ((mlndtslap_fill_ijmatrix_ncols boxC nidC ownerAll activeMask sA dxinvA).2.2.1
      (1, 0, 0) (by decide)).2.1⟩

/-- C14, as stated, fails: on the two-node box with the node id `0` at every
node and every node owned, `rows` is `[0, 0]`: the row id `0` appears twice. -/
theorem mlndtslap_fill_ijmatrix_rows_nodup_counterexample :
    (mlndtslap_fill_ijmatrix boxTwo nidZero ownerAll [] [] [] [] activeMask sA dxinvA).rows
      = [0, 0]
    ∧ ¬ (mlndtslap_fill_ijmatrix boxTwo nidZero ownerAll [] [] [] [] activeMask
          sA dxinvA).rows.Nodup := by
  have h : (mlndtslap_fill_ijmatrix boxTwo nidZero ownerAll [] [] [] [] activeMask
      sA dxinvA).rows = [0, 0] := by decide
  refine ⟨h, ?_⟩
  rw [h]
  decide

/-- C14, amended: for any mask and owner configuration and any node-id
configuration that gives distinct row-emitting nodes of the box distinct ids,
no row id appears twice in the `rows` vector produced by one call of
`mlndtslap_fill_ijmatrix` on empty vectors. -/
theorem mlndtslap_fill_ijmatrix_rows_nodup (ndbx : Box) (nid owner : Array4 Int)
    (msk : Array4 Int) (s : GpuArray Real 3) (dxinv : GpuArray Real AMREX_SPACEDIM)
    (hinj : ∀ p ∈ emittedNodes ndbx nid owner, ∀ q ∈ emittedNodes ndbx nid owner,
      nid p.1 p.2.1 p.2.2 = nid q.1 q.2.1 q.2.2 → p = q) :
    (mlndtslap_fill_ijmatrix ndbx nid owner [] [] [] [] msk s dxinv).rows.Nodup := by
  rw [mlndtslap_fill_ijmatrix_eq]
  simp only [List.nil_append]
  exact (emittedNodes_nodup ndbx nid owner).map_on hinj

/-- Witness of the amended C14: scenario C, whose emitting nodes have the ids
`0`, `1`, `2`. -/
theorem mlndtslap_fill_ijmatrix_rows_nodup_witness :
    (∀ p ∈ emittedNodes boxC nidC ownerAll, ∀ q ∈ emittedNodes boxC nidC ownerAll,
      nidC p.1 p.2.1 p.2.2 = nidC q.1 q.2.1 q.2.2 → p = q)
    ∧ (mlndtslap_fill_ijmatrix boxC nidC ownerAll [] [] [] [] activeMask sA dxinvA).rows.Nodup :=
  ⟨by decide,
   mlndtslap_fill_ijmatrix_rows_nodup boxC nidC ownerAll activeMask sA dxinvA (by decide)⟩

/-- What `mlndtslap_fill_ijmatrix` leaves in the four vectors is their prior
content followed by what the call produces on empty vectors. -/
theorem fill_ijmatrix_prior (ndbx : Box) (nid owner : Array4 Int)
    (ncols rows cols : List Int) (mat : List Real) (msk : Array4 Int)
    (s : GpuArray Real 3) (dxinv : GpuArray Real AMREX_SPACEDIM) :
    mlndtslap_fill_ijmatrix ndbx nid owner ncols rows cols mat msk s dxinv
      = ⟨ncols ++ (mlndtslap_fill_ijmatrix ndbx nid owner [] [] [] [] msk s dxinv).ncols,
         rows ++ (mlndtslap_fill_ijmatrix ndbx nid owner [] [] [] [] msk s dxinv).rows,
         cols ++ (mlndtslap_fill_ijmatrix ndbx nid owner [] [] [] [] msk s dxinv).cols,
         mat ++ (mlndtslap_fill_ijmatrix ndbx nid owner [] [] [] [] msk s dxinv).mat⟩ := by
  rw [mlndtslap_fill_ijmatrix_eq, mlndtslap_fill_ijmatrix_eq ndbx nid owner [] [] [] []]
  simp only [List.nil_append]

/-- C15: every column id that `mlndtslap_fill_ijmatrix` appends to `cols` is
non-negative, for every node-id and owner configuration and every prior
content of the vectors; the columns of a row are the id of its node followed
by the non-negative ids among its eight neighbours, so a neighbour with a
negative id contributes neither a column nor a value. -/
theorem mlndtslap_fill_ijmatrix_cols_nonneg (ndbx : Box) (nid owner : Array4 Int)
    (ncols rows cols : List Int) (mat : List Real) (msk : Array4 Int)
    (s : GpuArray Real 3) (dxinv : GpuArray Real AMREX_SPACEDIM) :
    (mlndtslap_fill_ijmatrix ndbx nid owner ncols rows cols mat msk s dxinv).cols
      = cols ++ (mlndtslap_fill_ijmatrix ndbx nid owner [] [] [] [] msk s dxinv).cols
    ∧ (∀ c ∈ (mlndtslap_fill_ijmatrix ndbx nid owner [] [] [] [] msk s dxinv).cols, 0 ≤ c)
    ∧ (∀ p ∈ emittedNodes ndbx nid owner,
        (fill_ijmatrix_row nid owner s dxinv p.1 p.2.1 p.2.2).cols
          = nid p.1 p.2.1 p.2.2
            :: (neighbourIds nid p.1 p.2.1 p.2.2).filter (fun c => decide (c ≥ 0))
        ∧ (fill_ijmatrix_row nid owner s dxinv p.1 p.2.1 p.2.2).mat.length
          = (fill_ijmatrix_row nid owner s dxinv p.1 p.2.1 p.2.2).cols.length) := by
  refine ⟨?_, ?_, ?_⟩
  · rw [fill_ijmatrix_prior]
  · intro c hc
    rw [mlndtslap_fill_ijmatrix_eq] at hc
    simp only [List.nil_append, List.mem_flatMap] at hc
    obtain ⟨p, hp, hcp⟩ := hc
    rw [rowEntriesAt_cols] at hcp
    rcases List.mem_cons.mp hcp with h | h
    · obtain ⟨i, j, k⟩ := p
      rw [h]
      exact ((mem_emittedNodes ndbx nid owner i j k).mp hp).2.1
    · have := (List.mem_filter.mp h).2
      simpa using this
  · intro p hp
    rw [fill_ijmatrix_row_of_mem ndbx nid owner s dxinv p hp]
    exact ⟨rowEntriesAt_cols nid s dxinv p, by simp⟩

/-- Witness of C15: scenario C, the column id `2` and the emitting node
`(0,0,0)`. -/
theorem mlndtslap_fill_ijmatrix_cols_nonneg_witness :
    (2 : Int) ∈ (mlndtslap_fill_ijmatrix boxC nidC ownerAll [] [] [] [] activeMask sA dxinvA).cols
    ∧ (0 : Int) ≤ 2
    ∧ ((0, 0, 0) : Int × Int × Int) ∈ emittedNodes boxC nidC ownerAll
    ∧ (fill_ijmatrix_row nidC ownerAll sA dxinvA 0 0 0).cols
        = nidC 0 0 0 :: (neighbourIds nidC 0 0 0).filter (fun c => decide (c ≥ 0)) :=
  ⟨by decide,
   (mlndtslap_fill_ijmatrix_cols_nonneg boxC nidC ownerAll [] [] [] [] activeMask
      sA dxinvA).2.1 2 (by decide),
   by decide,
   ((mlndtslap_fill_ijmatrix_cols_nonneg boxC nidC ownerAll [] [] [] [] activeMask
      sA dxinvA).2.2 (0, 0, 0) (by decide)).1⟩

theorem sum_map_natCast {α : Type} (f : α → Nat) (l : List α) :
    (l.map (fun a => ((f a : Nat) : Int))).sum = (((l.map f).sum : Nat) : Int) := by
  induction l with
  | nil => rfl
  | cons a l ih => simp only [List.map_cons, List.sum_cons, ih, Nat.cast_add]

/-- C16: after `mlndtslap_fill_ijmatrix` on empty vectors, `cols` and `mat`
have the same length, that length is the sum of `ncols`, and it is the number
of emitted rows plus the number of pairs of an emitting node and one of its
stencil neighbours with non-negative id. -/
theorem mlndtslap_fill_ijmatrix_lengths (ndbx : Box) (nid owner : Array4 Int)
    (msk : Array4 Int) (s : GpuArray Real 3) (dxinv : GpuArray Real AMREX_SPACEDIM) :
    (mlndtslap_fill_ijmatrix ndbx nid owner [] [] [] [] msk s dxinv).cols.length
      = (mlndtslap_fill_ijmatrix ndbx nid owner [] [] [] [] msk s dxinv).mat.length
    ∧ ((mlndtslap_fill_ijmatrix ndbx nid owner [] [] [] [] msk s dxinv).cols.length : Int)
      = (mlndtslap_fill_ijmatrix ndbx nid owner [] [] [] [] msk s dxinv).ncols.sum
    ∧ (mlndtslap_fill_ijmatrix ndbx nid owner [] [] [] [] msk s dxinv).cols.length
      = (mlndtslap_fill_ijmatrix ndbx nid owner [] [] [] [] msk s dxinv).rows.length
        + ((emittedNodes ndbx nid owner).map
            (fun p => validNeighbourCount nid p.1 p.2.1 p.2.2)).sum
    ∧ (mlndtslap_fill_ijmatrix ndbx nid owner [] [] [] [] msk s dxinv).rows.length
      = (emittedNodes ndbx nid owner).length := by
  rw [mlndtslap_fill_ijmatrix_eq]
  simp only [List.nil_append, List.length_flatMap, List.length_map, Function.comp_def,
    rowEntriesAt_length]
  have hsum : ∀ l : List (Int × Int × Int),
      (l.map (fun p => 1 + validNeighbourCount nid p.1 p.2.1 p.2.2)).sum
        = l.length + (l.map (fun p => validNeighbourCount nid p.1 p.2.1 p.2.2)).sum := by
    intro l
    induction l with
    | nil => rfl
    | cons a l ih => simp only [List.map_cons, List.sum_cons, List.length_cons, ih]; omega
  refine ⟨trivial, ?_, hsum _, trivial⟩
  exact (sum_map_natCast (fun p => 1 + validNeighbourCount nid p.1 p.2.1 p.2.2)
    (emittedNodes ndbx nid owner)).symm

/-- Witness of C16: scenario C, three owned nodes with the ids `0`, `1`, `2`
and one node with the id `-1`; `cols` and `mat` have `3 + 6` entries. -/
theorem mlndtslap_fill_ijmatrix_lengths_witness :
    (mlndtslap_fill_ijmatrix boxC nidC ownerAll [] [] [] [] activeMask sA dxinvA).cols.length
      = (mlndtslap_fill_ijmatrix boxC nidC ownerAll [] [] [] [] activeMask sA dxinvA).rows.length
        + ((emittedNodes boxC nidC ownerAll).map
            (fun p => validNeighbourCount nidC p.1 p.2.1 p.2.2)).sum
    ∧ (mlndtslap_fill_ijmatrix boxC nidC ownerAll [] [] [] [] activeMask sA dxinvA).rows.length = 3
    ∧ ((emittedNodes boxC nidC ownerAll).map
        (fun p => validNeighbourCount nidC p.1 p.2.1 p.2.2)).sum = 6 :=
  ⟨(mlndtslap_fill_ijmatrix_lengths boxC nidC ownerAll activeMask sA dxinvA).2.2.1,
   by decide, by decide⟩

/-- C17, as stated, fails: for the node `(0,0,0)`, whose eight neighbours have
the ids `0, 1, 2, 3, 5, 6, 7, 8`, the row is `[4, 0, 1, 2, 3, 5, 6, 7, 8]`.
Columns 2 to 5 are `0, 1, 2, 3`, which are not the ids `0, 2, 6, 8` of the
four diagonal neighbours: the third column is the axis neighbour `(-1,0)`. -/
theorem mlndtslap_fill_ijmatrix_order_counterexample :
    (∀ d ∈ neighbourOffsets, nidGrid (0 + d.1) (0 + d.2) 0 ≥ 0)
    ∧ (mlndtslap_fill_ijmatrix originBox nidGrid ownerAll [] [] [] [] activeMask
        sA dxinvA).cols = [4, 0, 1, 2, 3, 5, 6, 7, 8]
    ∧ ¬ (((mlndtslap_fill_ijmatrix originBox nidGrid ownerAll [] [] [] [] activeMask
            sA dxinvA).cols.drop 1).take 4).Perm
          [nidGrid (-1) (-1) 0, nidGrid (-1) 1 0, nidGrid 1 (-1) 0, nidGrid 1 1 0]
    ∧ (mlndtslap_fill_ijmatrix originBox nidGrid ownerAll [] [] [] [] activeMask
        sA dxinvA).cols.get? 2 = some (nidGrid (-1) 0 0) := by
  have h : (mlndtslap_fill_ijmatrix originBox nidGrid ownerAll [] [] [] [] activeMask
      sA dxinvA).cols = [4, 0, 1, 2, 3, 5, 6, 7, 8] := by decide
  refine ⟨by decide, h, ?_, ?_⟩
  · rw [h]
    decide
  · rw [h]
    decide

/-- C17, amended: for every emitted row of `mlndtslap_fill_ijmatrix`, the
neighbour entries that follow the diagonal entry are visited in the fixed
order `(i-1,j-1)`, `(i-1,j)`, `(i-1,j+1)`, `(i,j-1)`, `(i,j+1)`, `(i+1,j-1)`,
`(i+1,j)`, `(i+1,j+1)`, diagonal and axis neighbours interleaved as in the
expression of `mlndtslap_adotx`; so for a node whose eight neighbours all have
non-negative ids, columns 2 to 9 of the row are the ids of these neighbours
in this order. -/
theorem mlndtslap_fill_ijmatrix_order (ndbx : Box) (nid owner : Array4 Int)
    (msk : Array4 Int) (s : GpuArray Real 3) (dxinv : GpuArray Real AMREX_SPACEDIM) :
    splitBy
        ((mlndtslap_fill_ijmatrix ndbx nid owner [] [] [] [] msk s dxinv).ncols.map Int.toNat)
        (mlndtslap_fill_ijmatrix ndbx nid owner [] [] [] [] msk s dxinv).cols
      = (emittedNodes ndbx nid owner).map (fun p =>
          nid p.1 p.2.1 p.2.2
            :: ([nid (p.1-1) (p.2.1-1) p.2.2, nid (p.1-1) p.2.1 p.2.2,
                 nid (p.1-1) (p.2.1+1) p.2.2, nid p.1 (p.2.1-1) p.2.2,
                 nid p.1 (p.2.1+1) p.2.2, nid (p.1+1) (p.2.1-1) p.2.2,
                 nid (p.1+1) p.2.1 p.2.2, nid (p.1+1) (p.2.1+1) p.2.2].filter
                (fun c => decide (c ≥ 0))))
    ∧ (∀ i j k, (i, j, k) ∈ emittedNodes ndbx nid owner →
        (∀ d ∈ neighbourOffsets, nid (i + d.1) (j + d.2) k ≥ 0) →
        (fill_ijmatrix_row nid owner s dxinv i j k).cols
          = [nid i j k, nid (i-1) (j-1) k, nid (i-1) j k, nid (i-1) (j+1) k,
             nid i (j-1) k, nid i (j+1) k, nid (i+1) (j-1) k, nid (i+1) j k,
             nid (i+1) (j+1) k]) := by
  have hids : ∀ i j k : Int, neighbourIds nid i j k
      = [nid (i-1) (j-1) k, nid (i-1) j k, nid (i-1) (j+1) k, nid i (j-1) k,
         nid i (j+1) k, nid (i+1) (j-1) k, nid (i+1) j k, nid (i+1) (j+1) k] := by
    intro i j k
    have e1 : i + -1 = i - 1 := by ring
    have e2 : j + -1 = j - 1 := by ring
    simp only [neighbourIds, neighbourOffsets, List.map_cons, List.map_nil, e1, e2, add_zero]
  constructor
  · rw [(fill_ijmatrix_split ndbx nid owner msk s dxinv).1]
    refine List.map_congr_left ?_
    intro p _
    rw [rowEntriesAt_cols, hids]
  · intro i j k hp hall
    rw [fill_ijmatrix_row_of_mem ndbx nid owner s dxinv (i, j, k) hp]
    simp only [rowEntriesAt_cols]
    rw [List.filter_eq_self.mpr, hids]
    intro c hc
    simp only [neighbourIds, List.mem_map] at hc
    obtain ⟨d, hd, rfl⟩ := hc
    simpa using hall d hd

/-- Witness of the amended C17: the node `(0,0,0)` with the ids of `nidGrid`. -/
theorem mlndtslap_fill_ijmatrix_order_witness :
    ((0, 0, 0) : Int × Int × Int) ∈ emittedNodes originBox nidGrid ownerAll
    ∧ (∀ d ∈ neighbourOffsets, nidGrid (0 + d.1) (0 + d.2) 0 ≥ 0)
    ∧ (fill_ijmatrix_row nidGrid ownerAll sA dxinvA 0 0 0).cols
        = [nidGrid 0 0 0, nidGrid (0-1) (0-1) 0, nidGrid (0-1) 0 0, nidGrid (0-1) (0+1) 0,
           nidGrid 0 (0-1) 0, nidGrid 0 (0+1) 0, nidGrid (0+1) (0-1) 0, nidGrid (0+1) 0 0,
           nidGrid (0+1) (0+1) 0] :=
  ⟨by decide, by decide,
   (mlndtslap_fill_ijmatrix_order originBox nidGrid ownerAll activeMask sA dxinvA).2 0 0 0
     (by decide) (by decide)⟩

theorem zip_map_fst_snd {α β : Type} (l : List (α × β)) :
    (l.map Prod.fst).zip (l.map Prod.snd) = l := by
  induction l with
  | nil => rfl
  | cons a l ih => simp only [List.map_cons, List.zip_cons_cons, ih]

theorem zip_flatMap_fst_snd {α β γ : Type} (f : α → List (β × γ)) (l : List α) :
    (l.flatMap (fun a => (f a).map Prod.fst)).zip (l.flatMap (fun a => (f a).map Prod.snd))
      = l.flatMap f := by
  induction l with
  | nil => rfl
  | cons a l ih =>
    simp only [List.flatMap_cons]
    rw [List.zip_append (by simp), ih]
    congr 1
    induction f a with
    | nil => rfl
    | cons x xs ihx => simp only [List.map_cons, List.zip_cons_cons, ihx]

/-- The rows of the output, on empty vectors, as segments of (column, value)
pairs. -/
theorem fill_ijmatrix_split_zip (ndbx : Box) (nid owner : Array4 Int) (msk : Array4 Int)
    (s : GpuArray Real 3) (dxinv : GpuArray Real AMREX_SPACEDIM) :
    splitBy ((mlndtslap_fill_ijmatrix ndbx nid owner [] [] [] [] msk s dxinv).ncols.map Int.toNat)
        ((mlndtslap_fill_ijmatrix ndbx nid owner [] [] [] [] msk s dxinv).cols.zip
          (mlndtslap_fill_ijmatrix ndbx nid owner [] [] [] [] msk s dxinv).mat)
      = (emittedNodes ndbx nid owner).map (fun p => rowEntriesAt nid s dxinv p) := by
  rw [mlndtslap_fill_ijmatrix_eq]
  simp only [List.nil_append, List.map_map]
  rw [zip_flatMap_fst_snd]
  have h := splitBy_flatMap (fun p => rowEntriesAt nid s dxinv p) (emittedNodes ndbx nid owner)
  simpa [Function.comp_def] using h

theorem stencilDiag_explicit (s : GpuArray Real 3) (dxinv : GpuArray Real AMREX_SPACEDIM) :
    stencilDiag s dxinv
      = -4/3 * (dxinv 0 * dxinv 0) * s 0 - 4/3 * (dxinv 1 * dxinv 1) * s 2 := by
  unfold stencilDiag
  ring

theorem emittedNodes_scenarioC :
    emittedNodes boxC nidC ownerAll = [(0, 0, 0), (1, 0, 0), (0, 1, 0)] := by
  decide

/-- C18: after `mlndtslap_fill_ijmatrix` on empty vectors, `rows` holds the ids
of the emitting nodes of the box, in the order of the loop, and the segments
of (column, value) pairs, cut at the prefix sums of `ncols`, begin for the
same nodes in the same order with the pair of the id of the node and
`-4/3*h00*s0 - 4/3*h11*s2`, where `h00 = dxinv0*dxinv0` and
`h11 = dxinv1*dxinv1`. So the first column of a segment is the row id, and
the first value is the centre weight of `mlndtslap_adotx`. The same holds for
what the loop body appends at one emitting node. -/
theorem mlndtslap_fill_ijmatrix_diagonal (ndbx : Box) (nid owner : Array4 Int)
    (msk : Array4 Int) (s : GpuArray Real 3) (dxinv : GpuArray Real AMREX_SPACEDIM) :
    (mlndtslap_fill_ijmatrix ndbx nid owner [] [] [] [] msk s dxinv).rows
      = (emittedNodes ndbx nid owner).map (fun p => nid p.1 p.2.1 p.2.2)
    ∧ (splitBy
        ((mlndtslap_fill_ijmatrix ndbx nid owner [] [] [] [] msk s dxinv).ncols.map Int.toNat)
        ((mlndtslap_fill_ijmatrix ndbx nid owner [] [] [] [] msk s dxinv).cols.zip
          (mlndtslap_fill_ijmatrix ndbx nid owner [] [] [] [] msk s dxinv).mat)).map List.head?
      = (emittedNodes ndbx nid owner).map
          (fun p => some (nid p.1 p.2.1 p.2.2,
            -4/3 * (dxinv 0 * dxinv 0) * s 0 - 4/3 * (dxinv 1 * dxinv 1) * s 2))
    ∧ (splitBy
        ((mlndtslap_fill_ijmatrix ndbx nid owner [] [] [] [] msk s dxinv).ncols.map Int.toNat)
        (mlndtslap_fill_ijmatrix ndbx nid owner [] [] [] [] msk s dxinv).cols).map List.head?
      = (mlndtslap_fill_ijmatrix ndbx nid owner [] [] [] [] msk s dxinv).rows.map some
    ∧ (splitBy
        ((mlndtslap_fill_ijmatrix ndbx nid owner [] [] [] [] msk s dxinv).ncols.map Int.toNat)
        (mlndtslap_fill_ijmatrix ndbx nid owner [] [] [] [] msk s dxinv).mat).map List.head?
      = (emittedNodes ndbx nid owner).map
          (fun _ => some (-4/3 * (dxinv 0 * dxinv 0) * s 0 - 4/3 * (dxinv 1 * dxinv 1) * s 2))
    ∧ (∀ i j k : Int, nid i j k ≥ 0 ∧ owner i j k ≠ 0 →
        (fill_ijmatrix_row nid owner s dxinv i j k).rows = [nid i j k]
        ∧ ((fill_ijmatrix_row nid owner s dxinv i j k).cols.zip
            (fill_ijmatrix_row nid owner s dxinv i j k).mat).head?
          = some (nid i j k,
              -4/3 * (dxinv 0 * dxinv 0) * s 0 - 4/3 * (dxinv 1 * dxinv 1) * s 2))
    ∧ -4/3 * (dxinv 0 * dxinv 0) * s 0 - 4/3 * (dxinv 1 * dxinv 1) * s 2
      = adotx_weight s dxinv 0 0 := by
  obtain ⟨hc, hm⟩ := fill_ijmatrix_split ndbx nid owner msk s dxinv
  have hz := fill_ijmatrix_split_zip ndbx nid owner msk s dxinv
  have hd := stencilDiag_explicit s dxinv
  refine ⟨?_, ?_, ?_, ?_, ?_, ?_⟩
  · rw [mlndtslap_fill_ijmatrix_eq]
    simp only [List.nil_append]
  · rw [hz, List.map_map]
    refine List.map_congr_left ?_
    intro p _
    simp only [Function.comp_def, rowEntriesAt_head, hd]
  · rw [hc, mlndtslap_fill_ijmatrix_eq]
    simp only [List.nil_append, List.map_map]
    refine List.map_congr_left ?_
    intro p _
    simp only [Function.comp_def, rowEntriesAt_cols, List.head?_cons]
  · rw [hm, List.map_map]
    refine List.map_congr_left ?_
    intro p _
    have h := rowEntriesAt_head nid s dxinv p
    simp only [Function.comp_def, List.head?_map, h, Option.map_some', hd]
  · intro i j k h
    rw [fill_ijmatrix_row_emit nid owner s dxinv i j k h]
    refine ⟨rfl, ?_⟩
    simp only [zip_map_fst_snd, rowEntriesAt_head, hd]
  · rw [adotx_weight_eq s dxinv 0 0 (by decide) (by decide)]
    simp only [stencilWeight]
    norm_num
    ring

/-- Witness of C18: scenario C, with the three emitting nodes `(0,0)`, `(1,0)`,
`(0,1)` of ids `0`, `1`, `2` and the coefficients of scenario A: the rows are
`[0, 1, 2]` and the three segments begin with `(0, -8/3)`, `(1, -8/3)`,
`(2, -8/3)`; the node `(1,0,0)` emits. -/
theorem mlndtslap_fill_ijmatrix_diagonal_witness :
    (mlndtslap_fill_ijmatrix boxC nidC ownerAll [] [] [] [] activeMask sA dxinvA).rows
      = [0, 1, 2]
    ∧ (splitBy
        ((mlndtslap_fill_ijmatrix boxC nidC ownerAll [] [] [] [] activeMask sA dxinvA).ncols.map
          Int.toNat)
        ((mlndtslap_fill_ijmatrix boxC nidC ownerAll [] [] [] [] activeMask sA dxinvA).cols.zip
          (mlndtslap_fill_ijmatrix boxC nidC ownerAll [] [] [] [] activeMask sA dxinvA).mat)).map
          List.head?
      = [some (0, -8/3), some (1, -8/3), some (2, -8/3)]
    ∧ (nidC 1 0 0 ≥ 0 ∧ ownerAll 1 0 0 ≠ 0)
    ∧ (fill_ijmatrix_row nidC ownerAll sA dxinvA 1 0 0).rows = [nidC 1 0 0]
    ∧ ((fill_ijmatrix_row nidC ownerAll sA dxinvA 1 0 0).cols.zip
        (fill_ijmatrix_row nidC ownerAll sA dxinvA 1 0 0).mat).head?
      = some (nidC 1 0 0,
          -4/3 * (dxinvA 0 * dxinvA 0) * sA 0 - 4/3 * (dxinvA 1 * dxinvA 1) * sA 2) := by
  have h := mlndtslap_fill_ijmatrix_diagonal boxC nidC ownerAll activeMask sA dxinvA
  have hw : (-4/3 * (dxinvA 0 * dxinvA 0) * sA 0 - 4/3 * (dxinvA 1 * dxinvA 1) * sA 2 : Real)
      = -8/3 := by
    simp only [sA, dxinvA]
    norm_num
  refine ⟨?_, ?_, by decide, (h.2.2.2.2.1 1 0 0 (by decide)).1,
    (h.2.2.2.2.1 1 0 0 (by decide)).2⟩
  · rw [h.1, emittedNodes_scenarioC]
    decide
  · rw [h.2.1, emittedNodes_scenarioC, hw]
    simp only [List.map_cons, List.map_nil, nidC]
    norm_num

/-- C19: `mlndtslap_fill_ijmatrix` only appends: after the call each of the
four vectors is its prior content followed by exactly the entries the same
call produces on empty vectors. -/
theorem mlndtslap_fill_ijmatrix_appends (ndbx : Box) (nid owner : Array4 Int)
    (ncols rows cols : List Int) (mat : List Real) (msk : Array4 Int)
    (s : GpuArray Real 3) (dxinv : GpuArray Real AMREX_SPACEDIM) :
    (mlndtslap_fill_ijmatrix ndbx nid owner ncols rows cols mat msk s dxinv).ncols
      = ncols ++ (mlndtslap_fill_ijmatrix ndbx nid owner [] [] [] [] msk s dxinv).ncols
    ∧ (mlndtslap_fill_ijmatrix ndbx nid owner ncols rows cols mat msk s dxinv).rows
      = rows ++ (mlndtslap_fill_ijmatrix ndbx nid owner [] [] [] [] msk s dxinv).rows
    ∧ (mlndtslap_fill_ijmatrix ndbx nid owner ncols rows cols mat msk s dxinv).cols
      = cols ++ (mlndtslap_fill_ijmatrix ndbx nid owner [] [] [] [] msk s dxinv).cols
    ∧ (mlndtslap_fill_ijmatrix ndbx nid owner ncols rows cols mat msk s dxinv).mat
      = mat ++ (mlndtslap_fill_ijmatrix ndbx nid owner [] [] [] [] msk s dxinv).mat := by
  rw [fill_ijmatrix_prior]
  exact ⟨rfl, rfl, rfl, rfl⟩

/-! ## Smoother: the order of the sweep -/

theorem takeWhile_split {α : Type} [DecidableEq α] (q : α) (l : List α) (h : q ∈ l) :
    ∃ rest, l = l.takeWhile (fun x => decide (x ≠ q)) ++ q :: rest := by
  induction l with
  | nil => simp at h
  | cons a l ih =>
    by_cases ha : a = q
    · subst ha
      exact ⟨l, by simp⟩
    · have hm : q ∈ l := by
        rcases List.mem_cons.mp h with h | h
        · exact absurd h.symm ha
        · exact h
      obtain ⟨rest, hrest⟩ := ih hm
      refine ⟨rest, ?_⟩
      rw [List.takeWhile_cons_of_pos (by simpa using ha), List.cons_append, ← hrest]

theorem nodeBefore_irrefl (p : Int × Int × Int) : ¬ nodeBefore p p := by
  unfold nodeBefore
  omega

theorem nodeBefore_asymm (p q : Int × Int × Int) (h : nodeBefore p q) : ¬ nodeBefore q p := by
  unfold nodeBefore at *
  omega

/-- In a list in the order of the loop, the nodes before the first occurrence
of `q` are the nodes of the list that the loop visits before `q`. -/
theorem mem_takeWhile_iff (q : Int × Int × Int) (l : List (Int × Int × Int))
    (hl : l.Pairwise nodeBefore) (hq : q ∈ l) (n : Int × Int × Int) :
    n ∈ l.takeWhile (fun x => decide (x ≠ q)) ↔ n ∈ l ∧ nodeBefore n q := by
  obtain ⟨rest, hrest⟩ := takeWhile_split q l hq
  have hp := hl
  rw [hrest, List.pairwise_append] at hp
  constructor
  · intro hn
    exact ⟨(List.takeWhile_sublist _).subset hn, hp.2.2 n hn q (List.mem_cons_self _ _)⟩
  · rintro ⟨hn, hb⟩
    rw [hrest] at hn
    rcases List.mem_append.mp hn with h | h
    · exact h
    · rcases List.mem_cons.mp h with h | h
      · rw [h] at hb
        exact absurd hb (nodeBefore_irrefl q)
      · have := (List.pairwise_cons.mp hp.2.1).1 n h
        exact absurd hb (nodeBefore_asymm q n this)

/-- In a loop over distinct nodes whose body at a node only writes that node,
a node visited before `q` already holds its final value when the loop
reaches `q`. -/
theorem foldl_takeWhile_final {α : Type} (g : Int × Int × Int → Array4 α → Array4 α)
    (hg : ∀ p st i j k, (i, j, k) ≠ p → g p st i j k = st i j k)
    (q : Int × Int × Int) (l : List (Int × Int × Int)) (hl : l.Nodup) (hq : q ∈ l)
    (st : Array4 α) (i j k : Int)
    (h : (i, j, k) ∈ l.takeWhile (fun x => decide (x ≠ q))) :
    (l.takeWhile (fun x => decide (x ≠ q))).foldl (fun st p => g p st) st i j k
      = l.foldl (fun st p => g p st) st i j k := by
  obtain ⟨rest, hrest⟩ := takeWhile_split q l hq
  have hn := hl
  rw [hrest, List.nodup_append] at hn
  conv_rhs => rw [hrest, List.foldl_append]
  exact (foldl_frame g hg (q :: rest) _ i j k (fun hm => hn.2.2 h hm)).symm

/-- When the sweep reaches `q`, a node of the box visited before `q` holds
its final value. -/
theorem gauss_seidel_before_final (b : Box) (sol rhs : Array4 Real) (msk : Array4 Int)
    (s : GpuArray Real 3) (dxinv : GpuArray Real AMREX_SPACEDIM) (i j k a c d : Int)
    (hq : b.contains i j k) (hn : b.contains a c d) (hb : nodeBefore (a, c, d) (i, j, k)) :
    gauss_seidel_before b sol rhs msk s dxinv i j k a c d
      = mlndtslap_gauss_seidel b sol rhs msk s dxinv a c d := by
  unfold gauss_seidel_before mlndtslap_gauss_seidel Loop
  exact foldl_takeWhile_final
    (fun p st => mlndtslap_gauss_seidel_body rhs msk s _ _ _ p.1 p.2.1 p.2.2 st)
    (fun p st i j k hp => mlndtslap_gauss_seidel_body_other rhs msk s _ _ _ p st i j k hp)
    (i, j, k) b.nodes b.nodes_nodup ((Box.mem_nodes b i j k).mpr hq) sol a c d
    ((mem_takeWhile_iff (i, j, k) b.nodes b.nodes_pairwise ((Box.mem_nodes b i j k).mpr hq)
      (a, c, d)).mpr ⟨(Box.mem_nodes b a c d).mpr hn, hb⟩)

/-- When the sweep reaches `q`, a node that is not a node of the box visited
before `q` holds its initial value. -/
theorem gauss_seidel_before_init (b : Box) (sol rhs : Array4 Real) (msk : Array4 Int)
    (s : GpuArray Real 3) (dxinv : GpuArray Real AMREX_SPACEDIM) (i j k a c d : Int)
    (hq : b.contains i j k)
    (hb : ¬ (b.contains a c d ∧ nodeBefore (a, c, d) (i, j, k))) :
    gauss_seidel_before b sol rhs msk s dxinv i j k a c d = sol a c d := by
  unfold gauss_seidel_before
  refine foldl_frame
    (fun p st => mlndtslap_gauss_seidel_body rhs msk s _ _ _ p.1 p.2.1 p.2.2 st)
    (fun p st i j k hp => mlndtslap_gauss_seidel_body_other rhs msk s _ _ _ p st i j k hp)
    _ sol a c d ?_
  intro hm
  have := (mem_takeWhile_iff (i, j, k) b.nodes b.nodes_pairwise
    ((Box.mem_nodes b i j k).mpr hq) (a, c, d)).mp hm
  exact hb ⟨(Box.mem_nodes b a c d).mp this.1, this.2⟩
/-- When the sweep reaches `q`, a node that precedes `q` in the order of the
loop holds its final value, whether it is a node of the box or not. -/
theorem gauss_seidel_before_prev (b : Box) (sol rhs : Array4 Real) (msk : Array4 Int)
    (s : GpuArray Real 3) (dxinv : GpuArray Real AMREX_SPACEDIM) (i j k a c d : Int)
    (hq : b.contains i j k) (hb : nodeBefore (a, c, d) (i, j, k)) :
    gauss_seidel_before b sol rhs msk s dxinv i j k a c d
      = mlndtslap_gauss_seidel b sol rhs msk s dxinv a c d := by
  by_cases hn : b.contains a c d
  · exact gauss_seidel_before_final b sol rhs msk s dxinv i j k a c d hq hn hb
  · rw [gauss_seidel_before_init b sol rhs msk s dxinv i j k a c d hq (fun h => hn h.1),
      mlndtslap_gauss_seidel_outside b sol rhs msk s dxinv a c d hn]

/-- When the sweep reaches `q`, a node that does not precede `q` in the order
of the loop holds its initial value. -/
theorem gauss_seidel_before_next (b : Box) (sol rhs : Array4 Real) (msk : Array4 Int)
    (s : GpuArray Real 3) (dxinv : GpuArray Real AMREX_SPACEDIM) (i j k a c d : Int)
    (hq : b.contains i j k) (hb : ¬ nodeBefore (a, c, d) (i, j, k)) :
    gauss_seidel_before b sol rhs msk s dxinv i j k a c d = sol a c d :=
  gauss_seidel_before_init b sol rhs msk s dxinv i j k a c d hq (fun h => hb h.2)

/-- The equation a sweep of `mlndtslap_gauss_seidel` solves at an active node
`(i,j)` of the plane `k = 0`, with `diag` nonzero: the four neighbours the
loop visits before the node enter with their values after the sweep, the
four others with their values before the sweep. -/
theorem mlndtslap_gauss_seidel_equation (b : Box) (sol rhs : Array4 Real)
    (msk : Array4 Int) (s : GpuArray Real 3) (dxinv : GpuArray Real AMREX_SPACEDIM)
    (i j : Int) (hq : b.contains i j 0) (hm : msk i j 0 = 0)
    (hd : stencilDiag s dxinv ≠ 0) :
    stencilDiag s dxinv * mlndtslap_gauss_seidel b sol rhs msk s dxinv i j 0
      + stencilWeight s dxinv (-1) (-1)
          * mlndtslap_gauss_seidel b sol rhs msk s dxinv (i-1) (j-1) 0
      + stencilWeight s dxinv 0 (-1) * mlndtslap_gauss_seidel b sol rhs msk s dxinv i (j-1) 0
      + stencilWeight s dxinv 1 (-1)
          * mlndtslap_gauss_seidel b sol rhs msk s dxinv (i+1) (j-1) 0
      + stencilWeight s dxinv (-1) 0 * mlndtslap_gauss_seidel b sol rhs msk s dxinv (i-1) j 0
      + stencilWeight s dxinv 1 0 * sol (i+1) j 0
      + stencilWeight s dxinv (-1) 1 * sol (i-1) (j+1) 0
      + stencilWeight s dxinv 0 1 * sol i (j+1) 0
      + stencilWeight s dxinv 1 1 * sol (i+1) (j+1) 0
      = rhs i j 0 := by
  have key := mlndtslap_gauss_seidel_inside b sol rhs msk s dxinv i j 0 hq
  rw [mlndtslap_gauss_seidel_body_active rhs msk s dxinv i j 0 _ hm, stencilSum_eq] at key
  have p1 := gauss_seidel_before_prev b sol rhs msk s dxinv i j 0 (i-1) (j-1) 0 hq
    (by simp [nodeBefore])
  have p2 := gauss_seidel_before_prev b sol rhs msk s dxinv i j 0 i (j-1) 0 hq
    (by simp [nodeBefore])
  have p3 := gauss_seidel_before_prev b sol rhs msk s dxinv i j 0 (i+1) (j-1) 0 hq
    (by simp [nodeBefore])
  have p4 := gauss_seidel_before_prev b sol rhs msk s dxinv i j 0 (i-1) j 0 hq
    (by simp [nodeBefore])
  have n0 := gauss_seidel_before_next b sol rhs msk s dxinv i j 0 i j 0 hq
    (by simp [nodeBefore])
  have n1 := gauss_seidel_before_next b sol rhs msk s dxinv i j 0 (i+1) j 0 hq
    (by simp [nodeBefore])
  have n2 := gauss_seidel_before_next b sol rhs msk s dxinv i j 0 (i-1) (j+1) 0 hq
    (by simp [nodeBefore])
  have n3 := gauss_seidel_before_next b sol rhs msk s dxinv i j 0 i (j+1) 0 hq
    (by simp [nodeBefore])
  have n4 := gauss_seidel_before_next b sol rhs msk s dxinv i j 0 (i+1) (j+1) 0 hq
    (by simp [nodeBefore])
  rw [p1, p2, p3, p4, n0, n1, n2, n3, n4] at key
  have hw : stencilWeight s dxinv 0 0 = stencilDiag s dxinv := by
    simp [stencilWeight, stencilDiag]
  rw [hw] at key
  rw [key]
  field_simp
  ring

/-- Induction on the nodes of a plane in the order of the loop: a property
that holds to the left of and below a corner, and that passes to a node from
the four neighbours the loop visits before it, holds at every node. -/
theorem lex_induction (P : Int → Int → Prop) (lox loy : Int)
    (hout : ∀ a c, (a < lox ∨ c < loy) → P a c)
    (hstep : ∀ a c, P (a-1) (c-1) → P a (c-1) → P (a+1) (c-1) → P (a-1) c → P a c) :
    ∀ a c, P a c := by
  have hrow : ∀ c, (∀ a, P a (c-1)) → ∀ a, P a c := by
    intro c hprev
    have hcol : ∀ A, lox - 1 ≤ A → ∀ a, a ≤ A → P a c := by
      intro A
      refine @Int.le_induction (fun A => ∀ a, a ≤ A → P a c) (lox - 1) ?_ ?_ A
      · intro a ha
        exact hout a c (Or.inl (by omega))
      · intro A _ ih a ha
        by_cases h : a ≤ A
        · exact ih a h
        · exact hstep a c (hprev _) (hprev _) (hprev _) (ih (a-1) (by omega))
    intro a
    by_cases h : lox - 1 ≤ a
    · exact hcol a h a le_rfl
    · exact hout a c (Or.inl (by omega))
  have hall : ∀ C, loy - 1 ≤ C → ∀ a, P a C := by
    intro C
    refine @Int.le_induction (fun C => ∀ a, P a C) (loy - 1) ?_ ?_ C
    · intro a
      exact hout a _ (Or.inr (by omega))
    · intro C _ ih
      exact hrow (C + 1) (by simpa using ih)
  intro a c
  by_cases h : loy - 1 ≤ c
  · exact hall c h a
  · exact hout a c (Or.inr (by omega))

/-- At a covered node of the box the sweep leaves `0`. -/
theorem mlndtslap_gauss_seidel_covered (b : Box) (sol rhs : Array4 Real) (msk : Array4 Int)
    (s : GpuArray Real 3) (dxinv : GpuArray Real AMREX_SPACEDIM) (i j k : Int)
    (h : b.contains i j k) (hm : msk i j k ≠ 0) :
    mlndtslap_gauss_seidel b sol rhs msk s dxinv i j k = 0 := by
  rw [mlndtslap_gauss_seidel_inside b sol rhs msk s dxinv i j k h]
  unfold mlndtslap_gauss_seidel_body
  rw [if_pos hm, Array4.set_same]

/-- The weight table for symmetric coefficients `s0 = s2`, `s1 = 0`,
`dxinv0 = dxinv1`: every neighbour has the weight `w = 1/3*dxinv0^2*s0` and
the centre has the weight `-8 w`. -/
theorem stencilWeight_symmetric (s : GpuArray Real 3) (dxinv : GpuArray Real AMREX_SPACEDIM)
    (hs : s 0 = s 2 ∧ s 1 = 0 ∧ dxinv 0 = dxinv 1) :
    stencilWeight s dxinv 0 0 = -8 * (1/3 * (dxinv 0 * dxinv 0) * s 0)
    ∧ stencilWeight s dxinv 1 0 = 1/3 * (dxinv 0 * dxinv 0) * s 0
    ∧ stencilWeight s dxinv (-1) 0 = 1/3 * (dxinv 0 * dxinv 0) * s 0
    ∧ stencilWeight s dxinv 0 1 = 1/3 * (dxinv 0 * dxinv 0) * s 0
    ∧ stencilWeight s dxinv 0 (-1) = 1/3 * (dxinv 0 * dxinv 0) * s 0
    ∧ stencilWeight s dxinv 1 1 = 1/3 * (dxinv 0 * dxinv 0) * s 0
    ∧ stencilWeight s dxinv (-1) (-1) = 1/3 * (dxinv 0 * dxinv 0) * s 0
    ∧ stencilWeight s dxinv 1 (-1) = 1/3 * (dxinv 0 * dxinv 0) * s 0
    ∧ stencilWeight s dxinv (-1) 1 = 1/3 * (dxinv 0 * dxinv 0) * s 0 := by
  obtain ⟨h02, h1, hdx⟩ := hs
  obtain ⟨w00, w10, wm0, w01, w0m, w11, wmm, w1m, wm1⟩ := stencilWeight_values s dxinv
  rw [w00, w10, wm0, w01, w0m, w11, wmm, w1m, wm1, ← h02, h1, ← hdx]
  refine ⟨?_, ?_, ?_, ?_, ?_, ?_, ?_, ?_, ?_⟩ <;> ring

/-- The residual at a node of the box in the plane `k = 0`, for symmetric
coefficients. -/
theorem residual_symmetric (b : Box) (x rhs : Array4 Real) (s : GpuArray Real 3)
    (dxinv : GpuArray Real AMREX_SPACEDIM)
    (hs : s 0 = s 2 ∧ s 1 = 0 ∧ dxinv 0 = dxinv 1) (i j : Int) (h : b.contains i j 0) :
    residual b x rhs s dxinv i j 0
      = rhs i j 0
        - (-8 * (1/3 * (dxinv 0 * dxinv 0) * s 0) * x i j 0
            + 1/3 * (dxinv 0 * dxinv 0) * s 0
              * (x (i-1) (j-1) 0 + x i (j-1) 0 + x (i+1) (j-1) 0 + x (i-1) j 0
                  + x (i+1) j 0 + x (i-1) (j+1) 0 + x i (j+1) 0 + x (i+1) (j+1) 0)) := by
  obtain ⟨h02, h1, hdx⟩ := hs
  unfold residual
  rw [mlndtslap_adotx_inside b _ (constField 0) x s dxinv i j 0 h]
  simp only [mlndtslap_adotx_body, Array4.set_same]
  rw [← h02, h1, ← hdx]
  norm_num
  ring

/-- One sweep of `mlndtslap_gauss_seidel` with symmetric coefficients does not
take the residual at an active node of the plane `k = 0` above a bound `R`
that held at every active node before the sweep. -/
theorem gauss_seidel_residual_bound (b : Box) (sol rhs : Array4 Real) (msk : Array4 Int)
    (s : GpuArray Real 3) (dxinv : GpuArray Real AMREX_SPACEDIM)
    (hs : s 0 = s 2 ∧ s 1 = 0 ∧ dxinv 0 = dxinv 1)
    (h0 : ∀ i j, b.contains i j 0 → msk i j 0 ≠ 0 → sol i j 0 = 0)
    (R : Real)
    (hr : ∀ i j, b.contains i j 0 → msk i j 0 = 0 →
      |residual b sol rhs s dxinv i j 0| ≤ R) :
    ∀ i j, b.contains i j 0 → msk i j 0 = 0 →
      |residual b (mlndtslap_gauss_seidel b sol rhs msk s dxinv) rhs s dxinv i j 0| ≤ R := by
  intro i j hq hm
  have hR : 0 ≤ R := le_trans (abs_nonneg _) (hr i j hq hm)
  obtain ⟨w00, w10, wm0, w01, w0m, w11, wmm, w1m, wm1⟩ := stencilWeight_symmetric s dxinv hs
  by_cases hw : 1/3 * (dxinv 0 * dxinv 0) * s 0 = 0
  · have h1 := hr i j hq hm
    rw [residual_symmetric b _ rhs s dxinv hs i j hq, hw] at h1 ⊢
    simpa using h1
  · have hd : stencilDiag s dxinv ≠ 0 := by
      have : stencilDiag s dxinv = -8 * (1/3 * (dxinv 0 * dxinv 0) * s 0) := by
        rw [← w00]; simp [stencilWeight, stencilDiag]
      rw [this]
      exact mul_ne_zero (by norm_num) hw
    have hD : ∀ a c, |1/3 * (dxinv 0 * dxinv 0) * s 0
        * (mlndtslap_gauss_seidel b sol rhs msk s dxinv a c 0 - sol a c 0)| ≤ R / 4 := by
      refine lex_induction (fun a c => |1/3 * (dxinv 0 * dxinv 0) * s 0
        * (mlndtslap_gauss_seidel b sol rhs msk s dxinv a c 0 - sol a c 0)| ≤ R / 4)
        b.lo.x b.lo.y ?_ ?_
      · intro a c hac
        have hn : ¬ b.contains a c 0 := by unfold Box.contains; omega
        rw [mlndtslap_gauss_seidel_outside b sol rhs msk s dxinv a c 0 hn]
        simp only [sub_self, mul_zero, abs_zero]
        linarith
      · intro a c h1 h2 h3 h4
        by_cases hin : b.contains a c 0
        · by_cases hmk : msk a c 0 = 0
          · have e := mlndtslap_gauss_seidel_equation b sol rhs msk s dxinv a c hin hmk hd
            have hdg : stencilDiag s dxinv = -8 * (1/3 * (dxinv 0 * dxinv 0) * s 0) := by
              rw [← w00]; simp [stencilWeight, stencilDiag]
            rw [hdg, w10, wm0, w01, w0m, w11, wmm, w1m, wm1] at e
            have r := hr a c hin hmk
            rw [residual_symmetric b sol rhs s dxinv hs a c hin] at r
            rw [abs_le] at h1 h2 h3 h4 r ⊢
            constructor <;> linarith [h1.1, h1.2, h2.1, h2.2, h3.1, h3.2, h4.1, h4.2, r.1, r.2]
          · rw [mlndtslap_gauss_seidel_covered b sol rhs msk s dxinv a c 0 hin hmk,
              h0 a c hin hmk]
            simp only [sub_self, mul_zero, abs_zero]
            linarith
        · rw [mlndtslap_gauss_seidel_outside b sol rhs msk s dxinv a c 0 hin]
          simp only [sub_self, mul_zero, abs_zero]
          linarith
    have e := mlndtslap_gauss_seidel_equation b sol rhs msk s dxinv i j hq hm hd
    have hdg : stencilDiag s dxinv = -8 * (1/3 * (dxinv 0 * dxinv 0) * s 0) := by
      rw [← w00]; simp [stencilWeight, stencilDiag]
    rw [hdg, w10, wm0, w01, w0m, w11, wmm, w1m, wm1] at e
    rw [residual_symmetric b _ rhs s dxinv hs i j hq]
    have d1 := abs_le.mp (hD (i+1) j)
    have d2 := abs_le.mp (hD (i-1) (j+1))
    have d3 := abs_le.mp (hD i (j+1))
    have d4 := abs_le.mp (hD (i+1) (j+1))
    rw [abs_le]
    constructor <;> linarith [d1.1, d1.2, d2.1, d2.2, d3.1, d3.2, d4.1, d4.2]

theorem foldr_max_le {α : Type} (f : α → Real) (l : List α) (R : Real) :
    (l.map f).foldr max 0 ≤ R ↔ 0 ≤ R ∧ ∀ p ∈ l, f p ≤ R := by
  induction l with
  | nil => simp
  | cons a l ih =>
    simp only [List.map_cons, List.foldr_cons, max_le_iff, ih, List.mem_cons, forall_eq_or_imp]
    tauto

/-- The residual norm is below `R` exactly when `R` is non-negative and bounds
the residual at every active node of the box. -/
theorem residualNorm_le (b : Box) (sol rhs : Array4 Real) (msk : Array4 Int)
    (s : GpuArray Real 3) (dxinv : GpuArray Real AMREX_SPACEDIM) (R : Real) :
    residualNorm b sol rhs msk s dxinv ≤ R
      ↔ 0 ≤ R ∧ ∀ i j k, b.contains i j k → msk i j k = 0 →
          |residual b sol rhs s dxinv i j k| ≤ R := by
  unfold residualNorm
  rw [foldr_max_le]
  constructor
  · rintro ⟨h1, h2⟩
    refine ⟨h1, fun i j k hin hm => h2 (i, j, k) ?_⟩
    rw [List.mem_filter, Box.mem_nodes]
    exact ⟨hin, by simpa using hm⟩
  · rintro ⟨h1, h2⟩
    refine ⟨h1, fun p hp => ?_⟩
    obtain ⟨i, j, k⟩ := p
    rw [List.mem_filter, Box.mem_nodes] at hp
    exact h2 i j k hp.1 (by simpa using hp.2)

/-- One sweep over a box of the plane `k = 0` with symmetric coefficients,
from a solution that is `0` at the covered nodes, does not increase the
residual norm. -/
theorem gauss_seidel_residualNorm_le (b : Box) (sol rhs : Array4 Real) (msk : Array4 Int)
    (s : GpuArray Real 3) (dxinv : GpuArray Real AMREX_SPACEDIM)
    (hz : b.lo.z = 0 ∧ b.hi.z = 0)
    (hs : s 0 = s 2 ∧ s 1 = 0 ∧ dxinv 0 = dxinv 1)
    (h0 : ∀ i j k, b.contains i j k → msk i j k ≠ 0 → sol i j k = 0) :
    residualNorm b (mlndtslap_gauss_seidel b sol rhs msk s dxinv) rhs msk s dxinv
      ≤ residualNorm b sol rhs msk s dxinv := by
  have hk : ∀ i j k, b.contains i j k → k = 0 := by
    intro i j k h
    unfold Box.contains at h
    omega
  obtain ⟨hR, hr⟩ := (residualNorm_le b sol rhs msk s dxinv _).mp le_rfl
  rw [residualNorm_le]
  refine ⟨hR, ?_⟩
  intro i j k hin hm
  have hk0 := hk i j k hin
  subst hk0
  exact gauss_seidel_residual_bound b sol rhs msk s dxinv hs
    (fun a c ha hmk => h0 a c 0 ha hmk) _
    (fun a c ha hmk => hr a c 0 ha hmk) i j hin hm

/-- C20: on a grid of the plane `k = 0` whose covered nodes hold `0` (in
particular a grid whose boundary nodes are all covered and hold `0`, such as
the 4x4 grid of scenario A with its 2x2 interior active) and with symmetric
coefficients `s0 = s2`, `s1 = 0`, `dxinv0 = dxinv1`, for every right-hand side
and every starting solution one sweep of `mlndtslap_gauss_seidel` does not
increase the maximum over the active nodes of `|rhs - Apply(sol)|`, where
`Apply` is `mlndtslap_adotx`; hence repeated sweeps never increase it. -/
theorem mlndtslap_gauss_seidel_residual (b : Box) (sol rhs : Array4 Real) (msk : Array4 Int)
    (s : GpuArray Real 3) (dxinv : GpuArray Real AMREX_SPACEDIM)
    (hz : b.lo.z = 0 ∧ b.hi.z = 0)
    (hs : s 0 = s 2 ∧ s 1 = 0 ∧ dxinv 0 = dxinv 1)
    (h0 : ∀ i j k, b.contains i j k → msk i j k ≠ 0 → sol i j k = 0) :
    residualNorm b (mlndtslap_gauss_seidel b sol rhs msk s dxinv) rhs msk s dxinv
      ≤ residualNorm b sol rhs msk s dxinv
    ∧ ∀ n : Nat,
        residualNorm b
            (Nat.iterate (fun x => mlndtslap_gauss_seidel b x rhs msk s dxinv) (n + 1) sol)
            rhs msk s dxinv
          ≤ residualNorm b
              (Nat.iterate (fun x => mlndtslap_gauss_seidel b x rhs msk s dxinv) n sol)
              rhs msk s dxinv := by
  refine ⟨gauss_seidel_residualNorm_le b sol rhs msk s dxinv hz hs h0, ?_⟩
  intro n
  rw [Function.iterate_succ_apply']
  refine gauss_seidel_residualNorm_le b _ rhs msk s dxinv hz hs ?_
  cases n with
  | zero => exact h0
  | succ m =>
    intro i j k hin hm
    rw [Function.iterate_succ_apply']
    exact mlndtslap_gauss_seidel_covered b _ rhs msk s dxinv i j k hin hm

theorem interiorField_boundary (i j k : Int) (hm : maskA i j k ≠ 0) :
    interiorField i j k = 0 := by
  unfold maskA at hm
  unfold interiorField
  split_ifs at hm ⊢ with h
  · exact absurd rfl hm
  · rfl

/-- Witness of C20: the 4x4 grid of scenario A with its 2x2 interior active,
`s = (1,0,1)`, `dxinv = (1,1)`, the right-hand side `i + 2 j` and a starting
solution that is `0` on the boundary. -/
theorem mlndtslap_gauss_seidel_residual_witness :
    (boxA.lo.z = 0 ∧ boxA.hi.z = 0)
    ∧ (sA 0 = sA 2 ∧ sA 1 = 0 ∧ dxinvA 0 = dxinvA 1)
    ∧ (∀ i j k, boxA.contains i j k → maskA i j k ≠ 0 → interiorField i j k = 0)
    ∧ residualNorm boxA (mlndtslap_gauss_seidel boxA interiorField rampField maskA sA dxinvA)
          rampField maskA sA dxinvA
        ≤ residualNorm boxA interiorField rampField maskA sA dxinvA :=
  have hz : boxA.lo.z = 0 ∧ boxA.hi.z = 0 := by decide
  have hs : sA 0 = sA 2 ∧ sA 1 = 0 ∧ dxinvA 0 = dxinvA 1 := by
    simp [sA, dxinvA]
  have h0 : ∀ i j k, boxA.contains i j k → maskA i j k ≠ 0 → interiorField i j k = 0 :=
    fun i j k _ hm => interiorField_boundary i j k hm
  ⟨hz, hs, h0,
   (mlndtslap_gauss_seidel_residual boxA interiorField rampField maskA sA dxinvA hz hs h0).1⟩

/-! ## Particle ids: theorems -/

theorem and_low24 (m : Nat) : m &&& 0x00FFFFFF = m % 2 ^ 24 :=
  Nat.and_pow_two_sub_one_eq_mod m 24

theorem and_low39 (m : Nat) : m &&& 0x7FFFFFFFFF = m % 2 ^ 39 :=
  Nat.and_pow_two_sub_one_eq_mod m 39

theorem or_rotate (a b c : Nat) : a ||| b ||| c = b ||| (c ||| a) := by
  rw [Nat.or_comm a b, Nat.or_assoc, Nat.or_comm a c]

/-- Packing three fields that do not overlap with `|||` adds them. -/
theorem or_fields (low v sgn : Nat) (hl : low < 2 ^ 24) (hv : v < 2 ^ 39) :
    low ||| sgn * 2 ^ 63 ||| v * 2 ^ 24 = low + v * 2 ^ 24 + sgn * 2 ^ 63 := by
  have h1 : 2 ^ 24 * v + low = 2 ^ 24 * v ||| low := Nat.mul_add_lt_is_or hl v
  have h2 : 2 ^ 63 * sgn + (2 ^ 24 * v + low) = 2 ^ 63 * sgn ||| (2 ^ 24 * v + low) :=
    Nat.mul_add_lt_is_or (by omega) sgn
  rw [h1] at h2
  rw [or_rotate, Nat.mul_comm sgn, Nat.mul_comm v, ← h2, ← h1]
  omega

/-- The word after `ParticleIDWrapper::operator=` for an id in the range of
the packing: the low 24 bits are kept, the absolute value goes to the bits
24..62 and the bit 63 is set exactly for a non-negative id. -/
theorem ParticleIDWrapper_assign_eq (m : Nat) (id : Int)
    (hlo : -(2 ^ 39 - 1) ≤ id) (hhi : id ≤ 2 ^ 39 - 1) :
    ParticleIDWrapper_assign m id
      = m % 2 ^ 24 + id.natAbs * 2 ^ 24 + (if id ≥ 0 then 1 else 0) * 2 ^ 63 := by
  unfold ParticleIDWrapper_assign toUInt64
  simp only [and_low24, Nat.shiftLeft_eq]
  have hl : m % 2 ^ 24 < 2 ^ 24 := Nat.mod_lt _ (by norm_num)
  by_cases h : id ≥ 0
  · have hv : (id % 2 ^ 64).toNat = id.natAbs := by omega
    have hv2 : id.natAbs < 2 ^ 39 := by omega
    simp only [h, if_true, hv, ne_eq, one_ne_zero, not_false_eq_true]
    have e1 : (1 * 2 ^ 63) % 2 ^ 64 = 1 * 2 ^ 63 := by norm_num
    have e2 : (id.natAbs * 2 ^ 24) % 2 ^ 64 = id.natAbs * 2 ^ 24 := by omega
    rw [e1, e2]
    exact or_fields _ _ 1 hl hv2
  · have hv : ((-id) % 2 ^ 64).toNat = id.natAbs := by omega
    have hv2 : id.natAbs < 2 ^ 39 := by omega
    simp only [h, if_false, hv, ne_eq, not_true_eq_false]
    have e1 : (0 * 2 ^ 63) % 2 ^ 64 = 0 * 2 ^ 63 := by norm_num
    have e2 : (id.natAbs * 2 ^ 24) % 2 ^ 64 = id.natAbs * 2 ^ 24 := by omega
    rw [e1, e2]
    exact or_fields _ _ 0 hl hv2

/-- Reading the three fields of a packed word. -/
theorem read_fields (low v sgn : Nat) (hl : low < 2 ^ 24) (hv : v < 2 ^ 39) :
    (low + v * 2 ^ 24 + sgn * 2 ^ 63) >>> 63 = sgn
    ∧ ((low + v * 2 ^ 24 + sgn * 2 ^ 63) >>> 24) &&& 0x7FFFFFFFFF = v
    ∧ (low + v * 2 ^ 24 + sgn * 2 ^ 63) &&& 0x00FFFFFF = low := by
  simp only [and_low24, and_low39, Nat.shiftRight_eq_div_pow]
  refine ⟨?_, ?_, ?_⟩ <;> omega

/-- The mask of `ParticleCPUWrapper::operator=` clears the low 24 bits of a
64-bit word and keeps the others. -/
theorem and_high40 (m : Nat) (hm : m < 2 ^ 64) :
    m &&& toUInt64 (~~~ (0x00FFFFFF : Int)) = 2 ^ 24 * (m / 2 ^ 24) := by
  have hmask : toUInt64 (~~~ (0x00FFFFFF : Int)) = (2 ^ 40 - 1) <<< 24 := by decide
  have hr : 2 ^ 24 * (m / 2 ^ 24) = (m >>> 24) <<< 24 := by
    rw [Nat.shiftLeft_eq, Nat.shiftRight_eq_div_pow, Nat.mul_comm]
  rw [hmask, hr]
  apply Nat.eq_of_testBit_eq
  intro i
  simp only [Nat.testBit_and, Nat.testBit_shiftLeft, Nat.testBit_shiftRight,
    Nat.testBit_two_pow_sub_one]
  by_cases h1 : i ≥ 24
  · have e : 24 + (i - 24) = i := by omega
    by_cases h2 : i - 24 < 40
    · simp [h1, h2, e]
    · have hlt : m < 2 ^ i :=
        lt_of_lt_of_le hm (Nat.pow_le_pow_right (by norm_num) (by omega))
      simp [h1, h2, e, Nat.testBit_lt_two_pow hlt]
  · simp [h1]

/-- The word after `ParticleCPUWrapper::operator=` for a cpu number in the
range of the packing: the high 40 bits are kept and the low 24 bits hold the
cpu number. -/
theorem ParticleCPUWrapper_assign_eq (m : Nat) (cpu : Int) (hm : m < 2 ^ 64)
    (hlo : 0 ≤ cpu) (hhi : cpu ≤ 2 ^ 24 - 1) :
    ParticleCPUWrapper_assign m cpu = 2 ^ 24 * (m / 2 ^ 24) + cpu.toNat := by
  unfold ParticleCPUWrapper_assign
  simp only [and_high40 m hm]
  have hc : toUInt64 cpu = cpu.toNat := by unfold toUInt64; omega
  rw [hc]
  exact (Nat.mul_add_lt_is_or (by omega) _).symm

theorem ParticleIDWrapper_toLong_eq (w : Nat) :
    ParticleIDWrapper_toLong w
      = if w / 2 ^ 63 ≠ 0 then ((w / 2 ^ 24 % 2 ^ 39 : Nat) : Int)
        else -((w / 2 ^ 24 % 2 ^ 39 : Nat) : Int) := by
  unfold ParticleIDWrapper_toLong
  simp only [and_low39, Nat.shiftRight_eq_div_pow]

theorem ConstParticleIDWrapper_toLong_eq (w : Nat) :
    ConstParticleIDWrapper_toLong w = ParticleIDWrapper_toLong w := rfl

theorem ParticleCPUWrapper_toInt_eq (w : Nat) :
    ParticleCPUWrapper_toInt w = ((w % 2 ^ 24 : Nat) : Int) := by
  unfold ParticleCPUWrapper_toInt
  rw [and_low24]

/-- C22: for every word, in particular every 64-bit word, and every id with `-(2^39-1) <= id <= 2^39-1`,
assigning the id through `ParticleIDWrapper` and converting the wrapper, or a
`ConstParticleIDWrapper` on the same word, back to `Long` returns the id. The
bit 63 of the word is set exactly for a non-negative id and the bits 24..62
hold the absolute value. -/
theorem ParticleIDWrapper_roundtrip (m : Nat) (id : Int)
    (hlo : -(2 ^ 39 - 1) ≤ id) (hhi : id ≤ 2 ^ 39 - 1) :
    ParticleIDWrapper_toLong (ParticleIDWrapper_assign m id) = id
    ∧ ConstParticleIDWrapper_toLong (ParticleIDWrapper_assign m id) = id
    ∧ ParticleIDWrapper_assign m id >>> 63 = (if id ≥ 0 then 1 else 0)
    ∧ (ParticleIDWrapper_assign m id >>> 24) &&& 0x7FFFFFFFFF = id.natAbs
    ∧ ParticleIDWrapper_assign m id < 2 ^ 64 := by
  have hl : m % 2 ^ 24 < 2 ^ 24 := Nat.mod_lt _ (by norm_num)
  have hv : id.natAbs < 2 ^ 39 := by omega
  have ha := ParticleIDWrapper_assign_eq m id hlo hhi
  obtain ⟨r1, r2, _⟩ := read_fields (m % 2 ^ 24) id.natAbs (if id ≥ 0 then 1 else 0) hl hv
  have key : ParticleIDWrapper_toLong (ParticleIDWrapper_assign m id) = id := by
    unfold ParticleIDWrapper_toLong
    rw [ha, r1, r2]
    by_cases h : id ≥ 0
    · simp only [h, if_true, ne_eq, one_ne_zero, not_false_eq_true]
      omega
    · simp only [h, if_false, ne_eq, not_true_eq_false]
      omega
  refine ⟨key, key, ?_, ?_, ?_⟩
  · rw [ha, r1]
  · rw [ha, r2]
  · rw [ha]
    split <;> omega

/-- Witness of C22: the word `0xABCDEF0123456789` and the id `-5`. -/
theorem ParticleIDWrapper_roundtrip_witness :
    -(2 ^ 39 - 1) ≤ (-5 : Int) ∧ (-5 : Int) ≤ 2 ^ 39 - 1
    ∧ ParticleIDWrapper_toLong (ParticleIDWrapper_assign 0xABCDEF0123456789 (-5)) = -5 :=
  ⟨by decide, by decide,
   (ParticleIDWrapper_roundtrip 0xABCDEF0123456789 (-5) (by decide) (by decide)).1⟩

/-- C30: the id and the cpu number packed in one 64-bit word do not interfere.
Assigning an id in range through `ParticleIDWrapper` leaves the value read by
`ParticleCPUWrapper` unchanged, assigning a cpu number in range through
`ParticleCPUWrapper` leaves the value read by `ParticleIDWrapper` unchanged,
and after writing both, in either order, the word reads back the cpu number
and the id. -/
theorem ParticleID_CPU_independent (m : Nat) (id cpu : Int) (hm : m < 2 ^ 64)
    (hlo : -(2 ^ 39 - 1) ≤ id) (hhi : id ≤ 2 ^ 39 - 1)
    (hclo : 0 ≤ cpu) (hchi : cpu ≤ 2 ^ 24 - 1) :
    ParticleCPUWrapper_toInt (ParticleIDWrapper_assign m id) = ParticleCPUWrapper_toInt m
    ∧ ParticleIDWrapper_toLong (ParticleCPUWrapper_assign m cpu) = ParticleIDWrapper_toLong m
    ∧ ParticleCPUWrapper_toInt
        (ParticleCPUWrapper_assign (ParticleIDWrapper_assign m id) cpu) = cpu
    ∧ ParticleIDWrapper_toLong
        (ParticleCPUWrapper_assign (ParticleIDWrapper_assign m id) cpu) = id
    ∧ ParticleCPUWrapper_toInt
        (ParticleIDWrapper_assign (ParticleCPUWrapper_assign m cpu) id) = cpu
    ∧ ParticleIDWrapper_toLong
        (ParticleIDWrapper_assign (ParticleCPUWrapper_assign m cpu) id) = id := by
  have hl : m % 2 ^ 24 < 2 ^ 24 := Nat.mod_lt _ (by norm_num)
  have hv : id.natAbs < 2 ^ 39 := by omega
  have ha := ParticleIDWrapper_assign_eq m id hlo hhi
  have hc := ParticleCPUWrapper_assign_eq m cpu hm hclo hchi
  have hw1 : ParticleIDWrapper_assign m id < 2 ^ 64 := by
    rw [ha]; split <;> omega
  have hw2 : ParticleCPUWrapper_assign m cpu < 2 ^ 64 := by
    rw [hc]; omega
  have hca := ParticleCPUWrapper_assign_eq (ParticleIDWrapper_assign m id) cpu hw1 hclo hchi
  have hac := ParticleIDWrapper_assign_eq (ParticleCPUWrapper_assign m cpu) id hlo hhi
  simp only [ParticleIDWrapper_toLong_eq, ParticleCPUWrapper_toInt_eq]
  rw [hca, hac, ha, hc]
  by_cases h : id ≥ 0
  · simp only [h, if_true]
    refine ⟨?_, ?_, ?_, ?_, ?_, ?_⟩
    · have e0 : (m % 2 ^ 24 + id.natAbs * 2 ^ 24 + 1 * 2 ^ 63) % 2 ^ 24 = m % 2 ^ 24 := by
        omega
      rw [e0]
    · have e1 : (2 ^ 24 * (m / 2 ^ 24) + cpu.toNat) / 2 ^ 63 = m / 2 ^ 63 := by omega
      have e2 : (2 ^ 24 * (m / 2 ^ 24) + cpu.toNat) / 2 ^ 24 % 2 ^ 39
          = m / 2 ^ 24 % 2 ^ 39 := by omega
      rw [e1, e2]
    · omega
    · have e1 : (2 ^ 24 * ((m % 2 ^ 24 + id.natAbs * 2 ^ 24 + 1 * 2 ^ 63) / 2 ^ 24)
          + cpu.toNat) / 2 ^ 63 = 1 := by omega
      have e2 : (2 ^ 24 * ((m % 2 ^ 24 + id.natAbs * 2 ^ 24 + 1 * 2 ^ 63) / 2 ^ 24)
          + cpu.toNat) / 2 ^ 24 % 2 ^ 39 = id.natAbs := by omega
      rw [e1, e2]
      simp only [ne_eq, one_ne_zero, not_false_eq_true, if_true]
      omega
    · omega
    · have e1 : ((2 ^ 24 * (m / 2 ^ 24) + cpu.toNat) % 2 ^ 24 + id.natAbs * 2 ^ 24
          + 1 * 2 ^ 63) / 2 ^ 63 = 1 := by omega
      have e2 : ((2 ^ 24 * (m / 2 ^ 24) + cpu.toNat) % 2 ^ 24 + id.natAbs * 2 ^ 24
          + 1 * 2 ^ 63) / 2 ^ 24 % 2 ^ 39 = id.natAbs := by omega
      rw [e1, e2]
      simp only [ne_eq, one_ne_zero, not_false_eq_true, if_true]
      omega
  · simp only [h, if_false]
    refine ⟨?_, ?_, ?_, ?_, ?_, ?_⟩
    · have e0 : (m % 2 ^ 24 + id.natAbs * 2 ^ 24 + 0 * 2 ^ 63) % 2 ^ 24 = m % 2 ^ 24 := by
        omega
      rw [e0]
    · have e1 : (2 ^ 24 * (m / 2 ^ 24) + cpu.toNat) / 2 ^ 63 = m / 2 ^ 63 := by omega
      have e2 : (2 ^ 24 * (m / 2 ^ 24) + cpu.toNat) / 2 ^ 24 % 2 ^ 39
          = m / 2 ^ 24 % 2 ^ 39 := by omega
      rw [e1, e2]
    · omega
    · have e1 : (2 ^ 24 * ((m % 2 ^ 24 + id.natAbs * 2 ^ 24 + 0 * 2 ^ 63) / 2 ^ 24)
          + cpu.toNat) / 2 ^ 63 = 0 := by omega
      have e2 : (2 ^ 24 * ((m % 2 ^ 24 + id.natAbs * 2 ^ 24 + 0 * 2 ^ 63) / 2 ^ 24)
          + cpu.toNat) / 2 ^ 24 % 2 ^ 39 = id.natAbs := by omega
      rw [e1, e2]
      simp only [ne_eq, not_true_eq_false, if_false]
      omega
    · omega
    · have e1 : ((2 ^ 24 * (m / 2 ^ 24) + cpu.toNat) % 2 ^ 24 + id.natAbs * 2 ^ 24
          + 0 * 2 ^ 63) / 2 ^ 63 = 0 := by omega
      have e2 : ((2 ^ 24 * (m / 2 ^ 24) + cpu.toNat) % 2 ^ 24 + id.natAbs * 2 ^ 24
          + 0 * 2 ^ 63) / 2 ^ 24 % 2 ^ 39 = id.natAbs := by omega
      rw [e1, e2]
      simp only [ne_eq, not_true_eq_false, if_false]
      omega

/-- Witness of C30: the word `0xABCDEF0123456789`, the id `-5` and the cpu
number `7`. -/
theorem ParticleID_CPU_independent_witness :
    (0xABCDEF0123456789 : Nat) < 2 ^ 64 ∧ -(2 ^ 39 - 1) ≤ (-5 : Int) ∧ (-5 : Int) ≤ 2 ^ 39 - 1
    ∧ (0 : Int) ≤ 7 ∧ (7 : Int) ≤ 2 ^ 24 - 1
    ∧ ParticleCPUWrapper_toInt
        (ParticleCPUWrapper_assign (ParticleIDWrapper_assign 0xABCDEF0123456789 (-5)) 7) = 7
    ∧ ParticleIDWrapper_toLong
        (ParticleCPUWrapper_assign (ParticleIDWrapper_assign 0xABCDEF0123456789 (-5)) 7) = -5 :=
  ⟨by decide, by decide, by decide, by decide, by decide,
   (ParticleID_CPU_independent 0xABCDEF0123456789 (-5) 7 (by decide) (by decide) (by decide)
      (by decide) (by decide)).2.2.1,
   (ParticleID_CPU_independent 0xABCDEF0123456789 (-5) 7 (by decide) (by decide) (by decide)
      (by decide) (by decide)).2.2.2.1⟩

/-- A call of `NextID` that does not abort returns the counter and increments
it. -/
theorem NextID_ok (c : Int) (h : c ≤ LastParticleID) : NextID c = some (c, c + 1) := by
  unfold NextID
  simp only
  rw [if_neg (by omega)]

/-- As long as the counter stays at most `LastParticleID`, `n` successive
calls from the counter value `c` return `c, c+1, ..., c+n-1`. -/
theorem NextID_calls_eq (n : Nat) (c : Int) (h : c + n ≤ LastParticleID + 1) :
    NextID_calls n c
      = some ((List.range n).map (fun (k : Nat) => c + (k : Int)), c + (n : Int)) := by
  induction n generalizing c with
  | zero => simp [NextID_calls]
  | succ n ih =>
    have h1 : c ≤ LastParticleID := by push_cast at h; omega
    have h2 : (c + 1) + (n : Int) ≤ LastParticleID + 1 := by push_cast at h; omega
    simp only [NextID_calls, NextID_ok c h1, ih (c + 1) h2]
    rw [List.range_succ_eq_map]
    simp only [List.map_cons, List.map_map, Nat.cast_zero, add_zero, Nat.cast_add,
      Nat.cast_one, Option.some.injEq, Prod.mk.injEq, List.cons.injEq, true_and]
    constructor
    · refine List.map_congr_left ?_
      intro k _
      simp only [Function.comp_apply, Nat.cast_succ]
      ring
    · ring

/-- C23: starting from the initial counter value `1` and with no reset, the
first `n` calls of `Particle::NextID` return `1, 2, ..., n` as long as
`n <= LastParticleID = 2^39-3`, so the `n`-th call returns `n` and the ids
are strictly increasing and never repeated; `UnprotectedNextID` computes the
same; a call returns normally exactly when the id it returns is at most
`LastParticleID`, and it aborts otherwise. -/
theorem NextID_sequence (n : Nat) (hn : (n : Int) ≤ LastParticleID) :
    NextID_calls n the_next_id_init
      = some ((List.range n).map (fun (k : Nat) => (k : Int) + 1), (n : Int) + 1)
    ∧ ((List.range n).map (fun (k : Nat) => (k : Int) + 1)).Pairwise (· < ·)
    ∧ ((List.range n).map (fun (k : Nat) => (k : Int) + 1)).Nodup
    ∧ (1 ≤ n → ((List.range n).map (fun (k : Nat) => (k : Int) + 1)).getLast? = some (n : Int))
    ∧ (∀ c : Int, UnprotectedNextID c = NextID c)
    ∧ (∀ c : Int, c ≤ LastParticleID → NextID c = some (c, c + 1))
    ∧ (∀ c : Int, LastParticleID < c → NextID c = none)
    ∧ LastParticleID = 2 ^ 39 - 3 := by
  have hp : ((List.range n).map (fun (k : Nat) => (k : Int) + 1)).Pairwise (· < ·) := by
    rw [List.pairwise_map]
    refine (List.pairwise_lt_range n).imp ?_
    intro a b hab
    omega
  refine ⟨?_, hp, ?_, ?_, fun _ => rfl, NextID_ok, ?_, by decide⟩
  · rw [NextID_calls_eq n the_next_id_init (by unfold the_next_id_init; omega)]
    unfold the_next_id_init
    simp only [Option.some.injEq, Prod.mk.injEq]
    constructor
    · refine List.map_congr_left ?_
      intro k _
      ring
    · ring
  · exact hp.imp (fun h => ne_of_lt h)
  · intro h1
    obtain ⟨m, rfl⟩ : ∃ m, n = m + 1 := ⟨n - 1, by omega⟩
    rw [List.range_succ, List.map_append, List.map_singleton, List.getLast?_append]
    simp
  · intro c hc
    unfold NextID
    simp only
    rw [if_pos hc]

/-- Witness of C23: the first three calls return `1, 2, 3`. -/
theorem NextID_sequence_witness :
    ((3 : Nat) : Int) ≤ LastParticleID
    ∧ NextID_calls 3 the_next_id_init = some ([1, 2, 3], 4) :=
  ⟨by decide,
   (NextID_sequence 3 (by decide)).1.trans (by decide)⟩

/-! ## Order of the loops: theorems -/

/-- Two loop bodies commute when each writes only its own node and the value
it writes depends only on the value the state holds at that node. -/
theorem body_comm {α : Type} (g : Int × Int × Int → Array4 α → Array4 α)
    (hg : ∀ p st i j k, (i, j, k) ≠ p → g p st i j k = st i j k)
    (hloc : ∀ p st st1, st p.1 p.2.1 p.2.2 = st1 p.1 p.2.1 p.2.2 →
      g p st p.1 p.2.1 p.2.2 = g p st1 p.1 p.2.1 p.2.2)
    (p q : Int × Int × Int) (st : Array4 α) :
    g q (g p st) = g p (g q st) := by
  by_cases hpq : p = q
  · subst hpq
    rfl
  · funext i j k
    by_cases h1 : (i, j, k) = p
    · subst h1
      rw [hg q _ i j k hpq]
      exact hloc (i, j, k) st (g q st) (hg q st i j k hpq).symm
    · by_cases h2 : (i, j, k) = q
      · subst h2
        rw [hg p _ i j k (fun h => hpq h.symm)]
        exact (hloc (i, j, k) st (g p st) (hg p st i j k (fun h => hpq h.symm)).symm).symm
      · rw [hg q _ i j k h2, hg p _ i j k h1, hg p _ i j k h1, hg q _ i j k h2]

/-- C21: `mlndtslap_adotx` and `mlndtslap_normalize` are order-independent.
Running the loop body of `mlndtslap_adotx` over the nodes of the box in any
permutation of the order of the loop gives the output field of the kernel
(the output being distinct from the input, which is a `const` view), and
running the loop body of `mlndtslap_normalize` in any order gives the `phi`
of the kernel. -/
theorem mlndtslap_order_independent (b : Box) (y x phi : Array4 Real) (msk : Array4 Int)
    (s : GpuArray Real 3) (dxinv : GpuArray Real AMREX_SPACEDIM)
    (l : List (Int × Int × Int)) (hl : l.Perm b.nodes) :
    l.foldl (fun y p => mlndtslap_adotx_body x s
        (dxinv 0 * dxinv 0) (dxinv 0 * dxinv 1) (dxinv 1 * dxinv 1) p.1 p.2.1 p.2.2 y) y
      = mlndtslap_adotx b y x s dxinv
    ∧ l.foldl (fun phi p => mlndtslap_normalize_body msk s
        (dxinv 0 * dxinv 0) (dxinv 1 * dxinv 1) p.1 p.2.1 p.2.2 phi) phi
      = mlndtslap_normalize b phi msk s dxinv := by
  constructor
  · unfold mlndtslap_adotx LoopConcurrent Loop
    refine hl.foldl_eq' (fun p _ q _ z => ?_) y
    refine body_comm
      (fun p st => mlndtslap_adotx_body x s _ _ _ p.1 p.2.1 p.2.2 st)
      (fun p st i j k hp => mlndtslap_adotx_body_other x s _ _ _ p st i j k hp)
      ?_ p q z
    intro p st st1 _
    simp only [mlndtslap_adotx_body, Array4.set_same]
  · unfold mlndtslap_normalize Loop
    refine hl.foldl_eq' (fun p _ q _ z => ?_) phi
    refine body_comm
      (fun p st => mlndtslap_normalize_body msk s _ _ p.1 p.2.1 p.2.2 st)
      (fun p st i j k hp => mlndtslap_normalize_body_other msk s _ _ p st i j k hp)
      ?_ p q z
    intro p st st1 h
    simp only [mlndtslap_normalize_body_same, h]

/-- Witness of C21: the two nodes of the box `0..1 x 0..0` in reverse order. -/
theorem mlndtslap_order_independent_witness :
    ([(1, 0, 0), (0, 0, 0)] : List (Int × Int × Int)).Perm boxTwo.nodes
    ∧ ([(1, 0, 0), (0, 0, 0)] : List (Int × Int × Int)).foldl
        (fun y p => mlndtslap_adotx_body rampField sA
          (dxinvA 0 * dxinvA 0) (dxinvA 0 * dxinvA 1) (dxinvA 1 * dxinvA 1) p.1 p.2.1 p.2.2 y)
        (constField 7)
      = mlndtslap_adotx boxTwo (constField 7) rampField sA dxinvA :=
  ⟨by decide,
   (mlndtslap_order_independent boxTwo (constField 7) rampField rampField activeMask
      sA dxinvA [(1, 0, 0), (0, 0, 0)] (by decide)).1⟩
/-- C24: `mlndtslap_gauss_seidel` is a true sequential Gauss-Seidel sweep in
the order of the loop. With `diag` nonzero, after a sweep every active node
`(i,j)` of the box holds `(rhs(i,j) - N)/diag`, where `N` is the weighted sum
over its eight neighbours that takes the value produced by this sweep at the
neighbours `(i-1,j-1)`, `(i,j-1)`, `(i+1,j-1)`, `(i-1,j)` lying in the box and
the value before the sweep at every other neighbour. On the two-node box
`0..1 x 0..0` with `sol = 0`, `rhs = 1`, `s = (1,0,1)`, `dxinv = (1,1)` the
sweep leaves `-27/64` at the node `(1,0)`, the Jacobi update is `-3/8`. -/
theorem mlndtslap_gauss_seidel_sequential (b : Box) (sol rhs : Array4 Real)
    (msk : Array4 Int) (s : GpuArray Real 3) (dxinv : GpuArray Real AMREX_SPACEDIM)
    (hd : stencilDiag s dxinv ≠ 0) :
    (∀ i j, b.contains i j 0 → msk i j 0 = 0 →
      mlndtslap_gauss_seidel b sol rhs msk s dxinv i j 0
        = (rhs i j 0
            - gsNeighbourSum b sol (mlndtslap_gauss_seidel b sol rhs msk s dxinv) s dxinv i j)
          / stencilDiag s dxinv)
    ∧ mlndtslap_gauss_seidel boxTwo (constField 0) (constField 1) activeMask sA dxinvA 1 0 0
        = -27/64
    ∧ jacobiUpdate (constField 0) (constField 1) sA dxinvA 1 0 = -3/8
    ∧ mlndtslap_gauss_seidel boxTwo (constField 0) (constField 1) activeMask sA dxinvA 1 0 0
        ≠ jacobiUpdate (constField 0) (constField 1) sA dxinvA 1 0 := by
  have hlatest : ∀ (bx : Box) (x r : Array4 Real) (m : Array4 Int) (a c : Int),
      (if bx.contains a c 0 then mlndtslap_gauss_seidel bx x r m s dxinv a c 0 else x a c 0)
        = mlndtslap_gauss_seidel bx x r m s dxinv a c 0 := by
    intro bx x r m a c
    split
    · rfl
    · rename_i h
      rw [mlndtslap_gauss_seidel_outside bx x r m s dxinv a c 0 h]
  have hA : stencilDiag sA dxinvA ≠ 0 := by rw [stencilDiag_scenarioA]; norm_num
  have e0 := mlndtslap_gauss_seidel_equation boxTwo (constField 0) (constField 1) activeMask
    sA dxinvA 0 0 (by decide) rfl hA
  have e1 := mlndtslap_gauss_seidel_equation boxTwo (constField 0) (constField 1) activeMask
    sA dxinvA 1 0 (by decide) rfl hA
  rw [mlndtslap_gauss_seidel_outside boxTwo _ _ _ sA dxinvA (0-1) (0-1) 0 (by decide),
    mlndtslap_gauss_seidel_outside boxTwo _ _ _ sA dxinvA 0 (0-1) 0 (by decide),
    mlndtslap_gauss_seidel_outside boxTwo _ _ _ sA dxinvA (0+1) (0-1) 0 (by decide),
    mlndtslap_gauss_seidel_outside boxTwo _ _ _ sA dxinvA (0-1) 0 0 (by decide)] at e0
  rw [mlndtslap_gauss_seidel_outside boxTwo _ _ _ sA dxinvA (1-1) (0-1) 0 (by decide),
    mlndtslap_gauss_seidel_outside boxTwo _ _ _ sA dxinvA 1 (0-1) 0 (by decide),
    mlndtslap_gauss_seidel_outside boxTwo _ _ _ sA dxinvA (1+1) (0-1) 0 (by decide)] at e1
  have h11 : (1 : Int) - 1 = 0 := by norm_num
  rw [h11] at e1
  obtain ⟨_, w10, wm0, w01, w0m, w11, wmm, w1m, wm1⟩ :=
    stencilWeight_symmetric sA dxinvA (by simp [sA, dxinvA])
  have hw : 1/3 * (dxinvA 0 * dxinvA 0) * sA 0 = 1/3 := by simp [sA, dxinvA]
  rw [hw] at w10 wm0 w01 w0m w11 wmm w1m wm1
  rw [stencilDiag_scenarioA, w10, wm0, w01, w0m, w11, wmm, w1m, wm1] at e0 e1
  simp only [constField] at e0 e1
  have v1 : mlndtslap_gauss_seidel boxTwo (constField 0) (constField 1) activeMask
      sA dxinvA 1 0 0 = -27/64 := by
    linarith
  have v2 : jacobiUpdate (constField 0) (constField 1) sA dxinvA 1 0 = -3/8 := by
    unfold jacobiUpdate
    rw [neighbourSum_eq, stencilDiag_scenarioA]
    simp only [constField]
    norm_num
  refine ⟨?_, v1, v2, ?_⟩
  · intro i j hq hm
    have e := mlndtslap_gauss_seidel_equation b sol rhs msk s dxinv i j hq hm hd
    unfold gsNeighbourSum
    rw [hlatest, hlatest, hlatest, hlatest, eq_div_iff hd]
    linarith
  · rw [v1, v2]
    norm_num

/-- Witness of C24: scenario A, the active node `(2,1)`. -/
theorem mlndtslap_gauss_seidel_sequential_witness :
    stencilDiag sA dxinvA ≠ 0 ∧ boxA.contains 2 1 0 ∧ maskA 2 1 0 = 0
    ∧ mlndtslap_gauss_seidel boxA rampField (constField 1) maskA sA dxinvA 2 1 0
        = (constField 1 2 1 0
            - gsNeighbourSum boxA rampField
                (mlndtslap_gauss_seidel boxA rampField (constField 1) maskA sA dxinvA)
                sA dxinvA 2 1)
          / stencilDiag sA dxinvA :=
  have hA : stencilDiag sA dxinvA ≠ 0 := by rw [stencilDiag_scenarioA]; norm_num
  ⟨hA, by decide, by decide,
   (mlndtslap_gauss_seidel_sequential boxA rampField (constField 1) maskA sA dxinvA hA).1
     2 1 (by decide) (by decide)⟩

/-- C25: `mlndtslap_normalize` is not idempotent. With `diag` nonzero, at
every active node of the box invoking it twice yields `phi/diag^2`, which
differs from the once-normalized value `phi/diag` whenever `phi` is nonzero
and `diag` is not `1`: nothing in the kernel prevents the second division. -/
theorem mlndtslap_normalize_twice (b : Box) (phi : Array4 Real) (msk : Array4 Int)
    (s : GpuArray Real 3) (dxinv : GpuArray Real AMREX_SPACEDIM)
    (hd : stencilDiag s dxinv ≠ 0) (i j k : Int) (h : b.contains i j k)
    (hm : msk i j k = 0) :
    mlndtslap_normalize b (mlndtslap_normalize b phi msk s dxinv) msk s dxinv i j k
      = phi i j k / stencilDiag s dxinv ^ 2
    ∧ mlndtslap_normalize b phi msk s dxinv i j k = phi i j k / stencilDiag s dxinv
    ∧ (phi i j k ≠ 0 → stencilDiag s dxinv ≠ 1 →
        mlndtslap_normalize b (mlndtslap_normalize b phi msk s dxinv) msk s dxinv i j k
          ≠ mlndtslap_normalize b phi msk s dxinv i j k) := by
  have h1 : mlndtslap_normalize b phi msk s dxinv i j k = phi i j k / stencilDiag s dxinv := by
    rw [mlndtslap_normalize_inside b phi msk s dxinv i j k h, if_pos hm]
  have h2 : mlndtslap_normalize b (mlndtslap_normalize b phi msk s dxinv) msk s dxinv i j k
      = phi i j k / stencilDiag s dxinv ^ 2 := by
    rw [mlndtslap_normalize_inside b _ msk s dxinv i j k h, if_pos hm, h1, div_div, pow_two]
  refine ⟨h2, h1, ?_⟩
  intro hp hd1 heq
  rw [h2, h1, div_eq_div_iff (pow_ne_zero 2 hd) hd] at heq
  have h3 : phi i j k * stencilDiag s dxinv * (1 - stencilDiag s dxinv) = 0 := by
    linear_combination heq
  rcases mul_eq_zero.mp h3 with h4 | h4
  · rcases mul_eq_zero.mp h4 with h5 | h5
    · exact hp h5
    · exact hd h5
  · exact hd1 (by linarith)

/-- Witness of C25: scenario A, the active node `(1,2,0)`, where `phi = 5` and
`diag = -8/3`. -/
theorem mlndtslap_normalize_twice_witness :
    stencilDiag sA dxinvA ≠ 0 ∧ boxA.contains 1 2 0 ∧ maskA 1 2 0 = 0
    ∧ rampField 1 2 0 ≠ 0 ∧ stencilDiag sA dxinvA ≠ 1
    ∧ mlndtslap_normalize boxA (mlndtslap_normalize boxA rampField maskA sA dxinvA) maskA
        sA dxinvA 1 2 0
      ≠ mlndtslap_normalize boxA rampField maskA sA dxinvA 1 2 0 :=
  have hA : stencilDiag sA dxinvA ≠ 0 := by rw [stencilDiag_scenarioA]; norm_num
  have hB : stencilDiag sA dxinvA ≠ 1 := by rw [stencilDiag_scenarioA]; norm_num
  have hp : rampField 1 2 0 ≠ 0 := by simp only [rampField]; norm_num
  ⟨hA, by decide, by decide, hp, hB,
   (mlndtslap_normalize_twice boxA rampField maskA sA dxinvA hA 1 2 0
      (by decide) (by decide)).2.2 hp hB⟩

/-! ## Smoother and assembler against the operator: theorems -/

theorem foldl_fixed {α β : Type} (g : β → α → α) (l : List β) (st : α)
    (h : ∀ p ∈ l, g p st = st) : l.foldl (fun st p => g p st) st = st := by
  induction l with
  | nil => rfl
  | cons q l ih =>
    rw [List.foldl_cons, h q (List.mem_cons_self _ _)]
    exact ih (fun p hp => h p (List.mem_cons_of_mem _ hp))

theorem Array4.set_self {α : Type} (a : Array4 α) (i j k : Int) (v : α) (h : a i j k = v) :
    a.set i j k v = a := by
  funext i1 j1 k1
  unfold Array4.set
  split
  · rename_i hp
    obtain ⟨rfl, rfl, rfl⟩ := hp
    exact h.symm
  · rfl

/-- C27: a solved state is a fixed point of the smoother. If `diag` is
nonzero, every covered node of the box holds `0`, and at every active node of
the box the nine-point stencil of `mlndtslap_adotx` applied to `sol` equals
`rhs`, then one sweep of `mlndtslap_gauss_seidel` over the box leaves `sol`
unchanged at every node. -/
theorem mlndtslap_gauss_seidel_fixed_point (b : Box) (sol rhs : Array4 Real)
    (msk : Array4 Int) (s : GpuArray Real 3) (dxinv : GpuArray Real AMREX_SPACEDIM)
    (_hd : stencilDiag s dxinv ≠ 0)
    (h0 : ∀ i j k, b.contains i j k → msk i j k ≠ 0 → sol i j k = 0)
    (hsolved : ∀ i j k, b.contains i j k → msk i j k = 0 →
      mlndtslap_adotx b (constField 0) sol s dxinv i j k = rhs i j k) :
    mlndtslap_gauss_seidel b sol rhs msk s dxinv = sol := by
  unfold mlndtslap_gauss_seidel Loop
  refine foldl_fixed
    (fun p st => mlndtslap_gauss_seidel_body rhs msk s _ _ _ p.1 p.2.1 p.2.2 st) b.nodes sol ?_
  rintro ⟨i, j, k⟩ hp
  have hin := (Box.mem_nodes b i j k).mp hp
  simp only
  unfold mlndtslap_gauss_seidel_body
  split
  · rename_i hm
    exact Array4.set_self sol i j k 0 (h0 i j k hin hm)
  · rename_i hm
    have hm0 : msk i j k = 0 := not_not.mp hm
    have hs := hsolved i j k hin hm0
    rw [mlndtslap_adotx_inside b _ (constField 0) sol s dxinv i j k hin] at hs
    simp only [mlndtslap_adotx_body, Array4.set_same] at hs
    refine Array4.set_self sol i j k _ ?_
    rw [hs, sub_self, zero_div, add_zero]

/-- Witness of C27: scenario A with a solution that is `0` on the boundary
and the right-hand side that `mlndtslap_adotx` produces from it. -/
theorem mlndtslap_gauss_seidel_fixed_point_witness :
    stencilDiag sA dxinvA ≠ 0
    ∧ (∀ i j k, boxA.contains i j k → maskA i j k ≠ 0 → interiorField i j k = 0)
    ∧ (∀ i j k, boxA.contains i j k → maskA i j k = 0 →
        mlndtslap_adotx boxA (constField 0) interiorField sA dxinvA i j k
          = mlndtslap_adotx boxA (constField 0) interiorField sA dxinvA i j k)
    ∧ mlndtslap_gauss_seidel boxA interiorField
          (mlndtslap_adotx boxA (constField 0) interiorField sA dxinvA) maskA sA dxinvA
        = interiorField :=
  have hA : stencilDiag sA dxinvA ≠ 0 := by rw [stencilDiag_scenarioA]; norm_num
  have h0 : ∀ i j k, boxA.contains i j k → maskA i j k ≠ 0 → interiorField i j k = 0 :=
    fun i j k _ hm => interiorField_boundary i j k hm
  ⟨hA, h0, fun _ _ _ _ _ => rfl,
   mlndtslap_gauss_seidel_fixed_point boxA interiorField
     (mlndtslap_adotx boxA (constField 0) interiorField sA dxinvA) maskA sA dxinvA hA h0
     (fun _ _ _ _ _ => rfl)⟩

/-- C29: the output of `mlndtslap_fill_ijmatrix` does not depend on its `msk`
argument: for any two mask fields and otherwise equal arguments the four
vectors are identical. The rows and the columns are determined by the box,
`nid` and `owner` alone: `rows` gets the ids of the emitting nodes, `cols`
gets for each of them its id and the non-negative ids of its neighbours. -/
theorem mlndtslap_fill_ijmatrix_mask_independent (ndbx : Box) (nid owner : Array4 Int)
    (ncols rows cols : List Int) (mat : List Real) (msk1 msk2 : Array4 Int)
    (s : GpuArray Real 3) (dxinv : GpuArray Real AMREX_SPACEDIM) :
    mlndtslap_fill_ijmatrix ndbx nid owner ncols rows cols mat msk1 s dxinv
      = mlndtslap_fill_ijmatrix ndbx nid owner ncols rows cols mat msk2 s dxinv
    ∧ (mlndtslap_fill_ijmatrix ndbx nid owner ncols rows cols mat msk1 s dxinv).rows
      = rows ++ (emittedNodes ndbx nid owner).map (fun p => nid p.1 p.2.1 p.2.2)
    ∧ (mlndtslap_fill_ijmatrix ndbx nid owner ncols rows cols mat msk1 s dxinv).cols
      = cols ++ (emittedNodes ndbx nid owner).flatMap (fun p =>
          nid p.1 p.2.1 p.2.2
            :: (neighbourIds nid p.1 p.2.1 p.2.2).filter (fun c => decide (c ≥ 0))) := by
  refine ⟨rfl, ?_, ?_⟩
  · rw [mlndtslap_fill_ijmatrix_eq]
  · rw [mlndtslap_fill_ijmatrix_eq]
    simp only [rowEntriesAt_cols]
/-- The (column, value) pairs of the row of an emitting node of the box. -/
theorem fill_ijmatrix_row_zip (ndbx : Box) (nid owner : Array4 Int) (s : GpuArray Real 3)
    (dxinv : GpuArray Real AMREX_SPACEDIM) (p : Int × Int × Int)
    (h : p ∈ emittedNodes ndbx nid owner) :
    (fill_ijmatrix_row nid owner s dxinv p.1 p.2.1 p.2.2).cols.zip
        (fill_ijmatrix_row nid owner s dxinv p.1 p.2.1 p.2.2).mat
      = rowEntriesAt nid s dxinv p := by
  rw [fill_ijmatrix_row_of_mem ndbx nid owner s dxinv p h]
  exact zip_map_fst_snd _

theorem sum_ite_singleton (c : Prop) [Decidable c] (a : Real) :
    (if c then [a] else []).sum = if c then a else 0 := by
  split <;> simp

/-- C26: the assembled matrix is the Apply operator. For an emitting node
`p = (i,j)` of the plane `k = 0`, a field `x` that is `0` at the neighbours of
`p` with negative id, and a vector `X` with `X[nid(q)] = x(q)` for `p` and its
neighbours `q` with non-negative id, the sum of `value * X[column]` over the
(column, value) pairs of the row of `p` is the value `mlndtslap_adotx` writes
at `p` for the input `x`, with the same `s` and `dxinv`. -/
theorem mlndtslap_fill_ijmatrix_is_adotx (ndbx : Box) (nid owner : Array4 Int)
    (s : GpuArray Real 3) (dxinv : GpuArray Real AMREX_SPACEDIM) (x y : Array4 Real)
    (X : Int → Real) (i j : Int)
    (hp : (i, j, 0) ∈ emittedNodes ndbx nid owner)
    (hX0 : X (nid i j 0) = x i j 0)
    (hXn : ∀ d ∈ neighbourOffsets, nid (i + d.1) (j + d.2) 0 ≥ 0 →
      X (nid (i + d.1) (j + d.2) 0) = x (i + d.1) (j + d.2) 0)
    (hx0 : ∀ d ∈ neighbourOffsets, nid (i + d.1) (j + d.2) 0 < 0 →
      x (i + d.1) (j + d.2) 0 = 0) :
    rowDot (fill_ijmatrix_row nid owner s dxinv i j 0) X
      = mlndtslap_adotx ndbx y x s dxinv i j 0 := by
  have hin := ((mem_emittedNodes ndbx nid owner i j 0).mp hp).1
  have e1 : i + -1 = i - 1 := by ring
  have e2 : j + -1 = j - 1 := by ring
  have T : ∀ (a c : Int) (w : Real), (nid a c 0 ≥ 0 → X (nid a c 0) = x a c 0) →
      (nid a c 0 < 0 → x a c 0 = 0) →
      (if nid a c 0 ≥ 0 then w * X (nid a c 0) else 0) = w * x a c 0 := by
    intro a c w h1 h2
    split
    · rename_i h
      rw [h1 h]
    · rename_i h
      rw [h2 (by omega), mul_zero]
  have t1 := fun w => T (i-1) (j-1) w
    (by simpa [e1, e2] using hXn (-1, -1) (by simp [neighbourOffsets]))
    (by simpa [e1, e2] using hx0 (-1, -1) (by simp [neighbourOffsets]))
  have t2 := fun w => T (i-1) j w
    (by simpa [e1] using hXn (-1, 0) (by simp [neighbourOffsets]))
    (by simpa [e1] using hx0 (-1, 0) (by simp [neighbourOffsets]))
  have t3 := fun w => T (i-1) (j+1) w
    (by simpa [e1] using hXn (-1, 1) (by simp [neighbourOffsets]))
    (by simpa [e1] using hx0 (-1, 1) (by simp [neighbourOffsets]))
  have t4 := fun w => T i (j-1) w
    (by simpa [e2] using hXn (0, -1) (by simp [neighbourOffsets]))
    (by simpa [e2] using hx0 (0, -1) (by simp [neighbourOffsets]))
  have t5 := fun w => T i (j+1) w
    (by simpa using hXn (0, 1) (by simp [neighbourOffsets]))
    (by simpa using hx0 (0, 1) (by simp [neighbourOffsets]))
  have t6 := fun w => T (i+1) (j-1) w
    (by simpa [e2] using hXn (1, -1) (by simp [neighbourOffsets]))
    (by simpa [e2] using hx0 (1, -1) (by simp [neighbourOffsets]))
  have t7 := fun w => T (i+1) j w
    (by simpa using hXn (1, 0) (by simp [neighbourOffsets]))
    (by simpa using hx0 (1, 0) (by simp [neighbourOffsets]))
  have t8 := fun w => T (i+1) (j+1) w
    (by simpa using hXn (1, 1) (by simp [neighbourOffsets]))
    (by simpa using hx0 (1, 1) (by simp [neighbourOffsets]))
  unfold rowDot
  rw [fill_ijmatrix_row_zip ndbx nid owner s dxinv (i, j, 0) hp,
    mlndtslap_adotx_inside ndbx y y x s dxinv i j 0 hin]
  simp only [rowEntriesAt, rowEntries, rowNeighbours, filter_cons_ite, List.filter_nil,
    List.map_cons, List.map_append, map_ite_singleton, List.map_nil, List.sum_cons,
    List.sum_append, sum_ite_singleton, List.sum_nil, decide_eq_true_eq, hX0,
    t1, t2, t3, t4, t5, t6, t7, t8, mlndtslap_adotx_body, Array4.set_same]
  ring

/-- Witness of C26: scenario C, the emitting node `(0,0)`. -/
theorem mlndtslap_fill_ijmatrix_is_adotx_witness :
    ((0, 0, 0) : Int × Int × Int) ∈ emittedNodes boxC nidC ownerAll
    ∧ rowDot (fill_ijmatrix_row nidC ownerAll sA dxinvA 0 0 0) vecC
        = mlndtslap_adotx boxC (constField 0) xC sA dxinvA 0 0 0 :=
  ⟨by decide,
   mlndtslap_fill_ijmatrix_is_adotx boxC nidC ownerAll sA dxinvA xC (constField 0) vecC 0 0
     (by decide)
     (by simp [vecC, nidC, xC])
     (by
       intro d hd
       simp only [neighbourOffsets, List.mem_cons, List.mem_nil_iff, or_false] at hd
       rcases hd with rfl | rfl | rfl | rfl | rfl | rfl | rfl | rfl <;>
         simp [vecC, nidC, xC])
     (by
       intro d hd
       simp only [neighbourOffsets, List.mem_cons, List.mem_nil_iff, or_false] at hd
       rcases hd with rfl | rfl | rfl | rfl | rfl | rfl | rfl | rfl <;>
         simp [nidC, xC])⟩

/-- The weights of `mlndtslap_adotx` are symmetric under point reflection. -/
theorem adotx_weight_reflect (s : GpuArray Real 3) (dxinv : GpuArray Real AMREX_SPACEDIM)
    (d : Int × Int) (hd : d ∈ neighbourOffsets) :
    adotx_weight s dxinv (-d.1) (-d.2) = adotx_weight s dxinv d.1 d.2 := by
  obtain ⟨w00, w10, wm0, w01, w0m, w11, wmm, w1m, wm1⟩ := stencilWeight_values s dxinv
  simp only [neighbourOffsets, List.mem_cons, List.mem_nil_iff, or_false] at hd
  rcases hd with rfl | rfl | rfl | rfl | rfl | rfl | rfl | rfl <;>
    (simp only [neg_neg, neg_zero]
     rw [adotx_weight_eq s dxinv _ _ (by decide) (by decide),
       adotx_weight_eq s dxinv _ _ (by decide) (by decide)]
     simp only [w10, wm0, w01, w0m, w11, wmm, w1m, wm1])

/-- The eight neighbour entries the source tests, with the weights written as
weights of `mlndtslap_adotx`. -/
theorem rowNeighbours_eq (nid : Array4 Int) (s : GpuArray Real 3)
    (dxinv : GpuArray Real AMREX_SPACEDIM) (i j k : Int) :
    rowNeighbours nid s (dxinv 0 * dxinv 0) (dxinv 0 * dxinv 1) (dxinv 1 * dxinv 1) i j k
      = neighbourOffsets.map (fun d =>
          (nid (i + d.1) (j + d.2) k, adotx_weight s dxinv d.1 d.2)) := by
  obtain ⟨w00, w10, wm0, w01, w0m, w11, wmm, w1m, wm1⟩ := stencilWeight_values s dxinv
  have e1 : i + -1 = i - 1 := by ring
  have e2 : j + -1 = j - 1 := by ring
  simp only [rowNeighbours, neighbourOffsets, List.map_cons, List.map_nil, e1, e2, add_zero]
  rw [adotx_weight_eq s dxinv (-1) (-1) (by decide) (by decide),
    adotx_weight_eq s dxinv (-1) 0 (by decide) (by decide),
    adotx_weight_eq s dxinv (-1) 1 (by decide) (by decide),
    adotx_weight_eq s dxinv 0 (-1) (by decide) (by decide),
    adotx_weight_eq s dxinv 0 1 (by decide) (by decide),
    adotx_weight_eq s dxinv 1 (-1) (by decide) (by decide),
    adotx_weight_eq s dxinv 1 0 (by decide) (by decide),
    adotx_weight_eq s dxinv 1 1 (by decide) (by decide),
    w10, wm0, w01, w0m, w11, wmm, w1m, wm1]
  norm_num

/-- The row of an emitting node holds, for each neighbour with non-negative
id, the pair of that id and the weight of `mlndtslap_adotx` at its offset. -/
theorem mem_rowEntriesAt (nid : Array4 Int) (s : GpuArray Real 3)
    (dxinv : GpuArray Real AMREX_SPACEDIM) (i j k : Int) (d : Int × Int)
    (hd : d ∈ neighbourOffsets) (hn : nid (i + d.1) (j + d.2) k ≥ 0) :
    (nid (i + d.1) (j + d.2) k, adotx_weight s dxinv d.1 d.2)
      ∈ rowEntriesAt nid s dxinv (i, j, k) := by
  unfold rowEntriesAt rowEntries
  refine List.mem_cons_of_mem _ ?_
  rw [rowNeighbours_eq, List.mem_filter]
  exact ⟨List.mem_map.mpr ⟨d, hd, rfl⟩, by simpa using hn⟩

theorem neighbourOffsets_neg (d : Int × Int) (hd : d ∈ neighbourOffsets) :
    (-d.1, -d.2) ∈ neighbourOffsets := by
  simp only [neighbourOffsets, List.mem_cons, List.mem_nil_iff, or_false] at hd
  rcases hd with rfl | rfl | rfl | rfl | rfl | rfl | rfl | rfl <;> simp [neighbourOffsets]

theorem find_of_nodup {α β : Type} [DecidableEq α] (l : List (α × β)) (a : α) (v : β)
    (hn : (l.map Prod.fst).Nodup) (h : (a, v) ∈ l) :
    (l.find? (fun cv => decide (cv.1 = a))).map Prod.snd = some v := by
  induction l with
  | nil => simp at h
  | cons q l ih =>
    rw [List.map_cons, List.nodup_cons] at hn
    rcases List.mem_cons.mp h with h1 | h1
    · subst h1
      simp
    · have hne : q.1 ≠ a := by
        intro he
        exact hn.1 (he ▸ List.mem_map.mpr ⟨(a, v), h1, rfl⟩)
      rw [List.find?_cons_of_neg _ (by simpa using hne)]
      exact ih hn.2 h1

/-- C28: the nine-point stencil is symmetric under point reflection,
`w(di,dj) = w(-di,-dj)`, so the matrix assembled by `mlndtslap_fill_ijmatrix`
is symmetric: for two emitting nodes `p` and `q = p + d` that are stencil
neighbours, the row of `p` holds the pair (id of `q`, `w(d)`) and the row of
`q` holds the pair (id of `p`, `w(d)`); when no column id is repeated within
either row, these are the values stored for (row `nid(p)`, column `nid(q)`)
and for (row `nid(q)`, column `nid(p)`). -/
theorem mlndtslap_fill_ijmatrix_symmetric (ndbx : Box) (nid owner : Array4 Int)
    (s : GpuArray Real 3) (dxinv : GpuArray Real AMREX_SPACEDIM) :
    (∀ d ∈ neighbourOffsets,
      adotx_weight s dxinv (-d.1) (-d.2) = adotx_weight s dxinv d.1 d.2)
    ∧ (∀ (i j k : Int) (d : Int × Int), (i, j, k) ∈ emittedNodes ndbx nid owner →
        d ∈ neighbourOffsets → (i + d.1, j + d.2, k) ∈ emittedNodes ndbx nid owner →
        (nid (i + d.1) (j + d.2) k, adotx_weight s dxinv d.1 d.2)
          ∈ (fill_ijmatrix_row nid owner s dxinv i j k).cols.zip
              (fill_ijmatrix_row nid owner s dxinv i j k).mat
        ∧ (nid i j k, adotx_weight s dxinv d.1 d.2)
          ∈ (fill_ijmatrix_row nid owner s dxinv (i + d.1) (j + d.2) k).cols.zip
              (fill_ijmatrix_row nid owner s dxinv (i + d.1) (j + d.2) k).mat
        ∧ ((fill_ijmatrix_row nid owner s dxinv i j k).cols.Nodup →
            (fill_ijmatrix_row nid owner s dxinv (i + d.1) (j + d.2) k).cols.Nodup →
            rowValue (fill_ijmatrix_row nid owner s dxinv i j k) (nid (i + d.1) (j + d.2) k)
              = some (adotx_weight s dxinv d.1 d.2)
            ∧ rowValue (fill_ijmatrix_row nid owner s dxinv (i + d.1) (j + d.2) k) (nid i j k)
              = some (adotx_weight s dxinv d.1 d.2))) := by
  refine ⟨adotx_weight_reflect s dxinv, ?_⟩
  intro i j k d hp hd hq
  have hnq := ((mem_emittedNodes ndbx nid owner _ _ _).mp hq).2.1
  have hnp := ((mem_emittedNodes ndbx nid owner _ _ _).mp hp).2.1
  have m1 := mem_rowEntriesAt nid s dxinv i j k d hd hnq
  have hback : nid (i + d.1 + (-d.1, -d.2).1) (j + d.2 + (-d.1, -d.2).2) k = nid i j k := by
    simp
  have m2 := mem_rowEntriesAt nid s dxinv (i + d.1) (j + d.2) k (-d.1, -d.2)
    (neighbourOffsets_neg d hd) (by rw [hback]; exact hnp)
  rw [hback] at m2
  simp only [adotx_weight_reflect s dxinv d hd] at m2
  have z1 := fill_ijmatrix_row_zip ndbx nid owner s dxinv (i, j, k) hp
  have z2 := fill_ijmatrix_row_zip ndbx nid owner s dxinv (i + d.1, j + d.2, k) hq
  simp only at z1 z2
  refine ⟨by rw [z1]; exact m1, by rw [z2]; exact m2, ?_⟩
  intro n1 n2
  unfold rowValue
  rw [z1, z2]
  have c1 := fill_ijmatrix_row_of_mem ndbx nid owner s dxinv (i, j, k) hp
  have c2 := fill_ijmatrix_row_of_mem ndbx nid owner s dxinv (i + d.1, j + d.2, k) hq
  simp only at c1 c2
  rw [c1] at n1
  rw [c2] at n2
  exact ⟨find_of_nodup _ _ _ n1 m1, find_of_nodup _ _ _ n2 m2⟩

/-- Witness of C28: scenario C, the emitting nodes `(0,0)` and `(1,0)`. -/
theorem mlndtslap_fill_ijmatrix_symmetric_witness :
    ((0, 0, 0) : Int × Int × Int) ∈ emittedNodes boxC nidC ownerAll
    ∧ ((1, 0) : Int × Int) ∈ neighbourOffsets
    ∧ ((0 + 1, 0 + 0, 0) : Int × Int × Int) ∈ emittedNodes boxC nidC ownerAll
    ∧ (fill_ijmatrix_row nidC ownerAll sA dxinvA 0 0 0).cols.Nodup
    ∧ (fill_ijmatrix_row nidC ownerAll sA dxinvA (0 + 1) (0 + 0) 0).cols.Nodup
    ∧ rowValue (fill_ijmatrix_row nidC ownerAll sA dxinvA 0 0 0) (nidC (0 + 1) (0 + 0) 0)
        = some (adotx_weight sA dxinvA 1 0)
    ∧ rowValue (fill_ijmatrix_row nidC ownerAll sA dxinvA (0 + 1) (0 + 0) 0) (nidC 0 0 0)
        = some (adotx_weight sA dxinvA 1 0) :=
  ⟨by decide, by decide, by decide, by decide, by decide,
   ((mlndtslap_fill_ijmatrix_symmetric boxC nidC ownerAll sA dxinvA).2 0 0 0 (1, 0)
      (by decide) (by decide) (by decide)).2.2 (by decide) (by decide)⟩

end amrex
